import Mathlib

/-!
# Verification of the `fuzzy` approximate regex matcher

This file is a shallow embedding, in Lean 4, of the core matcher of the
`fuzzy_rust` repository, centred on `src/fuzzy/src/table_solution.rs` together
with `src/fuzzy/src/flat_pattern.rs` and `src/fuzzy/src/diff_output.rs`.
Rust `usize` values are modelled as `Nat` (Rust subtraction that would
underflow and Rust out-of-bounds indexing cannot occur on the executions the
theorems below are about; `Nat` subtraction is truncated and list indexing is
total with a default, as noted at each site).  Rust `panic!` sites are
modelled as a dedicated `Error.panicked` value, so a Lean run returns `ok`
exactly when the corresponding Rust run returns `Ok`.

Definitions are kept executable so that concrete runs can be evaluated by
`decide` / `simp`.
-/

namespace Fuzzy

/-- Decidable equality for `Except` results, so concrete runs can be checked
by `decide`. -/
instance {ε α : Type} [DecidableEq ε] [DecidableEq α] :
    DecidableEq (Except ε α) := fun x y =>
  match x, y with
  | .ok a, .ok b =>
      if h : a = b then .isTrue (by rw [h]) else .isFalse (by simp [h])
  | .error a, .error b =>
      if h : a = b then .isTrue (by rw [h]) else .isFalse (by simp [h])
  | .ok _, .error _ => .isFalse (by simp)
  | .error _, .ok _ => .isFalse (by simp)

/-- A character class, as used by `Class::matches` in `src/fuzzy/src/lib.rs`:
a set of inclusive character ranges; `matches` tests membership in any range.
(The Rust struct wraps `regex_syntax::hir::Class`; only the list of ranges
and the `matches` test are visible to the core matcher.) -/
structure Class where
  ranges : List (Char × Char)
deriving DecidableEq, Repr

/-- `Class::matches` from `src/fuzzy/src/lib.rs`. -/
def Class.matches (cl : Class) (c : Char) : Bool :=
  cl.ranges.any (fun range => range.1 ≤ c && c ≤ range.2)

/-- The `Match` payload type (`Match::Lit` / `Match::Class`) used in pattern
elements and trace steps. -/
inductive Match where
  | lit : Char → Match
  | cls : Class → Match
deriving DecidableEq, Repr

mutual
/-- The core pattern AST element (`Element`), as consumed by
`FlatPattern::custom` in `src/fuzzy/src/flat_pattern.rs`. -/
inductive Element where
  | matchE : Match → Element
  | capture : Pattern → Element
  | repetition : Pattern → Element
  | alternative : Pattern → Pattern → Element
deriving DecidableEq, Repr
/-- A pattern (`Pattern<ElementCore>`) is the list (`elems` vector) of its
elements; the list structure of `elems` is represented directly by
`Pattern.nil` / `Pattern.cons`. -/
inductive Pattern where
  | nil : Pattern
  | cons : Element → Pattern → Pattern
deriving DecidableEq, Repr
end

/-- The text input (`Atoms`): a vector of characters (`atoms`). -/
structure Atoms where
  atoms : List Char
deriving DecidableEq, Repr

/-- `Flat`, an individual element of the flattened pattern
(`src/fuzzy/src/flat_pattern.rs`). -/
inductive Flat where
  | lit : Char → Flat
  | cls : Class → Flat
  | groupStart : Flat
  | groupEnd : Flat
  | alternativeLeft : Nat → Flat
  | alternativeRight : Nat → Flat
  | repetitionStart : Nat → Flat
  | repetitionEnd : Nat → Flat
deriving DecidableEq, Repr

/-- `FlatPattern` is a vector of `Flat` instructions. -/
abbrev FlatPattern := List Flat

/-- `FlatPattern::single_patt`: push `reps` copies of `elem`. -/
def single_patt (result : List Flat) (elem : Flat) (reps : Nat) : List Flat :=
  result ++ List.replicate reps elem

/-- `FlatPattern::update_patt`: overwrite `result[ix..ix+reps]` with `elem`. -/
def update_patt (result : List Flat) (elem : Flat) (ix reps : Nat) : List Flat :=
  (List.range reps).foldl (fun r i => r.set (ix + i) elem) result

mutual
/-- `FlatPattern::elem_patts` (`src/fuzzy/src/flat_pattern.rs`),
accumulating into `result`. -/
def elem_patts (result : List Flat) (elem : Element) (reps rep_incr : Nat) :
    List Flat :=
  match elem with
  | .matchE (.lit c) => single_patt result (.lit c) reps
  | .matchE (.cls cl) => single_patt result (.cls cl) reps
  | .capture inner =>
      let r1 := single_patt result .groupStart reps
      let r2 := pattern_patts r1 inner reps rep_incr
      single_patt r2 .groupEnd reps
  | .repetition inner =>
      let next_reps := reps + rep_incr
      let start_ix := result.length
      let r1 := single_patt result (.repetitionStart 0) reps
      let r2 := pattern_patts r1 inner next_reps rep_incr
      let end_ix := r2.length
      let r3 := single_patt r2 (.repetitionEnd 0) next_reps
      let off := end_ix - start_ix
      let r4 := update_patt r3 (.repetitionStart off) start_ix reps
      update_patt r4 (.repetitionEnd off) end_ix next_reps
  | .alternative p1 p2 =>
      let left_ix := result.length
      let r1 := single_patt result (.alternativeLeft 0) reps
      let r2 := pattern_patts r1 p1 reps rep_incr
      let right_ix := r2.length
      let r3 := single_patt r2 (.alternativeRight 0) reps
      let r4 := pattern_patts r3 p2 reps rep_incr
      let next_ix := r4.length
      let left_off := right_ix - left_ix
      let right_off := next_ix - right_ix
      let r5 := update_patt r4 (.alternativeLeft left_off) left_ix reps
      update_patt r5 (.alternativeRight right_off) right_ix reps
/-- `FlatPattern::pattern_patts` (`src/fuzzy/src/flat_pattern.rs`). -/
def pattern_patts (result : List Flat) (p : Pattern) (reps rep_incr : Nat) :
    List Flat :=
  match p with
  | .nil => result
  | .cons e rest => pattern_patts (elem_patts result e reps rep_incr) rest reps rep_incr
end

/-- `FlatPattern::custom` (the solver uses `rep_incr = 1`). -/
def FlatPattern.custom (p : Pattern) (rep_incr : Nat) : FlatPattern :=
  pattern_patts [] p 1 rep_incr

/-- `Step`, an element of the output trace (`src/fuzzy/src/lib.rs`). -/
inductive Step (P T : Type) where
  | hit : P → T → Step P T
  | skipPattern : P → Step P T
  | skipText : T → Step P T
  | startCapture : Step P T
  | stopCapture : Step P T
deriving DecidableEq, Repr

/-- The error type (`src/fuzzy/src/error.rs`).  `panicked` is not a Rust
`Error` variant: it models a Rust `panic!` (process abort), so that a Lean
run returns a non-`ok` outcome exactly when the Rust run does not return
`Ok`. -/
inductive Error where
  | couldNotReadFile : String → Error
  | patternNotRegex : String → Error
  | patternUnsupported : String → Error
  | regexBoundTooLarge : Error
  | exceededMaxSteps : Nat → Error
  | noNodeProgress : String → Error
  | noNodeType : String → Error
  | cannotInitialiseNode : String → Error
  | cannotUpdateNode : String → Error
  | cannotGetNodeField : String → String → Error
  | incompleteFinalState : Error
  | panicked : String → Error
deriving DecidableEq, Repr

/-- `Ix`, the lattice index (`src/fuzzy/src/table_solution.rs`). -/
structure Ix where
  pattern : Nat
  text : Nat
  reps : Nat
  rep_off : Nat
deriving DecidableEq, Repr

/-- `Default::default()` for `Ix`: all fields zero. -/
def Ix.default : Ix := ⟨0, 0, 0, 0⟩

/-- `Ix::can_restart`. -/
def Ix.can_restart (ix : Ix) : Bool := ix.rep_off = 0

/-- Debug rendering of an `Ix` (stands in for Rust `format!` of the index in
error payloads; the exact string is never inspected). -/
def Ix.repr (ix : Ix) : String :=
  "Ix " ++ toString ix.pattern ++ " " ++ toString ix.text ++ " "
    ++ toString ix.reps ++ " " ++ toString ix.rep_off

/-- `StepType` (`src/fuzzy/src/table_solution.rs`). -/
inductive StepType where
  | skipText : StepType
  | skipPattern : StepType
  | hit : StepType
  | startGroup : StepType
  | endGroup : StepType
  | startLeft : StepType
  | startRight : Nat → StepType
  | passRight : Nat → StepType
  | startRepetition : StepType
  | passRepetition : Nat → StepType
  | endRepetition : StepType
  | restartRepetition : Nat → StepType
deriving DecidableEq, Repr

/-- `StepType::cost`. -/
def StepType.cost : StepType → Nat
  | .skipPattern => 1
  | .skipText => 1
  | _ => 0

/-- `StepType::step`. -/
def StepType.step : StepType → Option (Step Unit Unit)
  | .hit => some (.hit () ())
  | .skipPattern => some (.skipPattern ())
  | .skipText => some (.skipText ())
  | .startGroup => some .startCapture
  | .endGroup => some .stopCapture
  | _ => none

/-- `Config`: the text and flattened pattern for one solve
(`src/fuzzy/src/table_solution.rs`). -/
structure Config where
  text : List Char
  pattern : FlatPattern
deriving DecidableEq, Repr

/-- `Config::new`. -/
def Config.new (pattern : Pattern) (text : Atoms) : Config :=
  { text := text.atoms, pattern := FlatPattern.custom pattern 1 }

/-- `Config::get`. -/
def Config.get (conf : Config) (ix : Ix) : Option Flat × Option Char :=
  (conf.pattern.get? ix.pattern, conf.text.get? ix.text)

/-- `Config::start`. -/
def Config.start (_conf : Config) : Ix :=
  { text := 0, pattern := 0, reps := 1, rep_off := 0 }

/-- `Config::end` (`end` is a Lean keyword, hence `endIx`). -/
def Config.endIx (conf : Config) : Ix :=
  { text := conf.text.length, pattern := conf.pattern.length, reps := 1, rep_off := 0 }

/-- `Config::step`: the successor index for a given step type.  Rust `usize`
subtraction is modelled by truncated `Nat` subtraction; on the indices the
solver actually visits no subtraction underflows. -/
def Config.step (_conf : Config) (ix : Ix) (step_type : StepType) : Ix :=
  match step_type with
  | .hit => { ix with pattern := ix.pattern + ix.reps, text := ix.text + 1, rep_off := 0 }
  | .skipText => { ix with text := ix.text + 1, rep_off := 0 }
  | .skipPattern => { ix with pattern := ix.pattern + ix.reps }
  | .startGroup => { ix with pattern := ix.pattern + ix.reps }
  | .endGroup => { ix with pattern := ix.pattern + ix.reps }
  | .startLeft => { ix with pattern := ix.pattern + ix.reps }
  | .startRight off => { ix with pattern := ix.pattern + off + ix.reps }
  | .passRight off => { ix with pattern := ix.pattern + off }
  | .startRepetition =>
      { ix with pattern := ix.pattern + ix.reps, reps := ix.reps + 1, rep_off := ix.rep_off + 1 }
  | .endRepetition =>
      { ix with pattern := ix.pattern + ix.reps, reps := ix.reps - 1, rep_off := ix.rep_off - 1 }
  | .passRepetition off => { ix with pattern := ix.pattern + off + ix.reps + 1 }
  | .restartRepetition off => { ix with pattern := ix.pattern - off, reps := ix.reps - 1 }

/-- `NodeType` (`src/fuzzy/src/table_solution.rs`). -/
inductive NodeType where
  | finishedPattern : NodeType
  | finishedText : NodeType
  | hit : NodeType
  | noHit : NodeType
  | startGroup : NodeType
  | endGroup : NodeType
  | alternativeLeft : Nat → NodeType
  | alternativeRight : Nat → NodeType
  | repetitionStart : Nat → NodeType
  | repetitionRestart : Nat → NodeType
  | repetitionEnd : NodeType
deriving DecidableEq, Repr

/-- `NodeType::get`. -/
def NodeType.get (opt_flat : Option Flat) (opt_text : Option Char) (ix : Ix) :
    Option NodeType :=
  match opt_flat with
  | none => match opt_text with
    | none => none
    | some _ => some .finishedPattern
  | some flat => some (match flat with
    | .lit c => if opt_text = some c then .hit
        else if opt_text = none then .finishedText else .noHit
    | .cls cl => if (opt_text.map cl.matches).getD false then .hit
        else if opt_text = none then .finishedText else .noHit
    | .groupStart => .startGroup
    | .groupEnd => .endGroup
    | .alternativeLeft off => .alternativeLeft off
    | .alternativeRight off => .alternativeRight off
    | .repetitionStart off => .repetitionStart off
    | .repetitionEnd off => if ix.can_restart then .repetitionRestart off else .repetitionEnd)

/-- `NodeType::step_types` (the Rust `NonEmpty` is modelled as a plain list;
every result is nonempty). -/
def NodeType.step_types : NodeType → List StepType
  | .finishedPattern => [.skipText]
  | .finishedText => [.skipPattern]
  | .hit => [.hit, .skipPattern, .skipText]
  | .noHit => [.skipPattern, .skipText]
  | .startGroup => [.startGroup]
  | .endGroup => [.endGroup]
  | .alternativeLeft off => [.startLeft, .startRight off]
  | .alternativeRight off => [.passRight off]
  | .repetitionStart off => [.startRepetition, .passRepetition off]
  | .repetitionRestart off => [.restartRepetition off]
  | .repetitionEnd => [.endRepetition]

/-- `Node` (`src/fuzzy/src/table_solution.rs`). -/
structure Node where
  current : Nat
  parent : Ix
  score : Nat
  step_type : StepType
  next : Ix
  step_types : List StepType
deriving DecidableEq, Repr

/-- `Node::new`. -/
def Node.new : Node :=
  { current := 0, parent := Ix.default, score := 0, step_type := .hit,
    next := Ix.default, step_types := [] }

/-- `Node::is_ready`. -/
def Node.is_ready (n : Node) : Bool := n.current = 0

/-- `Node::is_working`. -/
def Node.is_working (n : Node) : Bool :=
  n.current > 0 && n.current ≤ n.step_types.length

/-- `Node::is_done`. -/
def Node.is_done (n : Node) : Bool := n.current > n.step_types.length

/-- `Node::current_step_type`. -/
def Node.current_step_type (n : Node) : Except Error StepType :=
  if n.is_working then
    .ok (n.step_types.getD (n.current - 1) .hit)
  else
    .error (.cannotGetNodeField "current_step_type" "working")

/-- `Node::done_info`. -/
def Node.done_info (n : Node) : Except Error (Nat × StepType × Ix) :=
  if n.is_done then .ok (n.score, n.step_type, n.next)
  else .error (.cannotGetNodeField "score/step_type/next" "done")

/-- `Node::initialise` (functional: returns the updated node on success; the
Rust method leaves `self` unchanged on error). -/
def Node.initialise (n : Node) (end_ix parent_ix ix : Ix)
    (opt_node_type : Option NodeType) : Except Error Node :=
  if n.is_ready then
    match opt_node_type with
    | some node_type =>
        .ok { n with parent := parent_ix, current := n.current + 1,
                     step_types := node_type.step_types }
    | none =>
        if ix = end_ix then
          .ok { n with parent := parent_ix, current := n.current + 1 }
        else
          .error (.noNodeType ix.repr)
  else
    .error (.cannotInitialiseNode ix.repr)

/-- `Node::update` (functional: returns the updated node and the recorded
parent index on success). -/
def Node.update (n : Node) (new_child : Ix) (ix : Ix) (new_score : Nat) :
    Except Error (Node × Ix) :=
  if n.is_working then
    match n.current_step_type with
    | .error e => .error e
    | .ok current_step_type =>
      if n.current ≤ 1 || new_score + current_step_type.cost < n.score then
        .ok ({ n with step_type := current_step_type,
                      score := new_score + current_step_type.cost,
                      next := new_child, current := n.current + 1 }, n.parent)
      else
        .ok ({ n with current := n.current + 1 }, n.parent)
  else
    .error (.cannotUpdateNode ix.repr)

/-- `State`: the dense node table (`src/fuzzy/src/table_solution.rs`). -/
structure State where
  nodes : List Node
  pattern_len : Nat
deriving DecidableEq, Repr

/-- `State::node`: the address of a lattice index in the dense table. -/
def State.node (st : State) (ix : Ix) : Nat :=
  ix.text * st.pattern_len + ix.pattern + ix.rep_off

/-- `State::new`. -/
def State.new (conf : Config) : State :=
  let pattern_len := conf.pattern.length + 1
  let text_len := conf.text.length + 1
  let num_nodes := text_len * pattern_len
  { nodes := List.replicate num_nodes Node.new, pattern_len := pattern_len }

/-- `State::get` (Rust indexing panics out of bounds; the solver only reads
in-bounds cells, so the total `getD` agrees with Rust on every run). -/
def State.get (st : State) (ix : Ix) : Node :=
  st.nodes.getD (st.node ix) Node.new

/-- `State::get_mut` followed by writing: replace the addressed cell
(`List.set` is the identity out of bounds; the solver only writes in-bounds
cells). -/
def State.setNode (st : State) (ix : Ix) (n : Node) : State :=
  { st with nodes := st.nodes.set (st.node ix) n }

/-- `Down`: the work-loop cursor descending into `current` from `parent`. -/
structure Down where
  parent : Ix
  current : Ix
deriving DecidableEq, Repr

/-- `Back`: the work-loop cursor returning completed `child` to `current`. -/
structure Back where
  current : Ix
  child : Ix
deriving DecidableEq, Repr

/-- `LoopState`. -/
inductive LoopState where
  | down : Down → LoopState
  | back : Back → LoopState
deriving DecidableEq, Repr

/-- `LoopState::current`. -/
def LoopState.currentIx : LoopState → Ix
  | .down d => d.current
  | .back b => b.current

/-- One pass of the body of the work loop in
`TableSolution::calculate_optimal_path` (the `match` at lines 82-98 of
`src/fuzzy/src/table_solution.rs`): on success it yields `new_parent` and
the updated state. -/
def loopBody (conf : Config) : LoopState → State → Except Error (Ix × State)
  | .down down, st =>
      if (st.get down.current).is_ready then
        let (flat, text) := conf.get down.current
        let opt_node_type := NodeType.get flat text down.current
        match (st.get down.current).initialise conf.endIx down.parent down.current
            opt_node_type with
        | .error e => .error e
        | .ok node' => .ok (down.parent, st.setNode down.current node')
      else
        .ok (down.parent, st)
  | .back back, st =>
      match (st.get back.child).done_info with
      | .error e => .error e
      | .ok (new_score, _, _) =>
        match (st.get back.current).update back.child back.current new_score with
        | .error e => .error e
        | .ok (node', new_parent) => .ok (new_parent, st.setNode back.current node')

/-- The tail of one iteration of the work loop (lines 100-118 of
`src/fuzzy/src/table_solution.rs`): decide whether to break, and otherwise
compute the next `LoopState`.  `none` means the loop breaks. -/
def loopNext (conf : Config) (ls : LoopState) (new_parent : Ix) (st : State) :
    Except Error (Option LoopState) :=
  let current_ix := ls.currentIx
  let final_state := st.get current_ix
  if current_ix = conf.start ∧ final_state.is_done then
    .ok none
  else if final_state.is_done then
    .ok (some (.back { current := new_parent, child := current_ix }))
  else if final_state.is_working then
    match final_state.current_step_type with
    | .error e => .error e
    | .ok current_step_type =>
        let child := conf.step current_ix current_step_type
        .ok (some (.down { parent := current_ix, current := child }))
  else
    .error (.noNodeProgress current_ix.repr)

/-- The work loop of `TableSolution::calculate_optimal_path`, with the Rust
`loop_counter` made explicit and a structural `fuel` so that the recursion is
executable.  The loop is always entered with `fuel + counter = 1000000000`,
so at `fuel = 0` the counter has reached the ceiling and the `fuel = 0` arm
returns exactly what the counter check at the top of the Rust loop would
return (`ExceededMaxSteps(counter + 1)`); for `fuel ≥ 1` the body is the
Rust loop body verbatim. -/
def goLoop (conf : Config) : Nat → Nat → LoopState → State → Except Error State
  | 0, counter, _, _ => .error (.exceededMaxSteps (counter + 1))
  | fuel + 1, counter, ls, st =>
    if counter + 1 ≥ 1000000000 then .error (.exceededMaxSteps (counter + 1))
    else
      match loopBody conf ls st with
      | .error e => .error e
      | .ok (new_parent, st') =>
        match loopNext conf ls new_parent st' with
        | .error e => .error e
        | .ok none => .ok st'
        | .ok (some ls') => goLoop conf fuel (counter + 1) ls' st'

/-- `TableSolution::calculate_optimal_path`: run the work loop from the start
index, returning the final table. -/
def calculate_optimal_path (conf : Config) (st : State) : Except Error State :=
  goLoop conf 1000000000 0 (.down { parent := Ix.default, current := conf.start }) st

/-- The final solution value (`TableSolution`). -/
structure TableSolution where
  score : Nat
  trace : List (Step Match Char)
deriving DecidableEq, Repr

/-- Build one emitted trace step from the recorded `StepType` and the pattern
and text at the current index (the `step.map(...)` closures at lines 40-53 of
`src/fuzzy/src/table_solution.rs`; the Rust `panic!` arms become
`Error.panicked`). -/
def traceStep (patt : Option Flat) (text : Option Char) (step_type : StepType) :
    Except Error (Option (Step Match Char)) :=
  match step_type.step with
  | none => .ok none
  | some step =>
    match step with
    | .hit _ _ =>
      match patt, text with
      | some (.lit c), some t => .ok (some (.hit (.lit c) t))
      | some (.cls cl), some t => .ok (some (.hit (.cls cl) t))
      | _, _ => .error (.panicked "Unexpected trace pattern or text")
    | .skipPattern _ =>
      match patt with
      | some (.lit c) => .ok (some (.skipPattern (.lit c)))
      | some (.cls cl) => .ok (some (.skipPattern (.cls cl)))
      | _ => .error (.panicked "Unexpected trace pattern")
    | .skipText _ =>
      match text with
      | some t => .ok (some (.skipText t))
      | none => .error (.panicked "Unexpected trace text")
    | .startCapture => .ok (some .startCapture)
    | .stopCapture => .ok (some .stopCapture)

/-- The trace-reconstruction loop of `TableSolution::solve` (lines 33-55 of
`src/fuzzy/src/table_solution.rs`).  The Rust loop is unbounded; it is run
here with enough fuel to cover every cell of the table, which suffices for
every terminating Rust run (a longer walk would revisit a cell and hence
never terminate in Rust either).  Exhausted fuel reports
`IncompleteFinalState`, which likewise only happens on runs on which Rust
does not return. -/
def walkTrace (conf : Config) (st : State) :
    Nat → Ix → List (Step Match Char) → Except Error (Ix × List (Step Match Char))
  | 0, from_ix, acc => if from_ix = conf.endIx then .ok (from_ix, acc)
      else .error .incompleteFinalState
  | fuel + 1, from_ix, acc =>
    if !(st.get from_ix).is_done ∨ from_ix = conf.endIx then .ok (from_ix, acc)
    else
      match (st.get from_ix).done_info with
      | .error e => .error e
      | .ok (_, step_type, next) =>
        match traceStep (conf.get from_ix).1 (conf.get from_ix).2 step_type with
        | .error e => .error e
        | .ok none => walkTrace conf st fuel next acc
        | .ok (some s) => walkTrace conf st fuel next (acc ++ [s])

/-- `TableSolution::solve`. -/
def TableSolution.solve (pattern : Pattern) (text : Atoms) :
    Except Error TableSolution :=
  let conf := Config.new pattern text
  let state := State.new conf
  let start_ix := conf.start
  let end_ix := conf.endIx
  match calculate_optimal_path conf state with
  | .error e => .error e
  | .ok state =>
    match (state.get start_ix).done_info with
    | .error _ => .error .incompleteFinalState
    | .ok (score, _, _) =>
      match walkTrace conf state (state.nodes.length + 1) start_ix [] with
      | .error e => .error e
      | .ok (from_ix, trace) =>
        if from_ix ≠ end_ix then .error .incompleteFinalState
        else .ok { score := score, trace := trace }

/-- The list of step kinds available at a lattice index: the composition of
`Config::get`, `NodeType::get` and `NodeType::step_types` used by the solver
when it initialises the node at `ix` (an empty list when `NodeType::get`
returns `None`, which happens exactly at indices past both pattern and
text). -/
def Config.avail (conf : Config) (ix : Ix) : List StepType :=
  let (flat, text) := conf.get ix
  match NodeType.get flat text ix with
  | none => []
  | some nt => nt.step_types

/-! ## The diff renderer (`src/fuzzy/src/diff_output.rs`) -/

/-- The placeholder character for a skipped class (`const ANY` in
`src/fuzzy/src/diff_output.rs`). -/
def ANY : Char := '?'

/-- `Same`: a run of characters present in both pattern and text. -/
structure Same where
  text : List Char
deriving DecidableEq, Repr

/-- `Diff`: consecutive skipped pattern (`taken`) and text (`added`)
characters. -/
structure Diff where
  taken : List Char
  added : List Char
deriving DecidableEq, Repr

/-- `Chunk`. -/
inductive Chunk where
  | same : Same → Chunk
  | diff : Diff → Chunk
deriving DecidableEq, Repr

/-- `Chunk::new_same`. -/
def Chunk.new_same (c : Char) : Chunk := .same { text := [c] }

/-- `Chunk::new_added`. -/
def Chunk.new_added (c : Char) : Chunk := .diff { taken := [], added := [c] }

/-- `Chunk::new_taken`. -/
def Chunk.new_taken (c : Char) : Chunk := .diff { taken := [c], added := [] }

/-- `DiffOutput`. -/
structure DiffOutput where
  chunks : List Chunk
deriving DecidableEq, Repr

/-- Replace the last element of a list (models mutating through
`chunks.last_mut()`); the Rust code only does so when the list is nonempty. -/
def setLast (l : List Chunk) (c : Chunk) : List Chunk :=
  l.dropLast ++ [c]

/-- One iteration of the fold in `DiffOutput::new` (lines 52-65 of
`src/fuzzy/src/diff_output.rs`): dispatch on the step and the last chunk. -/
def diffStep (chunks : List Chunk) (step : Step Match Char) : List Chunk :=
  match step, chunks.getLast? with
  | .hit _ c, some (.same same) => setLast chunks (.same { text := same.text ++ [c] })
  | .hit _ c, _ => chunks ++ [Chunk.new_same c]
  | .skipText c, some (.diff diff) => setLast chunks (.diff { diff with added := diff.added ++ [c] })
  | .skipText c, _ => chunks ++ [Chunk.new_added c]
  | .skipPattern (.lit c), some (.diff diff) => setLast chunks (.diff { diff with taken := diff.taken ++ [c] })
  | .skipPattern (.cls _), some (.diff diff) => setLast chunks (.diff { diff with taken := diff.taken ++ [ANY] })
  | .skipPattern (.lit c), _ => chunks ++ [Chunk.new_taken c]
  | .skipPattern (.cls _), _ => chunks ++ [Chunk.new_taken ANY]
  | _, _ => chunks

/-- `DiffOutput::new` (the `score` argument is unused by the Rust code). -/
def DiffOutput.new (_score : Nat) (trace : List (Step Match Char)) : DiffOutput :=
  { chunks := trace.foldl diffStep [] }

/-- Rendering of one chunk, as in the `Display` instance of `DiffOutput`
(lines 70-87 of `src/fuzzy/src/diff_output.rs`). -/
def Chunk.render : Chunk → String
  | .same s => String.mk s.text
  | .diff d =>
      if d.added.isEmpty then "[-" ++ String.mk d.taken ++ "-]"
      else if d.taken.isEmpty then "\x7b+" ++ String.mk d.added ++ "+\x7d"
      else "[-" ++ String.mk d.taken ++ "-]" ++ "\x7b+" ++ String.mk d.added ++ "+\x7d"

/-- The full `Display` rendering of a `DiffOutput`. -/
def DiffOutput.render (d : DiffOutput) : String :=
  String.join (d.chunks.map Chunk.render)

/-! ## Node lifecycle (claim C10) -/

/-- The nodes reachable from `Node::new` by successful `initialise` and
`update` calls. -/
inductive NodeReachable : Node → Prop where
  | new : NodeReachable Node.new
  | init {n n' : Node} {end_ix parent_ix ix : Ix} {ont : Option NodeType} :
      NodeReachable n → n.initialise end_ix parent_ix ix ont = .ok n' →
      NodeReachable n'
  | upd {n n' : Node} {new_child ix : Ix} {new_score : Nat} {parent : Ix} :
      NodeReachable n → n.update new_child ix new_score = .ok (n', parent) →
      NodeReachable n'

/-- Exactly one of the three lifecycle predicates holds. -/
def Node.exactlyOneState (n : Node) : Prop :=
  (n.is_ready ∧ ¬ n.is_working ∧ ¬ n.is_done)
  ∨ (¬ n.is_ready ∧ n.is_working ∧ ¬ n.is_done)
  ∨ (¬ n.is_ready ∧ ¬ n.is_working ∧ n.is_done)

/-! ## The step relation on lattice indices -/

/-- One solver step: `ix'` is a successor of `ix` via an available step
type. -/
def StepRel (conf : Config) (ix ix' : Ix) : Prop :=
  ∃ st ∈ conf.avail ix, ix' = conf.step ix st

/-- `PathFromTo conf ix π ix'`: `π` is a chain of available step types
leading from `ix` to `ix'`. -/
inductive PathFromTo (conf : Config) : Ix → List StepType → Ix → Prop where
  | nil (ix : Ix) : PathFromTo conf ix [] ix
  | cons {ix ix' : Ix} {st : StepType} {rest : List StepType} :
      st ∈ conf.avail ix → ix' = conf.step ix st →
      PathFromTo conf ix' rest matchEnd → PathFromTo conf ix (st :: rest) matchEnd

/-- The indices reachable from a given index through the step relation. -/
inductive Reaches (conf : Config) : Ix → Ix → Prop where
  | refl (ix : Ix) : Reaches conf ix ix
  | tail {ix ix' ix'' : Ix} : Reaches conf ix ix' → StepRel conf ix' ix'' →
      Reaches conf ix ix''

/-- The cost of a chain of step types. -/
def pathCost (π : List StepType) : Nat :=
  (π.map StepType.cost).sum

/-- Is this trace step a `SkipPattern` or `SkipText`? -/
def isSkipStep : Step Match Char → Bool
  | .skipPattern _ => true
  | .skipText _ => true
  | _ => false

/-- The character a step contributes to the `taken` side of a diff chunk
(a skipped `Lit` contributes its literal, a skipped `Class` the placeholder
`ANY`). -/
def stepTaken : Step Match Char → Option Char
  | .skipPattern (.lit c) => some c
  | .skipPattern (.cls _) => some ANY
  | _ => none

/-- The character a step contributes to the `added` side of a diff chunk. -/
def stepAdded : Step Match Char → Option Char
  | .skipText c => some c
  | _ => none

/-- The maximal runs of *adjacent* `SkipPattern`/`SkipText` steps of a trace
(any other step, including a capture marker, ends a run).  This is the
grouping described by the claim. -/
def skipRunsAdjacent : List (Step Match Char) → List (List (Step Match Char))
  | [] => []
  | s :: rest =>
    if isSkipStep s then
      match rest with
      | [] => [[s]]
      | t :: _ =>
        if isSkipStep t then
          match skipRunsAdjacent rest with
          | r :: rs => (s :: r) :: rs
          | [] => [[s]]
        else [s] :: skipRunsAdjacent rest
    else skipRunsAdjacent rest

/-- The diff chunk a run of skip steps would produce: all skipped-pattern
characters, then all skipped-text characters. -/
def runDiff (run : List (Step Match Char)) : Diff :=
  { taken := run.filterMap stepTaken, added := run.filterMap stepAdded }

/-- The diff chunks among a chunk list. -/
def diffChunksOf (cs : List Chunk) : List Diff :=
  cs.filterMap (fun c => match c with | .diff d => some d | _ => none)

/-- The claim, as stated, for one trace: the renderer turns each maximal run
of adjacent skip steps into one diff chunk. -/
def c9ClaimedProp (trace : List (Step Match Char)) : Prop :=
  diffChunksOf (DiffOutput.new 0 trace).chunks
    = (skipRunsAdjacent trace).map runDiff

/-- The chunk list `DiffOutput::new` actually produces, described
structurally: `Hit` steps merge into the adjacent `Same` chunk and skip
steps merge into the adjacent `Diff` chunk, with `StartCapture` and
`StopCapture` fully transparent (they neither render nor end a run). -/
def groupChunks : List (Step Match Char) → List Chunk
  | [] => []
  | .hit _ c :: rest =>
    match groupChunks rest with
    | .same s :: cs => .same ⟨c :: s.text⟩ :: cs
    | cs => .same ⟨[c]⟩ :: cs
  | .skipText c :: rest =>
    match groupChunks rest with
    | .diff d :: cs => .diff ⟨d.taken, c :: d.added⟩ :: cs
    | cs => .diff ⟨[], [c]⟩ :: cs
  | .skipPattern (.lit c) :: rest =>
    match groupChunks rest with
    | .diff d :: cs => .diff ⟨c :: d.taken, d.added⟩ :: cs
    | cs => .diff ⟨[c], []⟩ :: cs
  | .skipPattern (.cls _) :: rest =>
    match groupChunks rest with
    | .diff d :: cs => .diff ⟨ANY :: d.taken, d.added⟩ :: cs
    | cs => .diff ⟨[ANY], []⟩ :: cs
  | .startCapture :: rest => groupChunks rest
  | .stopCapture :: rest => groupChunks rest

/-- Append a chunk list to an accumulator, merging at the boundary the way
the renderer's fold does (`Same` with `Same`, `Diff` with `Diff`). -/
def mergeChunks (acc : List Chunk) (cs : List Chunk) : List Chunk :=
  match acc.getLast?, cs with
  | some (.same s), .same s2 :: cs' =>
      acc.dropLast ++ (.same ⟨s.text ++ s2.text⟩ :: cs')
  | some (.diff d), .diff d2 :: cs' =>
      acc.dropLast ++ (.diff ⟨d.taken ++ d2.taken, d.added ++ d2.added⟩ :: cs')
  | _, _ => acc ++ cs

/-- The pattern instructions at which the solver offers `SkipText` (given
remaining text): a `Lit`, a `Class`, or the end of the pattern.  Control
instructions never offer `SkipText`. -/
def skipTextEligible : Option Flat → Bool
  | none => true
  | some (.lit _) => true
  | some (.cls _) => true
  | some _ => false

/-! ## Structure of the replicated flat pattern (`rep_incr = 1`)

The solver flattens with `rep_incr = 1`.  `flatSeg`/`flatElem` below give the
same array as `pattern_patts`/`elem_patts` (proved in `pattern_patts_eq`),
with the back-patched offsets written directly; all structural reasoning
about the lattice uses this form. -/

mutual
/-- The flattening of one element at replication `reps`, with final offsets
(`rep_incr = 1`). -/
def flatElem : Element → Nat → List Flat
  | .matchE (.lit c), reps => List.replicate reps (.lit c)
  | .matchE (.cls cl), reps => List.replicate reps (.cls cl)
  | .capture inner, reps =>
      List.replicate reps .groupStart ++ flatSeg inner reps
        ++ List.replicate reps .groupEnd
  | .repetition inner, reps =>
      List.replicate reps (.repetitionStart (reps + (flatSeg inner (reps + 1)).length))
        ++ flatSeg inner (reps + 1)
        ++ List.replicate (reps + 1)
            (.repetitionEnd (reps + (flatSeg inner (reps + 1)).length))
  | .alternative p1 p2, reps =>
      List.replicate reps (.alternativeLeft (reps + (flatSeg p1 reps).length))
        ++ flatSeg p1 reps
        ++ List.replicate reps (.alternativeRight (reps + (flatSeg p2 reps).length))
        ++ flatSeg p2 reps
/-- The flattening of a pattern segment at replication `reps`
(`rep_incr = 1`). -/
def flatSeg : Pattern → Nat → List Flat
  | .nil, _ => []
  | .cons e rest, reps => flatElem e reps ++ flatSeg rest reps
end

mutual
/-- The maximal number of repetition groups enclosing any position of an
element. -/
def depthE : Element → Nat
  | .matchE _ => 0
  | .capture p => depthP p
  | .repetition p => depthP p + 1
  | .alternative p1 p2 => max (depthP p1) (depthP p2)
/-- The maximal number of repetition groups enclosing any position of a
pattern. -/
def depthP : Pattern → Nat
  | .nil => 0
  | .cons e rest => max (depthE e) (depthP rest)
end

mutual
/-- `ElemPoint e s R pi reps`: `(pi, reps)` is the start of an instruction
block of `flatElem e R` placed at absolute offset `s`, with `reps` the
length of that block.  These are exactly the pattern positions the solver
can stop at inside the element. -/
inductive ElemPoint : Element → Nat → Nat → Nat → Nat → Prop where
  | matchE (m : Match) (s R : Nat) : ElemPoint (.matchE m) s R s R
  | captureStart (p : Pattern) (s R : Nat) : ElemPoint (.capture p) s R s R
  | captureInner {p : Pattern} {s R pi reps : Nat} :
      SegPoint p (s + R) R pi reps → ElemPoint (.capture p) s R pi reps
  | captureEnd (p : Pattern) (s R : Nat) :
      ElemPoint (.capture p) s R (s + R + (flatSeg p R).length) R
  | repStart (p : Pattern) (s R : Nat) : ElemPoint (.repetition p) s R s R
  | repInner {p : Pattern} {s R pi reps : Nat} :
      SegPoint p (s + R) (R + 1) pi reps → ElemPoint (.repetition p) s R pi reps
  | repEnd (p : Pattern) (s R : Nat) :
      ElemPoint (.repetition p) s R (s + R + (flatSeg p (R + 1)).length) (R + 1)
  | altLeft (p1 p2 : Pattern) (s R : Nat) : ElemPoint (.alternative p1 p2) s R s R
  | altInner1 {p1 p2 : Pattern} {s R pi reps : Nat} :
      SegPoint p1 (s + R) R pi reps → ElemPoint (.alternative p1 p2) s R pi reps
  | altRight (p1 p2 : Pattern) (s R : Nat) :
      ElemPoint (.alternative p1 p2) s R (s + R + (flatSeg p1 R).length) R
  | altInner2 {p1 p2 : Pattern} {s R pi reps : Nat} :
      SegPoint p2 (s + R + (flatSeg p1 R).length + R) R pi reps →
      ElemPoint (.alternative p1 p2) s R pi reps
/-- `SegPoint p s R pi reps`: `(pi, reps)` is the start of an instruction
block of `flatSeg p R` placed at absolute offset `s`. -/
inductive SegPoint : Pattern → Nat → Nat → Nat → Nat → Prop where
  | head {e : Element} {rest : Pattern} {s R pi reps : Nat} :
      ElemPoint e s R pi reps → SegPoint (.cons e rest) s R pi reps
  | tail {e : Element} {rest : Pattern} {s R pi reps : Nat} :
      SegPoint rest (s + (flatElem e R).length) R pi reps →
      SegPoint (.cons e rest) s R pi reps
end

/-- The lattice indices the solver can actually visit for pattern `p` and
text `t`: the pattern position is a block start of the replicated flat
pattern (with `reps` the block length) or the end position, `rep_off` is
below the block length, and the text position is in range. -/
def GoodIx (p : Pattern) (t : List Char) (ix : Ix) : Prop :=
  (SegPoint p 0 1 ix.pattern ix.reps
      ∨ (ix.pattern = (flatSeg p 1).length ∧ ix.reps = 1))
    ∧ ix.rep_off < ix.reps ∧ ix.text ≤ t.length

/-- Classification of one solver step, as used by the termination measure:
either the text advanced; or the text is unchanged, the pattern position
strictly advanced and `rep_off - reps` is preserved; or a repetition
restarted (`rep_off` zero on both sides, `reps` decremented). -/
def StepShape (ix ix' : Ix) : Prop :=
  ix.text < ix'.text
  ∨ (ix'.text = ix.text ∧ ix.pattern < ix'.pattern
      ∧ ix'.rep_off + ix.reps = ix.rep_off + ix'.reps)
  ∨ (ix'.text = ix.text ∧ ix.rep_off = 0 ∧ ix'.rep_off = 0
      ∧ ix'.reps + 1 = ix.reps)

/-- Target condition for the step-closure lemmas: the successor is again a
block-start point of the fragment (or the position just after it, at the
fragment's replication), its `rep_off` is below its `reps`, its text
position is in range, and the step has one of the three measure shapes. -/
def PointTarget (P : Nat → Nat → Prop) (aft aftR : Nat) (t : List Char)
    (ix ix' : Ix) : Prop :=
  (P ix'.pattern ix'.reps ∨ (ix'.pattern = aft ∧ ix'.reps = aftR))
    ∧ ix'.rep_off < ix'.reps ∧ ix'.text ≤ t.length ∧ StepShape ix ix'

/-- The strictly increasing measure on good indices: steps advance it, so
the step relation is acyclic on the reachable part of the lattice.
`D` bounds `reps`, `B` bounds `pattern + 1`, and the text coordinate
dominates everything below it. -/
def ixMeasure (p : Pattern) (ix : Ix) : Nat :=
  let L := (flatSeg p 1).length
  let B := L + 1
  let D := depthP p + 1
  let A := (2 * D + 1) * B + L + 1
  ix.text * A + (ix.rep_off + D - ix.reps) * B + ix.pattern

/-! ## Solver-loop invariants

The facts the work loop of `calculate_optimal_path` maintains about the
node table, used to verify optimality (C1), trace cost (C2) and trace
coverage (C3). -/

/-- A chain of available steps from one lattice index to another, recording
the index at which each step is taken. -/
inductive PathSteps (conf : Config) : Ix → List (Ix × StepType) → Ix → Prop where
  | nil (ix : Ix) : PathSteps conf ix [] ix
  | cons {ix tgt : Ix} {st : StepType} {rest : List (Ix × StepType)} :
      st ∈ conf.avail ix → PathSteps conf (conf.step ix st) rest tgt →
      PathSteps conf ix ((ix, st) :: rest) tgt

/-- The cost an emitted trace element contributes to the score: 1 for the
two skip steps, 0 for everything else (`StepType::cost` seen on the emitted
`Step`). -/
def stepElemCost : Step Match Char → Nat
  | .skipPattern _ => 1
  | .skipText _ => 1
  | _ => 0

/-- The number of `SkipText` steps in a trace. -/
def countSkipText (tr : List (Step Match Char)) : Nat :=
  (tr.filter fun s => match s with | Step.skipText _ => true | _ => false).length

/-- The number of `SkipPattern` steps in a trace. -/
def countSkipPattern (tr : List (Step Match Char)) : Nat :=
  (tr.filter fun s => match s with | Step.skipPattern _ => true | _ => false).length

/-- The text characters a trace consumes, in order: the text side of each
`Hit` and the payload of each `SkipText`. -/
def textPayloads (tr : List (Step Match Char)) : List Char :=
  tr.filterMap fun s => match s with
    | Step.hit _ c => some c
    | Step.skipText c => some c
    | _ => none

/-- The trace element emitted when a recorded step type is replayed at an
index (`traceStep` with the panic outcomes collapsed to `none`; on the
cells the reconstruction actually visits `traceStep` never panics). -/
def emitAt (conf : Config) (ix : Ix) (st : StepType) : Option (Step Match Char) :=
  match traceStep (conf.get ix).1 (conf.get ix).2 st with
  | .ok o => o
  | .error _ => none

/-- The `Match` a `Lit`/`Class` instruction emits into traces (`none` for
control instructions and for a missing instruction). -/
def matchOf : Option Flat → Option Match
  | some (.lit c) => some (.lit c)
  | some (.cls cl) => some (.cls cl)
  | _ => none

/-- The `Lit`/`Class` instruction at a flat-pattern position, as the
`Match` it emits into traces. -/
def matchInstrAt (F : FlatPattern) (pi : Nat) : Option Match :=
  matchOf (F.get? pi)

/-- The step type the cursor of a working node points at. -/
def cursorStep (n : Node) : StepType := n.step_types.getD (n.current - 1) .hit

/-- The facts the work loop maintains for a non-ready cell holding node `n`
at good index `ix`: the node's step list is the index's available steps and
the cursor is in range; the dummy end cell keeps score 0; every processed
step's child cell is done and bounds the node's score from below; and once
the first child has come back (`current ≥ 2`) the recorded
`(score, step_type, next)` triple is realised by one of the processed
steps. -/
def CellFacts (p : Pattern) (t : List Char) (S : State) (ix : Ix) (n : Node) : Prop :=
  n.step_types = Config.avail ⟨t, flatSeg p 1⟩ ix
  ∧ n.current ≤ n.step_types.length + 1
  ∧ 1 ≤ n.current
  ∧ (Config.avail ⟨t, flatSeg p 1⟩ ix = [] → n.score = 0)
  ∧ (∀ i, i + 1 < n.current →
      (S.get (Config.step ⟨t, flatSeg p 1⟩ ix (n.step_types.getD i .hit))).is_done
          = true
      ∧ n.score
          ≤ (S.get (Config.step ⟨t, flatSeg p 1⟩ ix (n.step_types.getD i .hit))).score
            + (n.step_types.getD i .hit).cost)
  ∧ (2 ≤ n.current →
      ∃ j, j + 1 < n.current ∧ n.step_type = n.step_types.getD j .hit
        ∧ n.next = Config.step ⟨t, flatSeg p 1⟩ ix n.step_type
        ∧ (S.get n.next).is_done = true
        ∧ n.score = (S.get n.next).score + n.step_type.cost)

/-- The global invariant of the work loop: the table's dimensions match the
configuration; ready cells are still untouched; every non-ready cell at a
good index satisfies `CellFacts`; and every working cell away from the
start records a good working parent whose cursor step leads back to it. -/
def StateInv (p : Pattern) (t : List Char) (S : State) : Prop :=
  S.pattern_len = (flatSeg p 1).length + 1
  ∧ S.nodes.length = (t.length + 1) * ((flatSeg p 1).length + 1)
  ∧ (∀ ix, GoodIx p t ix → (S.get ix).is_ready = true → S.get ix = Node.new)
  ∧ (∀ ix, GoodIx p t ix → (S.get ix).is_ready = false →
      CellFacts p t S ix (S.get ix))
  ∧ (∀ ix, GoodIx p t ix → (S.get ix).is_working = true →
      ix ≠ (⟨t, flatSeg p 1⟩ : Config).start →
      GoodIx p t (S.get ix).parent
      ∧ (S.get (S.get ix).parent).is_working = true
      ∧ Config.step ⟨t, flatSeg p 1⟩ (S.get ix).parent
          (cursorStep (S.get (S.get ix).parent)) = ix)

/-- The invariant of the loop cursor: going down, the target index is good
and is either the start (under the dummy parent) or the cursor step of a
good working parent; going back, a good done child is being returned to a
good working parent whose cursor step points at it. -/
def LSInv (p : Pattern) (t : List Char) (S : State) : LoopState → Prop
  | .down d => GoodIx p t d.current
      ∧ ((d.parent = Ix.default ∧ d.current = (⟨t, flatSeg p 1⟩ : Config).start)
        ∨ (GoodIx p t d.parent ∧ (S.get d.parent).is_working = true
            ∧ Config.step ⟨t, flatSeg p 1⟩ d.parent (cursorStep (S.get d.parent))
              = d.current))
  | .back b => GoodIx p t b.current ∧ (S.get b.current).is_working = true
      ∧ GoodIx p t b.child ∧ (S.get b.child).is_done = true
      ∧ Config.step ⟨t, flatSeg p 1⟩ b.current (cursorStep (S.get b.current))
          = b.child

/-! ## Theorems -/

lemma is_ready_iff (n : Node) : n.is_ready = true ↔ n.current = 0 := by
  simp [Node.is_ready]

lemma is_working_iff (n : Node) :
    n.is_working = true ↔ 0 < n.current ∧ n.current ≤ n.step_types.length := by
  simp [Node.is_working]

lemma is_done_iff (n : Node) : n.is_done = true ↔ n.step_types.length < n.current := by
  simp [Node.is_done]

lemma initialise_ok (n n' : Node) (e p i : Ix) (o : Option NodeType)
    (h : n.initialise e p i o = .ok n') :
    n.is_ready = true ∧ n'.current = n.current + 1 ∧ n'.parent = p
      ∧ n'.score = n.score ∧ n'.step_type = n.step_type ∧ n'.next = n.next
      ∧ ((∃ nt, o = some nt ∧ n'.step_types = nt.step_types)
          ∨ (o = none ∧ i = e ∧ n'.step_types = n.step_types)) := by
  unfold Node.initialise at h
  by_cases hr : n.is_ready = true
  · rw [if_pos hr] at h
    match o with
    | some nt =>
        simp only [Except.ok.injEq] at h
        subst h
        exact ⟨hr, rfl, rfl, rfl, rfl, rfl, .inl ⟨nt, rfl, rfl⟩⟩
    | none =>
        by_cases hie : i = e
        · rw [if_pos hie] at h
          simp only [Except.ok.injEq] at h
          subst h
          exact ⟨hr, rfl, rfl, rfl, rfl, rfl, .inr ⟨rfl, hie, rfl⟩⟩
        · rw [if_neg hie] at h
          exact absurd h (by simp)
  · rw [if_neg hr] at h
    exact absurd h (by simp)

lemma update_ok (n n' : Node) (c i : Ix) (s : Nat) (pix : Ix)
    (h : n.update c i s = .ok (n', pix)) :
    n.is_working = true ∧ pix = n.parent ∧ n'.current = n.current + 1
      ∧ n'.step_types = n.step_types ∧ n'.parent = n.parent
      ∧ ((n.current ≤ 1 ∨ s + (n.step_types.getD (n.current - 1) .hit).cost < n.score) →
           n'.score = s + (n.step_types.getD (n.current - 1) .hit).cost
             ∧ n'.step_type = n.step_types.getD (n.current - 1) .hit ∧ n'.next = c)
      ∧ (¬ (n.current ≤ 1 ∨ s + (n.step_types.getD (n.current - 1) .hit).cost < n.score) →
           n'.score = n.score ∧ n'.step_type = n.step_type ∧ n'.next = n.next) := by
  unfold Node.update at h
  by_cases hw : n.is_working = true
  · rw [if_pos hw] at h
    simp only [Node.current_step_type, if_pos hw] at h
    split at h
    · rename_i hcond
      rw [Bool.or_eq_true, decide_eq_true_eq, decide_eq_true_eq] at hcond
      simp only [Except.ok.injEq, Prod.mk.injEq] at h
      obtain ⟨hn', hpix⟩ := h
      subst hpix
      subst hn'
      refine ⟨hw, rfl, rfl, rfl, rfl, fun _ => ⟨rfl, rfl, rfl⟩, fun hc => absurd hcond hc⟩
    · rename_i hcond
      rw [Bool.or_eq_true, decide_eq_true_eq, decide_eq_true_eq] at hcond
      push_neg at hcond
      simp only [Except.ok.injEq, Prod.mk.injEq] at h
      obtain ⟨hn', hpix⟩ := h
      subst hpix
      subst hn'
      refine ⟨hw, rfl, rfl, rfl, rfl, fun hc => ?_, fun _ => ⟨rfl, rfl, rfl⟩⟩
      rcases hc with hc | hc
      · exact absurd hc (by omega)
      · exact absurd hc (by omega)
  · rw [if_neg hw] at h
    exact absurd h (by simp)

lemma nodeReachable_current_le (n : Node) (h : NodeReachable n) :
    n.current ≤ n.step_types.length + 1 := by
  induction h with
  | new => simp [Node.new]
  | init hr hok ih =>
      obtain ⟨hready, hcur, _, _, _, _, hst⟩ := initialise_ok _ _ _ _ _ _ hok
      rw [is_ready_iff] at hready
      rcases hst with ⟨nt, _, hst⟩ | ⟨_, _, hst⟩ <;> rw [hcur, hst] <;> omega
  | upd hr hok ih =>
      obtain ⟨hworking, _, hcur, hst, _, _, _⟩ := update_ok _ _ _ _ _ _ hok
      rw [is_working_iff] at hworking
      rw [hcur, hst]
      omega

lemma node_exactly_one (n : Node) : n.exactlyOneState := by
  unfold Node.exactlyOneState
  simp only [is_ready_iff, is_working_iff, is_done_iff, Bool.not_eq_true,
    ← Bool.not_eq_true (Node.is_ready _), ← Bool.not_eq_true (Node.is_working _),
    ← Bool.not_eq_true (Node.is_done _)]
  omega

/-- **C10.** Every node reachable from `Node::new` through successful
`initialise` and `update` calls satisfies
`current ≤ step_types.len() + 1`; for every node exactly one of `is_ready`,
`is_working`, `is_done` holds; `initialise` fails with
`CannotInitialiseNode` unless the node is ready, and `update` fails with
`CannotUpdateNode` unless the node is working (in both cases the Rust method
returns before mutating `self`). -/
theorem c10_node_lifecycle :
    (∀ n : Node, NodeReachable n →
        n.current ≤ n.step_types.length + 1 ∧ n.exactlyOneState)
    ∧ (∀ (n : Node) (e p i : Ix) (o : Option NodeType), n.is_ready ≠ true →
        n.initialise e p i o = .error (.cannotInitialiseNode i.repr))
    ∧ (∀ (n : Node) (c i : Ix) (s : Nat), n.is_working ≠ true →
        n.update c i s = .error (.cannotUpdateNode i.repr)) := by
  refine ⟨fun n h => ⟨nodeReachable_current_le n h, node_exactly_one n⟩, ?_, ?_⟩
  · intro n e p i o h
    unfold Node.initialise
    simp only [Bool.not_eq_true] at h
    simp [h]
  · intro n c i s h
    unfold Node.update
    simp only [Bool.not_eq_true] at h
    simp [h]

/-- Witness for C10 at concrete nodes: `Node.new` is reachable and satisfies
the invariant, and a node whose cursor is past its list cannot be
initialised or updated. -/
theorem c10_node_lifecycle_witness :
    (Node.new.current ≤ Node.new.step_types.length + 1 ∧ Node.new.exactlyOneState)
    ∧ ({ Node.new with current := 5 } : Node).initialise Ix.default Ix.default
        Ix.default none = .error (.cannotInitialiseNode Ix.default.repr)
    ∧ ({ Node.new with current := 5 } : Node).update Ix.default Ix.default 0
        = .error (.cannotUpdateNode Ix.default.repr) := by
  refine ⟨c10_node_lifecycle.1 Node.new NodeReachable.new, ?_, ?_⟩
  · exact c10_node_lifecycle.2.1 _ _ _ _ _ (by decide)
  · exact c10_node_lifecycle.2.2 _ _ _ _ (by decide)

/-- **C5.** Tie-break: a later step whose sub-score merely equals the
running best never replaces the recorded choice in `Node::update` (the
recorded `score`/`step_type`/`next` change only on the first completion or a
strictly better score), and the ordered successor lists tried by the cursor
are exactly the table order of section 4.C (`Hit` before `SkipPattern`
before `SkipText`; `StartLeft` before `StartRight`; `StartRepetition`
before `PassRepetition`), so the earliest entry wins ties. -/
theorem c5_tie_break :
    (∀ (n n' : Node) (c i : Ix) (s : Nat) (pix : Ix),
        n.update c i s = .ok (n', pix) → 2 ≤ n.current →
        n.score ≤ s + (n.step_types.getD (n.current - 1) .hit).cost →
        n'.score = n.score ∧ n'.step_type = n.step_type ∧ n'.next = n.next)
    ∧ (∀ (n n' : Node) (c i : Ix) (s : Nat) (pix : Ix),
        n.update c i s = .ok (n', pix) →
        (n.current ≤ 1 ∨ s + (n.step_types.getD (n.current - 1) .hit).cost < n.score) →
        n'.score = s + (n.step_types.getD (n.current - 1) .hit).cost
          ∧ n'.step_type = n.step_types.getD (n.current - 1) .hit ∧ n'.next = c)
    ∧ NodeType.hit.step_types = [.hit, .skipPattern, .skipText]
    ∧ NodeType.noHit.step_types = [.skipPattern, .skipText]
    ∧ (∀ off, (NodeType.alternativeLeft off).step_types = [.startLeft, .startRight off])
    ∧ (∀ off, (NodeType.repetitionStart off).step_types
        = [.startRepetition, .passRepetition off]) := by
  refine ⟨?_, ?_, rfl, rfl, fun _ => rfl, fun _ => rfl⟩
  · intro n n' c i s pix h h2 hscore
    obtain ⟨_, _, _, _, _, _, hkeep⟩ := update_ok _ _ _ _ _ _ h
    exact hkeep (by omega)
  · intro n n' c i s pix h hcond
    obtain ⟨_, _, _, _, _, hrec, _⟩ := update_ok _ _ _ _ _ _ h
    exact hrec hcond

/-- Witness for C5: a concrete node whose second child ties the recorded
score keeps the recorded `score`/`step_type`/`next`. -/
theorem c5_tie_break_witness :
    ({ current := 3, parent := Ix.default, score := 1, step_type := .hit,
       next := Ix.default, step_types := [.hit, .skipPattern] } : Node).score
      = ({ current := 2, parent := Ix.default, score := 1, step_type := .hit,
           next := Ix.default, step_types := [.hit, .skipPattern] } : Node).score
    ∧ ({ current := 3, parent := Ix.default, score := 1, step_type := .hit,
         next := Ix.default, step_types := [.hit, .skipPattern] } : Node).step_type
      = ({ current := 2, parent := Ix.default, score := 1, step_type := .hit,
           next := Ix.default, step_types := [.hit, .skipPattern] } : Node).step_type
    ∧ ({ current := 3, parent := Ix.default, score := 1, step_type := .hit,
         next := Ix.default, step_types := [.hit, .skipPattern] } : Node).next
      = ({ current := 2, parent := Ix.default, score := 1, step_type := .hit,
           next := Ix.default, step_types := [.hit, .skipPattern] } : Node).next :=
  c5_tie_break.1
    { current := 2, parent := Ix.default, score := 1, step_type := .hit,
      next := Ix.default, step_types := [.hit, .skipPattern] }
    { current := 3, parent := Ix.default, score := 1, step_type := .hit,
      next := Ix.default, step_types := [.hit, .skipPattern] }
    ⟨9, 9, 1, 0⟩ Ix.default 0 Ix.default (by decide) (by decide) (by decide)

/-- **C6, counterexample.** The claim says `SkipText` is available at every
index with remaining text, whatever the instruction.  In the code it is not:
for the pattern `(​)` (a capture) against text `"a"`, the start index points
at `GroupStart` with text remaining, and the only available step kind is
`StartGroup`. -/
theorem c6_counterexample :
    (0 : Nat) < (Config.new (Pattern.cons (.capture .nil) .nil) ⟨['a']⟩).text.length
    ∧ (Config.new (Pattern.cons (.capture .nil) .nil) ⟨['a']⟩).pattern.get? 0
        = some .groupStart
    ∧ (Config.new (Pattern.cons (.capture .nil) .nil) ⟨['a']⟩).avail ⟨0, 0, 1, 0⟩
        = [.startGroup]
    ∧ ¬ (StepType.skipText
          ∈ (Config.new (Pattern.cons (.capture .nil) .nil) ⟨['a']⟩).avail
              ⟨0, 0, 1, 0⟩) := by
  refine ⟨by decide, by decide, by decide, by decide⟩

/-- **C6, amended.** At an index with a text character remaining, `SkipText`
is among the available step kinds exactly when the pattern position points
at a `Lit` or `Class` instruction or past the end of the pattern; when taken
it advances the text position, resets `rep_off` to `0`, and costs `1`.  At
control instructions (`GroupStart`, `GroupEnd`, `AltLeft`, `AltRight`,
`RepStart`, `RepEnd`) `SkipText` is not available. -/
theorem c6_skip_text_amended (conf : Config) (ix : Ix) (c : Char)
    (htext : conf.text.get? ix.text = some c) :
    ((StepType.skipText ∈ conf.avail ix) ↔
      skipTextEligible (conf.pattern.get? ix.pattern) = true)
    ∧ conf.step ix .skipText = { ix with text := ix.text + 1, rep_off := 0 }
    ∧ StepType.skipText.cost = 1 := by
  refine ⟨?_, rfl, rfl⟩
  unfold Config.avail Config.get
  rw [htext]
  match hp : conf.pattern.get? ix.pattern with
  | none => simp [NodeType.get, NodeType.step_types, skipTextEligible]
  | some (.lit c') =>
      simp only [NodeType.get, skipTextEligible]
      by_cases hc : (some c : Option Char) = some c'
      · simp [hc, NodeType.step_types]
      · simp [hc, NodeType.step_types]
  | some (.cls cl) =>
      simp only [NodeType.get, skipTextEligible]
      by_cases hm : cl.matches c = true
      · simp [hm, NodeType.step_types]
      · simp only [Bool.not_eq_true] at hm
        simp [hm, NodeType.step_types]
  | some .groupStart => simp [NodeType.get, NodeType.step_types, skipTextEligible]
  | some .groupEnd => simp [NodeType.get, NodeType.step_types, skipTextEligible]
  | some (.alternativeLeft off) =>
      simp [NodeType.get, NodeType.step_types, skipTextEligible]
  | some (.alternativeRight off) =>
      simp [NodeType.get, NodeType.step_types, skipTextEligible]
  | some (.repetitionStart off) =>
      simp [NodeType.get, NodeType.step_types, skipTextEligible]
  | some (.repetitionEnd off) =>
      by_cases hr : ix.can_restart = true
      · simp [NodeType.get, hr, NodeType.step_types, skipTextEligible]
      · simp only [Bool.not_eq_true] at hr
        simp [NodeType.get, hr, NodeType.step_types, skipTextEligible]

/-- Witness for the amended C6 at a concrete configuration: pattern `a`
against text `b` at the start index. -/
theorem c6_skip_text_amended_witness :
    ((Config.new (Pattern.cons (.matchE (.lit 'a')) .nil) ⟨['b']⟩).text.get? 0
      = some 'b')
    ∧ (((StepType.skipText
          ∈ (Config.new (Pattern.cons (.matchE (.lit 'a')) .nil) ⟨['b']⟩).avail
              ⟨0, 0, 1, 0⟩) ↔
        skipTextEligible
          ((Config.new (Pattern.cons (.matchE (.lit 'a')) .nil) ⟨['b']⟩).pattern.get?
            0) = true)
      ∧ (Config.new (Pattern.cons (.matchE (.lit 'a')) .nil) ⟨['b']⟩).step
          ⟨0, 0, 1, 0⟩ .skipText = { (⟨0, 0, 1, 0⟩ : Ix) with text := 0 + 1, rep_off := 0 }
      ∧ StepType.skipText.cost = 1) :=
  ⟨by decide,
   c6_skip_text_amended (Config.new (Pattern.cons (.matchE (.lit 'a')) .nil) ⟨['b']⟩)
     ⟨0, 0, 1, 0⟩ 'b' (by decide)⟩

lemma initialise_error_classify (n : Node) (e p i : Ix) (o : Option NodeType)
    (err : Error) (h : n.initialise e p i o = .error err) :
    err = .noNodeType i.repr ∨ err = .cannotInitialiseNode i.repr := by
  unfold Node.initialise at h
  by_cases hr : n.is_ready = true
  · rw [if_pos hr] at h
    match o with
    | some nt => simp at h
    | none =>
        by_cases hie : i = e
        · rw [if_pos hie] at h
          simp at h
        · rw [if_neg hie] at h
          simp only [Except.error.injEq] at h
          exact .inl h.symm
  · rw [if_neg hr] at h
    simp only [Except.error.injEq] at h
    exact .inr h.symm

lemma current_step_type_error_classify (n : Node) (err : Error)
    (h : n.current_step_type = .error err) :
    err = .cannotGetNodeField "current_step_type" "working" := by
  unfold Node.current_step_type at h
  by_cases hw : n.is_working = true
  · rw [if_pos hw] at h
    simp at h
  · rw [if_neg hw] at h
    simp only [Except.error.injEq] at h
    exact h.symm

lemma done_info_error_classify (n : Node) (err : Error)
    (h : n.done_info = .error err) :
    err = .cannotGetNodeField "score/step_type/next" "done" := by
  unfold Node.done_info at h
  by_cases hd : n.is_done = true
  · rw [if_pos hd] at h
    simp at h
  · rw [if_neg hd] at h
    simp only [Except.error.injEq] at h
    exact h.symm

lemma update_error_classify (n : Node) (c i : Ix) (s : Nat) (err : Error)
    (h : n.update c i s = .error err) :
    err = .cannotGetNodeField "current_step_type" "working"
      ∨ err = .cannotUpdateNode i.repr := by
  unfold Node.update at h
  by_cases hw : n.is_working = true
  · rw [if_pos hw] at h
    split at h
    · rename_i e heq
      simp only [Except.error.injEq] at h
      subst h
      exact .inl (current_step_type_error_classify _ _ heq)
    · split at h <;> simp at h
  · rw [if_neg hw] at h
    simp only [Except.error.injEq] at h
    exact .inr h.symm

lemma loopBody_not_exceeded (conf : Config) (ls : LoopState) (st : State)
    (err : Error) (h : loopBody conf ls st = .error err) (k : Nat) :
    err ≠ .exceededMaxSteps k := by
  match ls with
  | .down down =>
      rw [loopBody] at h
      by_cases hr : ((st.get down.current).is_ready : Bool) = true
      · rw [if_pos hr] at h
        match hi : (st.get down.current).initialise conf.endIx down.parent
            down.current (NodeType.get (conf.get down.current).1
              (conf.get down.current).2 down.current) with
        | .error e =>
            simp only [hi, Except.error.injEq] at h
            subst h
            rcases initialise_error_classify _ _ _ _ _ _ hi with he | he <;>
              simp [he]
        | .ok node' => simp [hi] at h
      · rw [if_neg hr] at h
        simp at h
  | .back back =>
      rw [loopBody] at h
      match hd : (st.get back.child).done_info with
      | .error e =>
          simp only [hd, Except.error.injEq] at h
          subst h
          have := done_info_error_classify _ _ hd
          simp [this]
      | .ok (new_score, s2, s3) =>
          rw [hd] at h
          match hu : (st.get back.current).update back.child back.current new_score with
          | .error e =>
              simp only [hu, Except.error.injEq] at h
              subst h
              rcases update_error_classify _ _ _ _ _ hu with he | he <;> simp [he]
          | .ok (node', np) => simp [hu] at h

lemma loopNext_not_exceeded (conf : Config) (ls : LoopState) (np : Ix)
    (st : State) (err : Error) (h : loopNext conf ls np st = .error err)
    (k : Nat) : err ≠ .exceededMaxSteps k := by
  unfold loopNext at h
  by_cases h1 : ls.currentIx = conf.start ∧ ((st.get ls.currentIx).is_done : Bool) = true
  · rw [if_pos h1] at h
    simp at h
  · rw [if_neg h1] at h
    by_cases h2 : ((st.get ls.currentIx).is_done : Bool) = true
    · rw [if_pos h2] at h
      simp at h
    · rw [if_neg h2] at h
      by_cases h3 : ((st.get ls.currentIx).is_working : Bool) = true
      · rw [if_pos h3] at h
        match hcs : (st.get ls.currentIx).current_step_type with
        | .error e =>
            simp only [hcs, Except.error.injEq] at h
            subst h
            have := current_step_type_error_classify _ _ hcs
            simp [this]
        | .ok stt => simp [hcs] at h
      · rw [if_neg h3] at h
        simp only [Except.error.injEq] at h
        subst h
        simp

lemma goLoop_exceeded (conf : Config) :
    ∀ (fuel counter : Nat) (ls : LoopState) (st : State) (n : Nat),
    fuel + counter = 1000000000 → counter < 1000000000 →
    goLoop conf fuel counter ls st = .error (.exceededMaxSteps n) →
    n = 1000000000 := by
  intro fuel
  induction fuel with
  | zero => intro counter ls st n h1 h2 h3; omega
  | succ fuel ih =>
      intro counter ls st n h1 h2 h3
      rw [goLoop] at h3
      by_cases hc : counter + 1 ≥ 1000000000
      · rw [if_pos hc] at h3
        simp only [Except.error.injEq, Error.exceededMaxSteps.injEq] at h3
        omega
      · rw [if_neg hc] at h3
        split at h3
        · rename_i e heq
          simp only [Except.error.injEq] at h3
          exact absurd h3 (loopBody_not_exceeded conf ls st e heq n)
        · rename_i new_parent st' heq
          split at h3
          · rename_i e heq2
            simp only [Except.error.injEq] at h3
            exact absurd h3 (loopNext_not_exceeded conf ls new_parent st' e heq2 n)
          · simp at h3
          · rename_i ls' heq2
            exact ih (counter + 1) ls' st' n (by omega) (by omega) h3

lemma traceStep_error_classify (p : Option Flat) (t : Option Char)
    (s : StepType) (err : Error) (h : traceStep p t s = .error err) :
    ∃ m, err = .panicked m := by
  unfold traceStep at h
  split at h
  · simp at h
  · split at h
    · split at h
      · simp at h
      · simp at h
      · simp only [Except.error.injEq] at h
        exact ⟨_, h.symm⟩
    · split at h
      · simp at h
      · simp at h
      · simp only [Except.error.injEq] at h
        exact ⟨_, h.symm⟩
    · split at h
      · simp at h
      · simp only [Except.error.injEq] at h
        exact ⟨_, h.symm⟩
    · simp at h
    · simp at h

lemma walkTrace_not_exceeded (conf : Config) (st : State) :
    ∀ (fuel : Nat) (ix : Ix) (acc : List (Step Match Char)) (k : Nat),
    walkTrace conf st fuel ix acc ≠ .error (.exceededMaxSteps k) := by
  intro fuel
  induction fuel with
  | zero =>
      intro ix acc k h
      unfold walkTrace at h
      by_cases he : ix = conf.endIx
      · rw [if_pos he] at h; simp at h
      · rw [if_neg he] at h; simp at h
  | succ fuel ih =>
      intro ix acc k h
      unfold walkTrace at h
      by_cases hdone : (!(st.get ix).is_done : Bool) = true ∨ ix = conf.endIx
      · rw [if_pos hdone] at h; simp at h
      · rw [if_neg hdone] at h
        split at h
        · rename_i e heq
          simp only [Except.error.injEq] at h
          have := done_info_error_classify _ _ heq
          rw [this] at h
          simp at h
        · rename_i s1 step_type1 next1 heq
          split at h
          · rename_i e heq2
            simp only [Except.error.injEq] at h
            obtain ⟨m, hm⟩ := traceStep_error_classify _ _ _ _ heq2
            rw [hm] at h
            simp at h
          · exact ih next1 acc k h
          · rename_i s heq2
            exact ih next1 (acc ++ [s]) k h

/-- **C8.** The solver's work loop fails with `ExceededMaxSteps` exactly when
its step counter reaches the compile-time ceiling of `10^9` iterations: any
`ExceededMaxSteps` error carries the value `10^9` (so a run that completes
in fewer iterations never produces it), and once the counter reaches the
ceiling the error is returned no matter the loop state; at the `solve`
level, an `ExceededMaxSteps` error always carries `10^9`. -/
theorem c8_exceeded_max_steps :
    (∀ (conf : Config) (fuel counter : Nat) (ls : LoopState) (st : State) (n : Nat),
      fuel + counter = 1000000000 → counter < 1000000000 →
      goLoop conf fuel counter ls st = .error (.exceededMaxSteps n) →
      n = 1000000000)
    ∧ (∀ (conf : Config) (ls : LoopState) (st : State),
      goLoop conf 1 999999999 ls st = .error (.exceededMaxSteps 1000000000))
    ∧ (∀ (p : Pattern) (t : Atoms) (n : Nat),
      TableSolution.solve p t = .error (.exceededMaxSteps n) → n = 1000000000) := by
  refine ⟨fun conf fuel counter ls st n h1 h2 h3 =>
      goLoop_exceeded conf fuel counter ls st n h1 h2 h3, ?_, ?_⟩
  · intro conf ls st
    rw [goLoop]
    norm_num
  · intro p t n h
    simp only [TableSolution.solve] at h
    split at h
    · rename_i e heq
      simp only [Except.error.injEq] at h
      subst h
      unfold calculate_optimal_path at heq
      exact goLoop_exceeded _ _ _ _ _ _ (by omega) (by omega) heq
    · rename_i state heq
      split at h
      · simp at h
      · rename_i score s2 s3 heq2
        split at h
        · rename_i e heq3
          simp only [Except.error.injEq] at h
          subst h
          exact absurd heq3 (walkTrace_not_exceeded _ _ _ _ _ n)
        · split at h <;> simp at h

/-- Witness for C8: with one unit of fuel at counter `10^9 - 1`, the next
iteration trips the ceiling and reports exactly `10^9`. -/
theorem c8_exceeded_max_steps_witness :
    (1 : Nat) + 999999999 = 1000000000 ∧ (999999999 : Nat) < 1000000000
    ∧ (1000000000 : Nat) = 1000000000 :=
  ⟨by norm_num, by norm_num,
    c8_exceeded_max_steps.1 { text := [], pattern := [] } 1 999999999
      (.down { parent := Ix.default, current := Ix.default })
      { nodes := [], pattern_len := 1 } 1000000000 (by norm_num) (by norm_num)
      (c8_exceeded_max_steps.2.1 { text := [], pattern := [] }
        (.down { parent := Ix.default, current := Ix.default })
        { nodes := [], pattern_len := 1 })⟩

lemma mergeChunks_nil (acc : List Chunk) : mergeChunks acc [] = acc := by
  cases h : acc.getLast? with
  | none => simp [mergeChunks, h]
  | some c => cases c <;> simp [mergeChunks, h]

lemma mergeChunks_nil_left (cs : List Chunk) : mergeChunks [] cs = cs := by
  cases cs with
  | nil => simp [mergeChunks]
  | cons c cs => cases c <;> simp [mergeChunks]

lemma foldl_diffStep_eq (trace : List (Step Match Char)) :
    ∀ acc : List Chunk,
      List.foldl diffStep acc trace = mergeChunks acc (groupChunks trace) := by
  induction trace with
  | nil => intro acc; simp [groupChunks, mergeChunks_nil]
  | cons s rest ih =>
      intro acc
      rw [List.foldl_cons, ih (diffStep acc s)]
      rcases hlast : acc.getLast? with _ | c
      · rw [List.getLast?_eq_none_iff] at hlast
        subst hlast
        cases s with
        | hit m c =>
            cases hg : groupChunks rest with
            | nil => simp [mergeChunks, diffStep, groupChunks, Chunk.new_same, Chunk.new_added, Chunk.new_taken, hg]
            | cons c0 cs0 =>
                cases c0 <;>
                  simp [mergeChunks, diffStep, groupChunks, Chunk.new_same, Chunk.new_added, Chunk.new_taken, hg, setLast,
                    List.getLast?_concat, List.dropLast_concat, List.append_assoc]
        | skipText c =>
            cases hg : groupChunks rest with
            | nil => simp [mergeChunks, diffStep, groupChunks, Chunk.new_same, Chunk.new_added, Chunk.new_taken, hg]
            | cons c0 cs0 =>
                cases c0 <;>
                  simp [mergeChunks, diffStep, groupChunks, Chunk.new_same, Chunk.new_added, Chunk.new_taken, hg, setLast,
                    List.getLast?_concat, List.dropLast_concat, List.append_assoc]
        | skipPattern m =>
            cases m <;>
            · cases hg : groupChunks rest with
              | nil => simp [mergeChunks, diffStep, groupChunks, Chunk.new_same, Chunk.new_added, Chunk.new_taken, hg]
              | cons c0 cs0 =>
                  cases c0 <;>
                    simp [mergeChunks, diffStep, groupChunks, Chunk.new_same, Chunk.new_added, Chunk.new_taken, hg, setLast,
                      List.getLast?_concat, List.dropLast_concat, List.append_assoc]
        | startCapture => simp [mergeChunks, diffStep, groupChunks]
        | stopCapture => simp [mergeChunks, diffStep, groupChunks]
      · obtain ⟨acc', rfl⟩ := List.getLast?_eq_some_iff.mp hlast
        cases c with
        | same sa =>
            cases s with
            | hit m c =>
                cases hg : groupChunks rest with
                | nil =>
                    simp [mergeChunks, diffStep, groupChunks, Chunk.new_same, Chunk.new_added, Chunk.new_taken, hg, setLast,
                      List.getLast?_concat, List.dropLast_concat, List.append_assoc]
                | cons c0 cs0 =>
                    cases c0 <;>
                      simp [mergeChunks, diffStep, groupChunks, Chunk.new_same, Chunk.new_added, Chunk.new_taken, hg, setLast,
                        List.getLast?_concat, List.dropLast_concat, List.append_assoc]
            | skipText c =>
                cases hg : groupChunks rest with
                | nil =>
                    simp [mergeChunks, diffStep, groupChunks, Chunk.new_same, Chunk.new_added, Chunk.new_taken, hg, setLast,
                      List.getLast?_concat, List.dropLast_concat, List.append_assoc]
                | cons c0 cs0 =>
                    cases c0 <;>
                      simp [mergeChunks, diffStep, groupChunks, Chunk.new_same, Chunk.new_added, Chunk.new_taken, hg, setLast,
                        List.getLast?_concat, List.dropLast_concat, List.append_assoc]
            | skipPattern m =>
                cases m <;>
                · cases hg : groupChunks rest with
                  | nil =>
                      simp [mergeChunks, diffStep, groupChunks, Chunk.new_same, Chunk.new_added, Chunk.new_taken, hg, setLast,
                        List.getLast?_concat, List.dropLast_concat, List.append_assoc]
                  | cons c0 cs0 =>
                      cases c0 <;>
                        simp [mergeChunks, diffStep, groupChunks, Chunk.new_same, Chunk.new_added, Chunk.new_taken, hg, setLast,
                          List.getLast?_concat, List.dropLast_concat, List.append_assoc]
            | startCapture =>
                simp [mergeChunks, diffStep, groupChunks, Chunk.new_same, Chunk.new_added, Chunk.new_taken, List.getLast?_concat]
            | stopCapture =>
                simp [mergeChunks, diffStep, groupChunks, Chunk.new_same, Chunk.new_added, Chunk.new_taken, List.getLast?_concat]
        | diff da =>
            cases s with
            | hit m c =>
                cases hg : groupChunks rest with
                | nil =>
                    simp [mergeChunks, diffStep, groupChunks, Chunk.new_same, Chunk.new_added, Chunk.new_taken, hg, setLast,
                      List.getLast?_concat, List.dropLast_concat, List.append_assoc]
                | cons c0 cs0 =>
                    cases c0 <;>
                      simp [mergeChunks, diffStep, groupChunks, Chunk.new_same, Chunk.new_added, Chunk.new_taken, hg, setLast,
                        List.getLast?_concat, List.dropLast_concat, List.append_assoc]
            | skipText c =>
                cases hg : groupChunks rest with
                | nil =>
                    simp [mergeChunks, diffStep, groupChunks, Chunk.new_same, Chunk.new_added, Chunk.new_taken, hg, setLast,
                      List.getLast?_concat, List.dropLast_concat, List.append_assoc]
                | cons c0 cs0 =>
                    cases c0 <;>
                      simp [mergeChunks, diffStep, groupChunks, Chunk.new_same, Chunk.new_added, Chunk.new_taken, hg, setLast,
                        List.getLast?_concat, List.dropLast_concat, List.append_assoc]
            | skipPattern m =>
                cases m <;>
                · cases hg : groupChunks rest with
                  | nil =>
                      simp [mergeChunks, diffStep, groupChunks, Chunk.new_same, Chunk.new_added, Chunk.new_taken, hg, setLast,
                        List.getLast?_concat, List.dropLast_concat, List.append_assoc]
                  | cons c0 cs0 =>
                      cases c0 <;>
                        simp [mergeChunks, diffStep, groupChunks, Chunk.new_same, Chunk.new_added, Chunk.new_taken, hg, setLast,
                          List.getLast?_concat, List.dropLast_concat, List.append_assoc]
            | startCapture =>
                simp [mergeChunks, diffStep, groupChunks, Chunk.new_same, Chunk.new_added, Chunk.new_taken, List.getLast?_concat]
            | stopCapture =>
                simp [mergeChunks, diffStep, groupChunks, Chunk.new_same, Chunk.new_added, Chunk.new_taken, List.getLast?_concat]

/-- **C9, counterexample.** The claim groups each maximal run of *adjacent*
skip steps into one chunk, but the renderer treats capture markers as fully
transparent: for the trace `SkipText 'a', StartCapture, SkipText 'b'` the
claim predicts two one-character runs, while the code produces the single
chunk rendered as one `added` group containing `ab`. -/
theorem c9_counterexample :
    ¬ c9ClaimedProp [.skipText 'a', .startCapture, .skipText 'b']
    ∧ (DiffOutput.new 0 [.skipText 'a', .startCapture, .skipText 'b']).render
        = "\x7b+ab+\x7d" := by
  constructor
  · unfold c9ClaimedProp
    decide
  · decide

/-- **C9, amended.** The renderer emits each maximal run of
`SkipPattern`/`SkipText` steps *not separated by a `Hit`* as a single chunk
(capture markers are transparent: they do not render and do not end a run),
rendered with all skipped-pattern characters before all skipped-text
characters regardless of the order of the skips within the run; a skipped
`Lit` contributes its literal character and a skipped `Class` the
placeholder `?`; a run with only text skips renders as an `added`-only
group and one with only pattern skips as a `taken`-only group. -/
theorem c9_render_amended (score : Nat) (trace : List (Step Match Char)) :
    (DiffOutput.new score trace).chunks = groupChunks trace
    ∧ (DiffOutput.new score trace).render
        = String.join ((groupChunks trace).map Chunk.render) := by
  have h : (DiffOutput.new score trace).chunks = groupChunks trace := by
    unfold DiffOutput.new
    rw [foldl_diffStep_eq trace [], mergeChunks_nil_left]
  refine ⟨h, ?_⟩
  unfold DiffOutput.render
  rw [h]

/-! ### The two-phase flattening builds `flatSeg` -/

lemma set_append_length_add (l1 l2 : List Flat) (k : Nat) (e : Flat) :
    (l1 ++ l2).set (l1.length + k) e = l1 ++ l2.set k e := by
  induction l1 with
  | nil => simp
  | cons x t ih => simp [List.set, Nat.succ_add, ih]

lemma update_patt_zero (r : List Flat) (e : Flat) (ix : Nat) :
    update_patt r e ix 0 = r := rfl

lemma update_patt_succ (r : List Flat) (e : Flat) (ix n : Nat) :
    update_patt r e ix (n + 1) = (update_patt r e ix n).set (ix + n) e := by
  unfold update_patt
  rw [List.range_succ, List.foldl_append]
  rfl

lemma update_patt_replicate (b : List Flat) : ∀ (a c : List Flat) (e : Flat),
    update_patt (a ++ b ++ c) e a.length b.length
      = a ++ List.replicate b.length e ++ c := by
  induction b using List.reverseRecOn with
  | nil => intro a c e; simp [update_patt_zero]
  | append_singleton b' x ih =>
      intro a c e
      have hlen : (b' ++ [x]).length = b'.length + 1 := by simp
      rw [hlen, update_patt_succ]
      have hr : a ++ (b' ++ [x]) ++ c = a ++ b' ++ ([x] ++ c) := by
        simp [List.append_assoc]
      rw [hr, ih a ([x] ++ c) e]
      have hre : a ++ List.replicate b'.length e ++ ([x] ++ c)
          = (a ++ List.replicate b'.length e) ++ ([x] ++ c) := by
        simp [List.append_assoc]
      have hpos : a.length + b'.length
          = (a ++ List.replicate b'.length e).length + 0 := by simp
      rw [hre, hpos, set_append_length_add]
      simp [List.replicate_succ', List.append_assoc, List.set]

lemma update_patt_apply (a c : List Flat) (x e : Flat) (k ix : Nat)
    (hix : ix = a.length) :
    update_patt (a ++ List.replicate k x ++ c) e ix k
      = a ++ List.replicate k e ++ c := by
  subst hix
  have h := update_patt_replicate (List.replicate k x) a c e
  rw [List.length_replicate] at h
  exact h

mutual
theorem elem_patts_eq (e : Element) : ∀ (result : List Flat) (reps : Nat),
    elem_patts result e reps 1 = result ++ flatElem e reps := by
  intro result reps
  match e with
  | .matchE (.lit c) => rfl
  | .matchE (.cls cl) => rfl
  | .capture inner =>
      show single_patt (pattern_patts (single_patt result .groupStart reps)
          inner reps 1) .groupEnd reps = _
      rw [pattern_patts_eq inner]
      simp [single_patt, flatElem, List.append_assoc]
  | .repetition inner =>
      show update_patt
          (update_patt
            (single_patt (pattern_patts (single_patt result (.repetitionStart 0) reps)
                inner (reps + 1) 1) (.repetitionEnd 0) (reps + 1))
            (.repetitionStart ((pattern_patts (single_patt result (.repetitionStart 0) reps)
                inner (reps + 1) 1).length - result.length))
            result.length reps)
          (.repetitionEnd ((pattern_patts (single_patt result (.repetitionStart 0) reps)
              inner (reps + 1) 1).length - result.length))
          (pattern_patts (single_patt result (.repetitionStart 0) reps)
              inner (reps + 1) 1).length (reps + 1) = _
      rw [pattern_patts_eq inner]
      simp only [single_patt]
      have hoff : (result ++ List.replicate reps (Flat.repetitionStart 0)
            ++ flatSeg inner (reps + 1)).length - result.length
          = reps + (flatSeg inner (reps + 1)).length := by
        simp
      rw [hoff]
      have h1 : result ++ List.replicate reps (Flat.repetitionStart 0)
            ++ flatSeg inner (reps + 1)
            ++ List.replicate (reps + 1) (Flat.repetitionEnd 0)
          = result ++ List.replicate reps (Flat.repetitionStart 0)
            ++ (flatSeg inner (reps + 1)
                ++ List.replicate (reps + 1) (Flat.repetitionEnd 0)) := by
        simp [List.append_assoc]
      rw [h1, update_patt_apply _ _ _ _ _ _ rfl]
      have h2 : result ++ List.replicate reps
              (Flat.repetitionStart (reps + (flatSeg inner (reps + 1)).length))
            ++ (flatSeg inner (reps + 1)
                ++ List.replicate (reps + 1) (Flat.repetitionEnd 0))
          = (result ++ List.replicate reps
              (Flat.repetitionStart (reps + (flatSeg inner (reps + 1)).length))
            ++ flatSeg inner (reps + 1))
            ++ List.replicate (reps + 1) (Flat.repetitionEnd 0) ++ [] := by
        simp [List.append_assoc]
      rw [h2, update_patt_apply _ _ _ _ _ _ (by simp)]
      simp [flatElem, List.append_assoc]
  | .alternative p1 p2 =>
      show update_patt
          (update_patt
            (pattern_patts (single_patt (pattern_patts
                (single_patt result (.alternativeLeft 0) reps) p1 reps 1)
                (.alternativeRight 0) reps) p2 reps 1)
            (.alternativeLeft ((pattern_patts
                (single_patt result (.alternativeLeft 0) reps) p1 reps 1).length
                - result.length))
            result.length reps)
          (.alternativeRight ((pattern_patts (single_patt (pattern_patts
                (single_patt result (.alternativeLeft 0) reps) p1 reps 1)
                (.alternativeRight 0) reps) p2 reps 1).length
              - (pattern_patts
                (single_patt result (.alternativeLeft 0) reps) p1 reps 1).length))
          (pattern_patts
                (single_patt result (.alternativeLeft 0) reps) p1 reps 1).length
          reps = _
      rw [pattern_patts_eq p1, pattern_patts_eq p2]
      simp only [single_patt]
      have hoff1 : (result ++ List.replicate reps (Flat.alternativeLeft 0)
            ++ flatSeg p1 reps).length - result.length
          = reps + (flatSeg p1 reps).length := by simp
      have hoff2 : (result ++ List.replicate reps (Flat.alternativeLeft 0)
            ++ flatSeg p1 reps ++ List.replicate reps (Flat.alternativeRight 0)
            ++ flatSeg p2 reps).length
            - (result ++ List.replicate reps (Flat.alternativeLeft 0)
            ++ flatSeg p1 reps).length
          = reps + (flatSeg p2 reps).length := by simp; omega
      rw [hoff1, hoff2]
      have h1 : result ++ List.replicate reps (Flat.alternativeLeft 0)
            ++ flatSeg p1 reps ++ List.replicate reps (Flat.alternativeRight 0)
            ++ flatSeg p2 reps
          = result ++ List.replicate reps (Flat.alternativeLeft 0)
            ++ (flatSeg p1 reps ++ List.replicate reps (Flat.alternativeRight 0)
              ++ flatSeg p2 reps) := by
        simp [List.append_assoc]
      rw [h1, update_patt_apply _ _ _ _ _ _ rfl]
      have h2 : result ++ List.replicate reps
              (Flat.alternativeLeft (reps + (flatSeg p1 reps).length))
            ++ (flatSeg p1 reps ++ List.replicate reps (Flat.alternativeRight 0)
              ++ flatSeg p2 reps)
          = (result ++ List.replicate reps
              (Flat.alternativeLeft (reps + (flatSeg p1 reps).length))
            ++ flatSeg p1 reps)
            ++ List.replicate reps (Flat.alternativeRight 0) ++ flatSeg p2 reps := by
        simp [List.append_assoc]
      rw [h2, update_patt_apply _ _ _ _ _ _ (by simp)]
      simp [flatElem, List.append_assoc]
theorem pattern_patts_eq (p : Pattern) : ∀ (result : List Flat) (reps : Nat),
    pattern_patts result p reps 1 = result ++ flatSeg p reps := by
  intro result reps
  match p with
  | .nil => simp [pattern_patts, flatSeg]
  | .cons e rest =>
      show pattern_patts (elem_patts result e reps 1) rest reps 1 = _
      rw [elem_patts_eq e, pattern_patts_eq rest]
      simp [flatSeg, List.append_assoc]
end

/-- The solver's flat pattern is `flatSeg p 1`. -/
theorem custom_eq_flatSeg (p : Pattern) : FlatPattern.custom p 1 = flatSeg p 1 := by
  unfold FlatPattern.custom
  rw [pattern_patts_eq p]
  simp

/-! ### Block-start points of the replicated flat pattern -/

lemma get?_middle (pre mid post : List Flat) (k : Nat) (hk : k < mid.length) :
    (pre ++ mid ++ post).get? (pre.length + k) = mid.get? k := by
  rw [List.append_assoc, List.get?_append_right (by omega)]
  have h : pre.length + k - pre.length = k := by omega
  rw [h, List.get?_append hk]

lemma get?_replicate (n k : Nat) (a : Flat) (h : k < n) :
    (List.replicate n a).get? k = some a := by
  rw [List.get?_eq_getElem?]
  simp [List.getElem?_replicate, h]

lemma elemPoint_start (e : Element) (s R : Nat) : ElemPoint e s R s R := by
  cases e with
  | matchE m => exact .matchE m s R
  | capture p => exact .captureStart p s R
  | repetition p => exact .repStart p s R
  | alternative p1 p2 => exact .altLeft p1 p2 s R

lemma segPoint_start_or_nil (p : Pattern) (s R : Nat) :
    SegPoint p s R s R ∨ flatSeg p R = [] := by
  cases p with
  | nil => exact .inr rfl
  | cons e rest => exact .inl (.head (elemPoint_start e s R))

mutual
theorem elemPoint_range {e : Element} {s R pi reps : Nat}
    (h : ElemPoint e s R pi reps) :
    s ≤ pi ∧ pi + reps ≤ s + (flatElem e R).length := by
  cases h with
  | matchE m => cases m <;> simp [flatElem]
  | captureStart p =>
      simp only [flatElem, List.length_append, List.length_replicate]
      omega
  | captureInner hinner =>
      have h2 := segPoint_range hinner
      simp only [flatElem, List.length_append, List.length_replicate]
      omega
  | captureEnd p =>
      simp only [flatElem, List.length_append, List.length_replicate]
      omega
  | repStart p =>
      simp only [flatElem, List.length_append, List.length_replicate]
      omega
  | repInner hinner =>
      have h2 := segPoint_range hinner
      simp only [flatElem, List.length_append, List.length_replicate]
      omega
  | repEnd p =>
      simp only [flatElem, List.length_append, List.length_replicate]
      omega
  | altLeft p1 p2 =>
      simp only [flatElem, List.length_append, List.length_replicate]
      omega
  | altInner1 hinner =>
      have h2 := segPoint_range hinner
      simp only [flatElem, List.length_append, List.length_replicate]
      omega
  | altRight p1 p2 =>
      simp only [flatElem, List.length_append, List.length_replicate]
      omega
  | altInner2 hinner =>
      have h2 := segPoint_range hinner
      simp only [flatElem, List.length_append, List.length_replicate]
      omega

theorem segPoint_range {p : Pattern} {s R pi reps : Nat}
    (h : SegPoint p s R pi reps) :
    s ≤ pi ∧ pi + reps ≤ s + (flatSeg p R).length := by
  cases h with
  | head helem =>
      have h2 := elemPoint_range helem
      simp only [flatSeg, List.length_append]
      omega
  | tail hrest =>
      have h2 := segPoint_range hrest
      simp only [flatSeg, List.length_append]
      omega
end

mutual
theorem elemPoint_reps_le {e : Element} {s R pi reps : Nat}
    (h : ElemPoint e s R pi reps) : reps ≤ R + depthE e := by
  cases h with
  | matchE m => simp [depthE]
  | captureStart p => simp [depthE]
  | captureInner hinner =>
      have h2 := segPoint_reps_le hinner
      simp only [depthE]
      omega
  | captureEnd p => simp [depthE]
  | repStart p => simp [depthE]
  | repInner hinner =>
      have h2 := segPoint_reps_le hinner
      simp only [depthE]
      omega
  | repEnd p => simp [depthE]
  | altLeft p1 p2 => simp [depthE]
  | altInner1 hinner =>
      have h2 := segPoint_reps_le hinner
      simp only [depthE]
      omega
  | altRight p1 p2 => simp [depthE]
  | altInner2 hinner =>
      have h2 := segPoint_reps_le hinner
      simp only [depthE]
      omega

theorem segPoint_reps_le {p : Pattern} {s R pi reps : Nat}
    (h : SegPoint p s R pi reps) : reps ≤ R + depthP p := by
  cases h with
  | head helem =>
      have h2 := elemPoint_reps_le helem
      simp only [depthP]
      omega
  | tail hrest =>
      have h2 := segPoint_reps_le hrest
      simp only [depthP]
      omega
end

/-! ### Available step kinds, by instruction -/

lemma get?_some_lt {α : Type} (l : List α) (n : Nat) (a : α) (h : l.get? n = some a) :
    n < l.length := by
  by_contra hn
  rw [List.get?_eq_none.mpr (by omega)] at h
  exact absurd h (by simp)

lemma get?_append_keep {α : Type} (l1 l2 : List α) (k : Nat) (x : α)
    (h : l1.get? k = some x) : (l1 ++ l2).get? k = some x := by
  rw [List.get?_append (get?_some_lt l1 k x h)]
  exact h

lemma get?_append_add {α : Type} (l1 l2 : List α) (j : Nat) :
    (l1 ++ l2).get? (l1.length + j) = l2.get? j := by
  rw [List.get?_append_right (by omega)]
  congr 1
  omega

lemma avail_groupStart (t : List Char) (F : List Flat) (ix : Ix)
    (hget : F.get? ix.pattern = some .groupStart) :
    Config.avail ⟨t, F⟩ ix = [.startGroup] := by
  unfold Config.avail Config.get
  rw [hget]
  simp [NodeType.get, NodeType.step_types]

lemma avail_groupEnd (t : List Char) (F : List Flat) (ix : Ix)
    (hget : F.get? ix.pattern = some .groupEnd) :
    Config.avail ⟨t, F⟩ ix = [.endGroup] := by
  unfold Config.avail Config.get
  rw [hget]
  simp [NodeType.get, NodeType.step_types]

lemma avail_altLeft (t : List Char) (F : List Flat) (ix : Ix) (off : Nat)
    (hget : F.get? ix.pattern = some (.alternativeLeft off)) :
    Config.avail ⟨t, F⟩ ix = [.startLeft, .startRight off] := by
  unfold Config.avail Config.get
  rw [hget]
  simp [NodeType.get, NodeType.step_types]

lemma avail_altRight (t : List Char) (F : List Flat) (ix : Ix) (off : Nat)
    (hget : F.get? ix.pattern = some (.alternativeRight off)) :
    Config.avail ⟨t, F⟩ ix = [.passRight off] := by
  unfold Config.avail Config.get
  rw [hget]
  simp [NodeType.get, NodeType.step_types]

lemma avail_repStart (t : List Char) (F : List Flat) (ix : Ix) (off : Nat)
    (hget : F.get? ix.pattern = some (.repetitionStart off)) :
    Config.avail ⟨t, F⟩ ix = [.startRepetition, .passRepetition off] := by
  unfold Config.avail Config.get
  rw [hget]
  simp [NodeType.get, NodeType.step_types]

lemma avail_repEnd_restart (t : List Char) (F : List Flat) (ix : Ix) (off : Nat)
    (hget : F.get? ix.pattern = some (.repetitionEnd off)) (hro : ix.rep_off = 0) :
    Config.avail ⟨t, F⟩ ix = [.restartRepetition off] := by
  unfold Config.avail Config.get
  rw [hget]
  simp [NodeType.get, NodeType.step_types, Ix.can_restart, hro]

lemma avail_repEnd_cont (t : List Char) (F : List Flat) (ix : Ix) (off : Nat)
    (hget : F.get? ix.pattern = some (.repetitionEnd off)) (hro : ix.rep_off ≠ 0) :
    Config.avail ⟨t, F⟩ ix = [.endRepetition] := by
  unfold Config.avail Config.get
  rw [hget]
  simp [NodeType.get, NodeType.step_types, Ix.can_restart, hro]

lemma avail_lit_cases (t : List Char) (F : List Flat) (ix : Ix) (c : Char)
    (hget : F.get? ix.pattern = some (.lit c)) (st : StepType)
    (hst : st ∈ Config.avail ⟨t, F⟩ ix) :
    st = .skipPattern ∨ ((st = .hit ∨ st = .skipText) ∧ ix.text < t.length) := by
  unfold Config.avail Config.get at hst
  rw [hget] at hst
  rcases htext : t.get? ix.text with _ | c'
  · rw [htext] at hst
    simp [NodeType.get, NodeType.step_types] at hst
    exact .inl hst
  · rw [htext] at hst
    have hlen : ix.text < t.length := get?_some_lt t ix.text c' htext
    by_cases hc : c' = c
    · subst hc
      simp [NodeType.get, NodeType.step_types] at hst
      rcases hst with h | h | h
      · exact .inr ⟨.inl h, hlen⟩
      · exact .inl h
      · exact .inr ⟨.inr h, hlen⟩
    · simp [NodeType.get, NodeType.step_types, Option.some.injEq, hc] at hst
      rcases hst with h | h
      · exact .inl h
      · exact .inr ⟨.inr h, hlen⟩

lemma avail_cls_cases (t : List Char) (F : List Flat) (ix : Ix) (cl : Class)
    (hget : F.get? ix.pattern = some (.cls cl)) (st : StepType)
    (hst : st ∈ Config.avail ⟨t, F⟩ ix) :
    st = .skipPattern ∨ ((st = .hit ∨ st = .skipText) ∧ ix.text < t.length) := by
  unfold Config.avail Config.get at hst
  rw [hget] at hst
  rcases htext : t.get? ix.text with _ | c'
  · rw [htext] at hst
    simp [NodeType.get, NodeType.step_types] at hst
    exact .inl hst
  · rw [htext] at hst
    have hlen : ix.text < t.length := get?_some_lt t ix.text c' htext
    by_cases hm : cl.matches c' = true
    · simp [NodeType.get, NodeType.step_types, hm] at hst
      rcases hst with h | h | h
      · exact .inr ⟨.inl h, hlen⟩
      · exact .inl h
      · exact .inr ⟨.inr h, hlen⟩
    · simp [NodeType.get, NodeType.step_types, hm] at hst
      rcases hst with h | h
      · exact .inl h
      · exact .inr ⟨.inr h, hlen⟩

lemma avail_past_pattern (t : List Char) (F : List Flat) (ix : Ix)
    (hget : F.get? ix.pattern = none) (st : StepType)
    (hst : st ∈ Config.avail ⟨t, F⟩ ix) :
    st = .skipText ∧ ix.text < t.length := by
  unfold Config.avail Config.get at hst
  rw [hget] at hst
  rcases htext : t.get? ix.text with _ | c'
  · rw [htext] at hst
    simp [NodeType.get] at hst
  · rw [htext] at hst
    simp [NodeType.get, NodeType.step_types] at hst
    exact ⟨hst, get?_some_lt t ix.text c' htext⟩

/-! ### Step closure: every available step from a block-start point lands on
a block-start point (or just after the fragment) -/

lemma pointTarget_mono {P Q : Nat → Nat → Prop} {aft aftR aft2 aftR2 : Nat}
    {t : List Char} {ix ix' : Ix} (h : PointTarget P aft aftR t ix ix')
    (hPQ : ∀ a b, P a b → Q a b)
    (haft : Q aft aftR ∨ (aft = aft2 ∧ aftR = aftR2)) :
    PointTarget Q aft2 aftR2 t ix ix' := by
  obtain ⟨hp, h2, h3, h4⟩ := h
  refine ⟨?_, h2, h3, h4⟩
  rcases hp with hp | ⟨he, hr⟩
  · exact .inl (hPQ _ _ hp)
  · rcases haft with hq | ⟨ha, hb⟩
    · rw [he, hr]
      exact .inl hq
    · rw [he, hr, ha, hb]
      exact .inr ⟨rfl, rfl⟩

mutual
theorem elemPoint_step (e : Element) : ∀ {s R pi reps : Nat},
    ElemPoint e s R pi reps → 1 ≤ R →
    ∀ (pre post : List Flat) (t : List Char), pre.length = s →
    ∀ (ti ro : Nat), ti ≤ t.length → ro < reps →
    ∀ st ∈ Config.avail ⟨t, pre ++ flatElem e R ++ post⟩ ⟨pi, ti, reps, ro⟩,
      PointTarget (ElemPoint e s R) (s + (flatElem e R).length) R t
        ⟨pi, ti, reps, ro⟩
        (Config.step ⟨t, pre ++ flatElem e R ++ post⟩ ⟨pi, ti, reps, ro⟩ st) := by
  intro s R pi reps hpt hR pre post t hpre ti ro hti hro st hst
  cases hpt with
  | matchE m =>
      have hget : ∃ fl : Flat, (pre ++ flatElem (.matchE m) R ++ post).get? s = some fl
          ∧ flatElem (.matchE m) R = List.replicate R fl
          ∧ (fl = .lit (match m with | .lit c => c | .cls _ => 'x')
              ∧ (∃ c, m = .lit c) ∨ (∃ cl, m = .cls cl ∧ fl = .cls cl)) := by
        cases m with
        | lit c =>
            refine ⟨.lit c, ?_, rfl, .inl ⟨rfl, c, rfl⟩⟩
            rw [← hpre, show pre.length = pre.length + 0 by omega,
              get?_middle _ _ _ 0 (by simp [flatElem]; omega)]
            exact get?_replicate R 0 _ hR
        | cls cl =>
            refine ⟨.cls cl, ?_, rfl, .inr ⟨cl, rfl, rfl⟩⟩
            rw [← hpre, show pre.length = pre.length + 0 by omega,
              get?_middle _ _ _ 0 (by simp [flatElem]; omega)]
            exact get?_replicate R 0 _ hR
      obtain ⟨fl, hget, hrep, hfl⟩ := hget
      have hcases : st = .skipPattern
          ∨ ((st = .hit ∨ st = .skipText) ∧ ti < t.length) := by
        rcases hfl with ⟨rfl, c, rfl⟩ | ⟨cl, rfl, rfl⟩
        · exact avail_lit_cases t _ _ _ hget st hst
        · exact avail_cls_cases t _ _ _ hget st hst
      have hlen : (flatElem (.matchE m) R).length = R := by rw [hrep]; simp
      rcases hcases with rfl | ⟨hht, htlt⟩
      · exact ⟨.inr ⟨by simp [Config.step, hlen], by simp [Config.step]⟩,
          by simpa [Config.step] using hro, by simpa [Config.step] using hti,
          .inr (.inl ⟨by simp [Config.step], by simp [Config.step]; try omega,
            by simp [Config.step]⟩)⟩
      · rcases hht with rfl | rfl
        · exact ⟨.inr ⟨by simp [Config.step, hlen], by simp [Config.step]⟩,
            by simp [Config.step]; try omega, by simp [Config.step]; try omega,
            .inl (by simp [Config.step])⟩
        · exact ⟨.inl (by simpa [Config.step] using ElemPoint.matchE m s R),
            by simp [Config.step]; try omega, by simp [Config.step]; try omega,
            .inl (by simp [Config.step])⟩
  | captureStart p =>
      have hassoc : pre ++ flatElem (.capture p) R ++ post
          = pre ++ (List.replicate R .groupStart
              ++ (flatSeg p R ++ (List.replicate R .groupEnd ++ post))) := by
        simp [flatElem, List.append_assoc]
      have hget : (pre ++ flatElem (.capture p) R ++ post).get? s
          = some .groupStart := by
        rw [hassoc, ← hpre, ← List.append_assoc,
          show pre.length = pre.length + 0 by omega,
          get?_middle pre (List.replicate R Flat.groupStart) _ 0 (by simp; omega)]
        exact get?_replicate R 0 _ hR
      rw [avail_groupStart t _ _ hget] at hst
      simp only [List.mem_singleton] at hst
      subst hst
      refine ⟨?_, by simpa [Config.step] using hro, by simpa [Config.step] using hti,
        .inr (.inl ⟨by simp [Config.step], by simp [Config.step]; try omega,
          by simp [Config.step]⟩)⟩
      left
      show ElemPoint (.capture p) s R (s + R) R
      rcases segPoint_start_or_nil p (s + R) R with hsp | hnil
      · exact .captureInner hsp
      · have h0 : s + R = s + R + (flatSeg p R).length := by rw [hnil]; simp
        rw [h0]
        exact .captureEnd p s R
  | @captureInner p _ _ _ _ hinner =>
      have hassoc : pre ++ flatElem (.capture p) R ++ post
          = (pre ++ List.replicate R .groupStart) ++ flatSeg p R
            ++ (List.replicate R .groupEnd ++ post) := by
        simp [flatElem, List.append_assoc]
      rw [hassoc] at hst
      have h := segPoint_step p hinner hR (pre ++ List.replicate R .groupStart)
        (List.replicate R .groupEnd ++ post) t (by simp [hpre]) ti ro hti hro st hst
      rw [← hassoc] at h
      refine pointTarget_mono h (fun a b hp => .captureInner hp) (.inl ?_)
      exact .captureEnd p s R
  | captureEnd p =>
      have hassoc : pre ++ flatElem (.capture p) R ++ post
          = ((pre ++ List.replicate R .groupStart) ++ flatSeg p R)
            ++ (List.replicate R .groupEnd ++ post) := by
        simp [flatElem, List.append_assoc]
      have hget : (pre ++ flatElem (.capture p) R ++ post).get?
          (s + R + (flatSeg p R).length) = some .groupEnd := by
        rw [hassoc,
          show s + R + (flatSeg p R).length
            = ((pre ++ List.replicate R Flat.groupStart) ++ flatSeg p R).length + 0
            by simp [hpre]; omega,
          get?_append_add]
        exact get?_append_keep _ _ _ _ (get?_replicate R 0 _ hR)
      rw [avail_groupEnd t _ _ hget] at hst
      simp only [List.mem_singleton] at hst
      subst hst
      refine ⟨.inr ⟨by simp [Config.step, flatElem]; try omega, by simp [Config.step]⟩,
        by simpa [Config.step] using hro, by simpa [Config.step] using hti,
        .inr (.inl ⟨by simp [Config.step], by simp [Config.step]; try omega,
          by simp [Config.step]⟩)⟩
  | repStart p =>
      have hassoc : pre ++ flatElem (.repetition p) R ++ post
          = pre ++ (List.replicate R
                (Flat.repetitionStart (R + (flatSeg p (R + 1)).length))
              ++ (flatSeg p (R + 1) ++ (List.replicate (R + 1)
                (Flat.repetitionEnd (R + (flatSeg p (R + 1)).length)) ++ post))) := by
        simp [flatElem, List.append_assoc]
      have hget : (pre ++ flatElem (.repetition p) R ++ post).get? s
          = some (.repetitionStart (R + (flatSeg p (R + 1)).length)) := by
        rw [hassoc, ← hpre, ← List.append_assoc,
          show pre.length = pre.length + 0 by omega,
          get?_middle pre (List.replicate R _) _ 0 (by simp; omega)]
        exact get?_replicate R 0 _ hR
      rw [avail_repStart t _ _ _ hget] at hst
      simp only [List.mem_cons, List.mem_singleton, List.not_mem_nil, or_false] at hst
      rcases hst with rfl | rfl
      · -- StartRepetition
        refine ⟨?_, by simp [Config.step]; try omega, by simpa [Config.step] using hti,
          .inr (.inl ⟨by simp [Config.step], by simp [Config.step]; try omega,
            by simp [Config.step]; try omega⟩)⟩
        left
        show ElemPoint (.repetition p) s R (s + R) (R + 1)
        rcases segPoint_start_or_nil p (s + R) (R + 1) with hsp | hnil
        · exact .repInner hsp
        · have h0 : s + R = s + R + (flatSeg p (R + 1)).length := by rw [hnil]; simp
          rw [h0]
          exact .repEnd p s R
      · -- PassRepetition
        refine ⟨.inr ⟨by simp [Config.step, flatElem]; try omega, by simp [Config.step]⟩,
          by simpa [Config.step] using hro, by simpa [Config.step] using hti,
          .inr (.inl ⟨by simp [Config.step], by simp [Config.step]; try omega,
            by simp [Config.step]⟩)⟩
  | @repInner p _ _ _ _ hinner =>
      have hassoc : pre ++ flatElem (.repetition p) R ++ post
          = (pre ++ List.replicate R
                (Flat.repetitionStart (R + (flatSeg p (R + 1)).length)))
            ++ flatSeg p (R + 1)
            ++ (List.replicate (R + 1)
                (Flat.repetitionEnd (R + (flatSeg p (R + 1)).length)) ++ post) := by
        simp [flatElem, List.append_assoc]
      rw [hassoc] at hst
      have h := segPoint_step p hinner (by omega)
        (pre ++ List.replicate R (Flat.repetitionStart (R + (flatSeg p (R + 1)).length)))
        (List.replicate (R + 1)
          (Flat.repetitionEnd (R + (flatSeg p (R + 1)).length)) ++ post) t
        (by simp [hpre]) ti ro hti hro st hst
      rw [← hassoc] at h
      refine pointTarget_mono h (fun a b hp => .repInner hp) (.inl ?_)
      exact .repEnd p s R
  | repEnd p =>
      have hassoc : pre ++ flatElem (.repetition p) R ++ post
          = ((pre ++ List.replicate R
                (Flat.repetitionStart (R + (flatSeg p (R + 1)).length)))
              ++ flatSeg p (R + 1))
            ++ (List.replicate (R + 1)
                (Flat.repetitionEnd (R + (flatSeg p (R + 1)).length)) ++ post) := by
        simp [flatElem, List.append_assoc]
      have hget : (pre ++ flatElem (.repetition p) R ++ post).get?
          (s + R + (flatSeg p (R + 1)).length)
          = some (.repetitionEnd (R + (flatSeg p (R + 1)).length)) := by
        rw [hassoc,
          show s + R + (flatSeg p (R + 1)).length
            = ((pre ++ List.replicate R
                  (Flat.repetitionStart (R + (flatSeg p (R + 1)).length)))
                ++ flatSeg p (R + 1)).length + 0
            by simp [hpre]; omega,
          get?_append_add]
        exact get?_append_keep _ _ _ _ (get?_replicate (R + 1) 0 _ (by omega))
      by_cases hro0 : ro = 0
      · rw [avail_repEnd_restart t _ _ _ hget hro0] at hst
        simp only [List.mem_singleton] at hst
        subst hst
        subst hro0
        refine ⟨?_, by simp [Config.step]; try omega, by simpa [Config.step] using hti,
          .inr (.inr ⟨by simp [Config.step], by simp [Config.step],
            by simp [Config.step], by simp [Config.step]⟩)⟩
        left
        show ElemPoint (.repetition p) s R
          (s + R + (flatSeg p (R + 1)).length - (R + (flatSeg p (R + 1)).length))
          (R + 1 - 1)
        have h1 : s + R + (flatSeg p (R + 1)).length
            - (R + (flatSeg p (R + 1)).length) = s := by omega
        have h2 : R + 1 - 1 = R := by omega
        rw [h1, h2]
        exact .repStart p s R
      · rw [avail_repEnd_cont t _ _ _ hget hro0] at hst
        simp only [List.mem_singleton] at hst
        subst hst
        refine ⟨.inr ⟨by simp [Config.step, flatElem]; try omega,
            by simp [Config.step]; try omega⟩,
          by simp [Config.step]; try omega, by simpa [Config.step] using hti,
          .inr (.inl ⟨by simp [Config.step], by simp [Config.step]; try omega,
            by simp [Config.step]; try omega⟩)⟩
  | altLeft p1 p2 =>
      have hassoc : pre ++ flatElem (.alternative p1 p2) R ++ post
          = pre ++ (List.replicate R
                (Flat.alternativeLeft (R + (flatSeg p1 R).length))
              ++ (flatSeg p1 R ++ (List.replicate R
                (Flat.alternativeRight (R + (flatSeg p2 R).length))
                ++ (flatSeg p2 R ++ post)))) := by
        simp [flatElem, List.append_assoc]
      have hget : (pre ++ flatElem (.alternative p1 p2) R ++ post).get? s
          = some (.alternativeLeft (R + (flatSeg p1 R).length)) := by
        rw [hassoc, ← hpre, ← List.append_assoc,
          show pre.length = pre.length + 0 by omega,
          get?_middle pre (List.replicate R _) _ 0 (by simp; omega)]
        exact get?_replicate R 0 _ hR
      rw [avail_altLeft t _ _ _ hget] at hst
      simp only [List.mem_cons, List.mem_singleton, List.not_mem_nil, or_false] at hst
      rcases hst with rfl | rfl
      · -- StartLeft
        refine ⟨?_, by simpa [Config.step] using hro, by simpa [Config.step] using hti,
          .inr (.inl ⟨by simp [Config.step], by simp [Config.step]; try omega,
            by simp [Config.step]⟩)⟩
        left
        show ElemPoint (.alternative p1 p2) s R (s + R) R
        rcases segPoint_start_or_nil p1 (s + R) R with hsp | hnil
        · exact .altInner1 hsp
        · have : s + R = s + R + (flatSeg p1 R).length := by rw [hnil]; simp
          rw [this]
          exact .altRight p1 p2 s R
      · -- StartRight
        have hstep : Config.step ⟨t, pre ++ flatElem (.alternative p1 p2) R ++ post⟩
            ⟨s, ti, R, ro⟩ (.startRight (R + (flatSeg p1 R).length))
            = ⟨s + (R + (flatSeg p1 R).length) + R, ti, R, ro⟩ := by
          simp [Config.step]
        rw [hstep]
        refine ⟨?_, hro, hti, .inr (.inl ⟨rfl, by show s < s + (R + (flatSeg p1 R).length) + R; omega, rfl⟩)⟩
        have harith : s + (R + (flatSeg p1 R).length) + R
            = s + R + (flatSeg p1 R).length + R := by omega
        rcases segPoint_start_or_nil p2 (s + R + (flatSeg p1 R).length + R) R
          with hsp | hnil
        · left
          show ElemPoint (.alternative p1 p2) s R (s + (R + (flatSeg p1 R).length) + R) R
          rw [harith]
          exact .altInner2 hsp
        · right
          refine ⟨?_, rfl⟩
          show s + (R + (flatSeg p1 R).length) + R
            = s + (flatElem (.alternative p1 p2) R).length
          simp [flatElem, hnil]
          omega
  | @altInner1 p1 p2 _ _ _ _ hinner =>
      have hassoc : pre ++ flatElem (.alternative p1 p2) R ++ post
          = (pre ++ List.replicate R
                (Flat.alternativeLeft (R + (flatSeg p1 R).length)))
            ++ flatSeg p1 R
            ++ (List.replicate R (Flat.alternativeRight (R + (flatSeg p2 R).length))
              ++ (flatSeg p2 R ++ post)) := by
        simp [flatElem, List.append_assoc]
      rw [hassoc] at hst
      have h := segPoint_step p1 hinner hR
        (pre ++ List.replicate R (Flat.alternativeLeft (R + (flatSeg p1 R).length)))
        (List.replicate R (Flat.alternativeRight (R + (flatSeg p2 R).length))
          ++ (flatSeg p2 R ++ post)) t (by simp [hpre]) ti ro hti hro st hst
      rw [← hassoc] at h
      refine pointTarget_mono h (fun a b hp => .altInner1 hp) (.inl ?_)
      exact .altRight p1 p2 s R
  | altRight p1 p2 =>
      have hassoc : pre ++ flatElem (.alternative p1 p2) R ++ post
          = ((pre ++ List.replicate R
                (Flat.alternativeLeft (R + (flatSeg p1 R).length)))
              ++ flatSeg p1 R)
            ++ (List.replicate R (Flat.alternativeRight (R + (flatSeg p2 R).length))
              ++ (flatSeg p2 R ++ post)) := by
        simp [flatElem, List.append_assoc]
      have hget : (pre ++ flatElem (.alternative p1 p2) R ++ post).get?
          (s + R + (flatSeg p1 R).length)
          = some (.alternativeRight (R + (flatSeg p2 R).length)) := by
        rw [hassoc,
          show s + R + (flatSeg p1 R).length
            = ((pre ++ List.replicate R
                  (Flat.alternativeLeft (R + (flatSeg p1 R).length)))
                ++ flatSeg p1 R).length + 0
            by simp [hpre]; omega,
          get?_append_add]
        exact get?_append_keep _ _ _ _ (get?_replicate R 0 _ hR)
      rw [avail_altRight t _ _ _ hget] at hst
      simp only [List.mem_singleton] at hst
      subst hst
      refine ⟨.inr ⟨by simp [Config.step, flatElem]; try omega, by simp [Config.step]⟩,
        by simpa [Config.step] using hro, by simpa [Config.step] using hti,
        .inr (.inl ⟨by simp [Config.step], by simp [Config.step]; try omega,
          by simp [Config.step]⟩)⟩
  | @altInner2 p1 p2 _ _ _ _ hinner =>
      have hassoc : pre ++ flatElem (.alternative p1 p2) R ++ post
          = ((pre ++ List.replicate R
                (Flat.alternativeLeft (R + (flatSeg p1 R).length)))
              ++ flatSeg p1 R
              ++ List.replicate R (Flat.alternativeRight (R + (flatSeg p2 R).length)))
            ++ flatSeg p2 R ++ post := by
        simp [flatElem, List.append_assoc]
      rw [hassoc] at hst
      have h := segPoint_step p2 hinner hR
        ((pre ++ List.replicate R (Flat.alternativeLeft (R + (flatSeg p1 R).length)))
          ++ flatSeg p1 R
          ++ List.replicate R (Flat.alternativeRight (R + (flatSeg p2 R).length)))
        post t (by simp [hpre]; omega) ti ro hti hro st hst
      rw [← hassoc] at h
      refine pointTarget_mono h (fun a b hp => .altInner2 hp) (.inr ⟨?_, rfl⟩)
      simp [flatElem]
      omega

theorem segPoint_step (p : Pattern) : ∀ {s R pi reps : Nat},
    SegPoint p s R pi reps → 1 ≤ R →
    ∀ (pre post : List Flat) (t : List Char), pre.length = s →
    ∀ (ti ro : Nat), ti ≤ t.length → ro < reps →
    ∀ st ∈ Config.avail ⟨t, pre ++ flatSeg p R ++ post⟩ ⟨pi, ti, reps, ro⟩,
      PointTarget (SegPoint p s R) (s + (flatSeg p R).length) R t
        ⟨pi, ti, reps, ro⟩
        (Config.step ⟨t, pre ++ flatSeg p R ++ post⟩ ⟨pi, ti, reps, ro⟩ st) := by
  intro s R pi reps hpt hR pre post t hpre ti ro hti hro st hst
  cases hpt with
  | @head e rest _ _ _ _ helem =>
      have hassoc : pre ++ flatSeg (.cons e rest) R ++ post
          = pre ++ flatElem e R ++ (flatSeg rest R ++ post) := by
        simp [flatSeg, List.append_assoc]
      rw [hassoc] at hst
      have h := elemPoint_step e helem hR pre (flatSeg rest R ++ post) t hpre
        ti ro hti hro st hst
      rw [← hassoc] at h
      refine pointTarget_mono h (fun a b hp => .head hp) ?_
      rcases segPoint_start_or_nil rest (s + (flatElem e R).length) R with hsp | hnil
      · exact .inl (.tail hsp)
      · right
        constructor
        · simp [flatSeg, hnil]
        · rfl
  | @tail e rest _ _ _ _ hrest =>
      have hassoc : pre ++ flatSeg (.cons e rest) R ++ post
          = (pre ++ flatElem e R) ++ flatSeg rest R ++ post := by
        simp [flatSeg, List.append_assoc]
      rw [hassoc] at hst
      have h := segPoint_step rest hrest hR (pre ++ flatElem e R) post t
        (by simp [hpre]) ti ro hti hro st hst
      rw [← hassoc] at h
      refine pointTarget_mono h (fun a b hp => .tail hp) (.inr ⟨?_, rfl⟩)
      simp [flatSeg]
      omega
end

/-! ### Good indices: preservation, measure, acyclicity (C4) -/

lemma conf_new_eq (p : Pattern) (t : Atoms) :
    Config.new p t = ⟨t.atoms, flatSeg p 1⟩ := by
  unfold Config.new
  rw [custom_eq_flatSeg]

lemma step_conf_irrel (c1 c2 : Config) (ix : Ix) (st : StepType) :
    Config.step c1 ix st = Config.step c2 ix st := rfl

lemma goodIx_start (p : Pattern) (t : List Char) :
    GoodIx p t ((⟨t, flatSeg p 1⟩ : Config).start) := by
  refine ⟨?_, by simp [Config.start], by simp [Config.start]⟩
  rcases segPoint_start_or_nil p 0 1 with hsp | hnil
  · exact .inl hsp
  · right
    exact ⟨by show (0 : Nat) = (flatSeg p 1).length; rw [hnil]; rfl, rfl⟩

lemma goodIx_bounds (p : Pattern) (t : List Char) (ix : Ix)
    (hg : GoodIx p t ix) :
    ix.pattern ≤ (flatSeg p 1).length
      ∧ ix.pattern + ix.rep_off ≤ (flatSeg p 1).length
      ∧ ix.reps ≤ depthP p + 1 := by
  obtain ⟨hpoint, hro, hti⟩ := hg
  rcases hpoint with hpoint | ⟨hpi, hreps⟩
  · have hr := segPoint_range hpoint
    have hd := segPoint_reps_le hpoint
    omega
  · omega

lemma goodIx_step (p : Pattern) (t : List Char) (ix : Ix) (hg : GoodIx p t ix)
    (st : StepType) (hst : st ∈ Config.avail ⟨t, flatSeg p 1⟩ ix) :
    GoodIx p t (Config.step ⟨t, flatSeg p 1⟩ ix st)
      ∧ StepShape ix (Config.step ⟨t, flatSeg p 1⟩ ix st) := by
  obtain ⟨hpoint, hro, hti⟩ := hg
  rcases hpoint with hpoint | ⟨hpi, hreps⟩
  · have hF : flatSeg p 1 = [] ++ flatSeg p 1 ++ [] := by simp
    rw [hF] at hst
    have h := segPoint_step p hpoint (le_refl 1) [] [] t rfl ix.text ix.rep_off
      hti hro st hst
    obtain ⟨htgt, hro', hti', hshape⟩ := h
    rw [← hF] at htgt hro' hti' hshape
    refine ⟨⟨?_, hro', hti'⟩, hshape⟩
    rcases htgt with htgt | ⟨ha, hb⟩
    · exact .inl htgt
    · right
      rw [ha, hb]
      exact ⟨by omega, rfl⟩
  · have hget : (flatSeg p 1).get? ix.pattern = none := by
      rw [List.get?_eq_none.mpr (by omega)]
    obtain ⟨rfl, hlt⟩ := avail_past_pattern t _ ix hget st hst
    refine ⟨⟨?_, ?_, ?_⟩, ?_⟩
    · right
      exact ⟨by simp [Config.step]; omega, by simp [Config.step]; omega⟩
    · simp [Config.step]
      omega
    · simp [Config.step]
      omega
    · left
      simp [Config.step]

lemma measure_core (L D ti ti' pi pi' reps reps' ro ro' : Nat)
    (hpi : pi ≤ L) (hpi' : pi' ≤ L) (hro : ro < reps) (hro' : ro' < reps')
    (hreps : reps ≤ D) (hreps' : reps' ≤ D)
    (hshape : ti < ti'
      ∨ (ti' = ti ∧ pi < pi' ∧ ro' + reps = ro + reps')
      ∨ (ti' = ti ∧ ro = 0 ∧ ro' = 0 ∧ reps' + 1 = reps)) :
    ti * ((2 * D + 1) * (L + 1) + L + 1) + (ro + D - reps) * (L + 1) + pi
      < ti' * ((2 * D + 1) * (L + 1) + L + 1) + (ro' + D - reps') * (L + 1) + pi' := by
  rcases hshape with h | ⟨hti, hpp, hq⟩ | ⟨hti, h0, h0', hr⟩
  · have hmul : (ti + 1) * ((2 * D + 1) * (L + 1) + L + 1)
        ≤ ti' * ((2 * D + 1) * (L + 1) + L + 1) :=
      Nat.mul_le_mul_right _ (by omega)
    have hq2 : (ro + D - reps) * (L + 1) ≤ (2 * D) * (L + 1) :=
      Nat.mul_le_mul_right _ (by omega)
    have hexp : (ti + 1) * ((2 * D + 1) * (L + 1) + L + 1)
        = ti * ((2 * D + 1) * (L + 1) + L + 1) + (2 * D) * (L + 1) + (L + 1)
          + L + 1 := by ring
    have hnn1 : 0 ≤ (ro' + D - reps') * (L + 1) := Nat.zero_le _
    have hnn2 : 0 ≤ pi' := Nat.zero_le _
    linarith
  · have hqeq : ro + D - reps = ro' + D - reps' := by omega
    rw [hti, hqeq]
    linarith
  · have hq' : ro' + D - reps' = (ro + D - reps) + 1 := by omega
    rw [hti, hq']
    have hexp : ((ro + D - reps) + 1) * (L + 1)
        = (ro + D - reps) * (L + 1) + (L + 1) := by ring
    rw [hexp]
    linarith

lemma ixMeasure_lt (p : Pattern) (t : List Char) (ix ix' : Ix)
    (hg : GoodIx p t ix) (hg' : GoodIx p t ix') (hs : StepShape ix ix') :
    ixMeasure p ix < ixMeasure p ix' := by
  obtain ⟨h1, h2, h3⟩ := goodIx_bounds p t ix hg
  obtain ⟨h1', h2', h3'⟩ := goodIx_bounds p t ix' hg'
  have hro := hg.2.1
  have hro' := hg'.2.1
  unfold ixMeasure
  exact measure_core (flatSeg p 1).length (depthP p + 1) ix.text ix'.text
    ix.pattern ix'.pattern ix.reps ix'.reps ix.rep_off ix'.rep_off
    h1 h1' hro hro' h3 h3' hs

lemma reaches_good (p : Pattern) (t : List Char) (ix : Ix)
    (h : Reaches ⟨t, flatSeg p 1⟩ ((⟨t, flatSeg p 1⟩ : Config).start) ix) :
    GoodIx p t ix := by
  induction h with
  | refl => exact goodIx_start p t
  | tail hr hstep ih =>
      obtain ⟨st, hst, heq⟩ := hstep
      rw [heq]
      exact (goodIx_step p t _ ih st hst).1

lemma path_measure (p : Pattern) (t : List Char) :
    ∀ (π : List StepType) (ix ix'' : Ix), GoodIx p t ix →
    PathFromTo ⟨t, flatSeg p 1⟩ ix π ix'' →
    GoodIx p t ix'' ∧ (π ≠ [] → ixMeasure p ix < ixMeasure p ix'') := by
  intro π
  induction π with
  | nil =>
      intro ix ix'' hg hpath
      cases hpath
      exact ⟨hg, by simp⟩
  | cons st rest ih =>
      intro ix ix'' hg hpath
      cases hpath with
      | cons hst heq hrest =>
          rename_i ix1
          have hs := goodIx_step p t ix hg st hst
          rw [← heq] at hs
          obtain ⟨hg1, hshape1⟩ := hs
          obtain ⟨hg'', hlt⟩ := ih ix1 ix'' hg1 hrest
          refine ⟨hg'', fun _ => ?_⟩
          have hlt1 : ixMeasure p ix < ixMeasure p ix1 := by
            have := ixMeasure_lt p t ix ix1 hg hg1 hshape1
            exact this
          by_cases hre : rest = []
          · subst hre
            cases hrest
            exact hlt1
          · exact lt_trans hlt1 (hlt hre)

/-- **C4.** The step relation on lattice indices reachable from the start
index is acyclic: no nonempty chain of available steps leads from a
reachable index back to itself (a strictly increasing measure exists along
every step from a reachable index), so the solver's traversal of these
links cannot loop. -/
theorem c4_step_relation_acyclic (p : Pattern) (t : Atoms) (ix : Ix)
    (hreach : Reaches (Config.new p t) ((Config.new p t).start) ix)
    (π : List StepType) (hpath : PathFromTo (Config.new p t) ix π ix) :
    π = [] := by
  rw [conf_new_eq] at hreach hpath
  have hg : GoodIx p t.atoms ix := reaches_good p t.atoms ix hreach
  by_contra hne
  have := (path_measure p t.atoms π ix ix hg hpath).2 hne
  omega

/-- Witness for C4: for the pattern `a*` against text `"a"`, the start index
is reachable and the theorem applies; the empty chain is the only chain from
the start index to itself. -/
theorem c4_step_relation_acyclic_witness : ([] : List StepType) = [] :=
  c4_step_relation_acyclic
    (Pattern.cons (.repetition (Pattern.cons (.matchE (.lit 'a')) .nil)) .nil)
    ⟨['a']⟩ _ (Reaches.refl _) [] (PathFromTo.nil _)

/-! ### Address injectivity on reachable indices (C7) -/

mutual
theorem elemPoint_disjoint (e : Element) : ∀ {s R pi1 r1 pi2 r2 ro1 ro2 : Nat},
    ElemPoint e s R pi1 r1 → ElemPoint e s R pi2 r2 →
    ro1 < r1 → ro2 < r2 → pi1 + ro1 = pi2 + ro2 → pi1 = pi2 ∧ r1 = r2 := by
  intro s R pi1 r1 pi2 r2 ro1 ro2 h1 h2 hro1 hro2 heq
  cases h1 with
  | matchE m =>
      cases h2 with
      | matchE _ => omega
  | captureStart p =>
      cases h2 with
      | captureStart _ => omega
      | captureInner hi => have := segPoint_range hi; omega
      | captureEnd _ => omega
  | @captureInner p _ _ _ _ hi1 =>
      cases h2 with
      | captureStart _ => have := segPoint_range hi1; omega
      | @captureInner _ _ _ _ _ hi2 =>
          exact segPoint_disjoint p hi1 hi2 hro1 hro2 heq
      | captureEnd _ => have := segPoint_range hi1; omega
  | captureEnd p =>
      cases h2 with
      | captureStart _ => omega
      | captureInner hi => have := segPoint_range hi; omega
      | captureEnd _ => omega
  | repStart p =>
      cases h2 with
      | repStart _ => omega
      | repInner hi => have := segPoint_range hi; omega
      | repEnd _ => omega
  | @repInner p _ _ _ _ hi1 =>
      cases h2 with
      | repStart _ => have := segPoint_range hi1; omega
      | @repInner _ _ _ _ _ hi2 =>
          exact segPoint_disjoint p hi1 hi2 hro1 hro2 heq
      | repEnd _ => have := segPoint_range hi1; omega
  | repEnd p =>
      cases h2 with
      | repStart _ => omega
      | repInner hi => have := segPoint_range hi; omega
      | repEnd _ => omega
  | altLeft p1 p2 =>
      cases h2 with
      | altLeft _ _ => omega
      | altInner1 hi => have := segPoint_range hi; omega
      | altRight _ _ => omega
      | altInner2 hi => have := segPoint_range hi; omega
  | @altInner1 p1 p2 _ _ _ _ hi1 =>
      cases h2 with
      | altLeft _ _ => have := segPoint_range hi1; omega
      | @altInner1 _ _ _ _ _ _ hi2 =>
          exact segPoint_disjoint p1 hi1 hi2 hro1 hro2 heq
      | altRight _ _ => have := segPoint_range hi1; omega
      | altInner2 hi2 =>
          have ha := segPoint_range hi1
          have hb := segPoint_range hi2
          omega
  | altRight p1 p2 =>
      cases h2 with
      | altLeft _ _ => omega
      | altInner1 hi => have := segPoint_range hi; omega
      | altRight _ _ => omega
      | altInner2 hi => have := segPoint_range hi; omega
  | @altInner2 p1 p2 _ _ _ _ hi1 =>
      cases h2 with
      | altLeft _ _ => have := segPoint_range hi1; omega
      | altInner1 hi2 =>
          have ha := segPoint_range hi1
          have hb := segPoint_range hi2
          omega
      | altRight _ _ => have := segPoint_range hi1; omega
      | @altInner2 _ _ _ _ _ _ hi2 =>
          exact segPoint_disjoint p2 hi1 hi2 hro1 hro2 heq

theorem segPoint_disjoint (p : Pattern) : ∀ {s R pi1 r1 pi2 r2 ro1 ro2 : Nat},
    SegPoint p s R pi1 r1 → SegPoint p s R pi2 r2 →
    ro1 < r1 → ro2 < r2 → pi1 + ro1 = pi2 + ro2 → pi1 = pi2 ∧ r1 = r2 := by
  intro s R pi1 r1 pi2 r2 ro1 ro2 h1 h2 hro1 hro2 heq
  cases h1 with
  | @head e rest _ _ _ _ he1 =>
      cases h2 with
      | head he2 => exact elemPoint_disjoint e he1 he2 hro1 hro2 heq
      | tail ht2 =>
          have ha := elemPoint_range he1
          have hb := segPoint_range ht2
          omega
  | @tail e rest _ _ _ _ ht1 =>
      cases h2 with
      | head he2 =>
          have ha := elemPoint_range he2
          have hb := segPoint_range ht1
          omega
      | tail ht2 => exact segPoint_disjoint rest ht1 ht2 hro1 hro2 heq
end

lemma addr_inj (W a1 a2 t1 t2 : Nat) (ha1 : a1 < W) (ha2 : a2 < W)
    (h : t1 * W + a1 = t2 * W + a2) : t1 = t2 ∧ a1 = a2 := by
  rcases Nat.lt_trichotomy t1 t2 with hlt | heqt | hgt
  · have hm : (t1 + 1) * W ≤ t2 * W := Nat.mul_le_mul_right W (by omega)
    have hx : (t1 + 1) * W = t1 * W + W := by ring
    linarith
  · subst heqt
    exact ⟨rfl, by omega⟩
  · have hm : (t2 + 1) * W ≤ t1 * W := Nat.mul_le_mul_right W (by omega)
    have hx : (t2 + 1) * W = t2 * W + W := by ring
    linarith

/-- **C7.** The dense table's address function
`ti * W + pi + rep_off` (with `W` one more than the length of the replicated
flat pattern) is injective on the lattice indices reachable from the start
index: two distinct reachable indices never share an array cell. -/
theorem c7_dense_address_injective (p : Pattern) (t : Atoms) (ix1 ix2 : Ix)
    (h1 : Reaches (Config.new p t) ((Config.new p t).start) ix1)
    (h2 : Reaches (Config.new p t) ((Config.new p t).start) ix2)
    (heq : (State.new (Config.new p t)).node ix1
      = (State.new (Config.new p t)).node ix2) :
    ix1 = ix2 := by
  rw [conf_new_eq] at h1 h2 heq
  have hg1 := reaches_good p t.atoms ix1 h1
  have hg2 := reaches_good p t.atoms ix2 h2
  obtain ⟨hb1, hb1', _⟩ := goodIx_bounds p t.atoms ix1 hg1
  obtain ⟨hb2, hb2', _⟩ := goodIx_bounds p t.atoms ix2 hg2
  have haddr : ix1.text * ((flatSeg p 1).length + 1)
        + (ix1.pattern + ix1.rep_off)
      = ix2.text * ((flatSeg p 1).length + 1)
        + (ix2.pattern + ix2.rep_off) := by
    have h := heq
    unfold State.new State.node at h
    simp only at h
    omega
  obtain ⟨hti, hpo⟩ := addr_inj ((flatSeg p 1).length + 1) _ _ _ _
    (by omega) (by omega) haddr
  obtain ⟨hpt1, hro1, _⟩ := hg1
  obtain ⟨hpt2, hro2, _⟩ := hg2
  rcases hpt1 with hpt1 | ⟨he1, hr1⟩
  · rcases hpt2 with hpt2 | ⟨he2, hr2⟩
    · obtain ⟨hpp, hrr⟩ := segPoint_disjoint p hpt1 hpt2 hro1 hro2 hpo
      cases ix1
      cases ix2
      simp only [Ix.mk.injEq]
      simp only at hpp hrr hti hpo
      exact ⟨hpp, hti, hrr, by omega⟩
    · have hr := segPoint_range hpt1
      omega
  · rcases hpt2 with hpt2 | ⟨he2, hr2⟩
    · have hr := segPoint_range hpt2
      omega
    · cases ix1
      cases ix2
      simp only [Ix.mk.injEq]
      simp only at he1 hr1 he2 hr2 hti hpo hro1 hro2
      refine ⟨by omega, hti, by omega, by omega⟩

/-- Witness for C7 at a concrete configuration: the start index for pattern
`a` against text `"a"` is reachable, and the theorem applied to it twice
yields reflexivity. -/
theorem c7_dense_address_injective_witness :
    (Config.new (Pattern.cons (.matchE (.lit 'a')) .nil) ⟨['a']⟩).start
      = (Config.new (Pattern.cons (.matchE (.lit 'a')) .nil) ⟨['a']⟩).start :=
  c7_dense_address_injective (Pattern.cons (.matchE (.lit 'a')) .nil) ⟨['a']⟩
    _ _ (Reaches.refl _) (Reaches.refl _) rfl

/-! ### Table addressing and basic cell facts -/

lemma goodIx_addr_inj (p : Pattern) (t : List Char) (ix1 ix2 : Ix)
    (hg1 : GoodIx p t ix1) (hg2 : GoodIx p t ix2)
    (heq : ix1.text * ((flatSeg p 1).length + 1) + ix1.pattern + ix1.rep_off
      = ix2.text * ((flatSeg p 1).length + 1) + ix2.pattern + ix2.rep_off) :
    ix1 = ix2 := by
  obtain ⟨hb1, hb1', _⟩ := goodIx_bounds p t ix1 hg1
  obtain ⟨hb2, hb2', _⟩ := goodIx_bounds p t ix2 hg2
  have haddr : ix1.text * ((flatSeg p 1).length + 1)
        + (ix1.pattern + ix1.rep_off)
      = ix2.text * ((flatSeg p 1).length + 1)
        + (ix2.pattern + ix2.rep_off) := by omega
  obtain ⟨hti, hpo⟩ := addr_inj ((flatSeg p 1).length + 1) _ _ _ _
    (by omega) (by omega) haddr
  obtain ⟨hpt1, hro1, _⟩ := hg1
  obtain ⟨hpt2, hro2, _⟩ := hg2
  rcases hpt1 with hpt1 | ⟨he1, hr1⟩
  · rcases hpt2 with hpt2 | ⟨he2, hr2⟩
    · obtain ⟨hpp, hrr⟩ := segPoint_disjoint p hpt1 hpt2 hro1 hro2 hpo
      cases ix1
      cases ix2
      simp only [Ix.mk.injEq]
      simp only at hpp hrr hti hpo
      exact ⟨hpp, hti, hrr, by omega⟩
    · have hr := segPoint_range hpt1
      omega
  · rcases hpt2 with hpt2 | ⟨he2, hr2⟩
    · have hr := segPoint_range hpt2
      omega
    · cases ix1
      cases ix2
      simp only [Ix.mk.injEq]
      simp only at he1 hr1 he2 hr2 hti hpo hro1 hro2
      refine ⟨by omega, hti, by omega, by omega⟩

lemma good_node_lt (p : Pattern) (t : List Char) (S : State)
    (hpl : S.pattern_len = (flatSeg p 1).length + 1)
    (hlen : S.nodes.length = (t.length + 1) * ((flatSeg p 1).length + 1))
    (ix : Ix) (hg : GoodIx p t ix) : S.node ix < S.nodes.length := by
  obtain ⟨hb1, hb2, _⟩ := goodIx_bounds p t ix hg
  have hti : ix.text ≤ t.length := hg.2.2
  unfold State.node
  rw [hpl, hlen]
  have h1 : ix.text * ((flatSeg p 1).length + 1)
      ≤ t.length * ((flatSeg p 1).length + 1) :=
    Nat.mul_le_mul_right _ hti
  have h2 : (t.length + 1) * ((flatSeg p 1).length + 1)
      = t.length * ((flatSeg p 1).length + 1) + ((flatSeg p 1).length + 1) := by
    ring
  have hro : ix.rep_off < ix.reps := hg.2.1
  omega

lemma getD_via_get? (l : List Node) (n : Nat) (d : Node) :
    l.getD n d = (l.get? n).getD d := by
  rw [List.getD_eq_getElem?_getD, List.get?_eq_getElem?]

lemma get_setNode_same (S : State) (ix : Ix) (n : Node)
    (h : S.node ix < S.nodes.length) : (S.setNode ix n).get ix = n := by
  unfold State.get State.setNode
  have haddr : ({ S with nodes := S.nodes.set (S.node ix) n } : State).node ix
      = S.node ix := rfl
  simp only [haddr]
  rw [getD_via_get?, List.get?_set_eq_of_lt n h]
  rfl

lemma get_setNode_ne (S : State) (ix ix' : Ix) (n : Node)
    (h : S.node ix ≠ S.node ix') : (S.setNode ix n).get ix' = S.get ix' := by
  unfold State.get State.setNode
  have haddr : ({ S with nodes := S.nodes.set (S.node ix) n } : State).node ix'
      = S.node ix' := rfl
  simp only [haddr]
  rw [getD_via_get?, List.get?_set_ne n S.nodes h, ← getD_via_get?]

lemma setNode_pattern_len (S : State) (ix : Ix) (n : Node) :
    (S.setNode ix n).pattern_len = S.pattern_len := rfl

lemma setNode_length (S : State) (ix : Ix) (n : Node) :
    (S.setNode ix n).nodes.length = S.nodes.length := by
  unfold State.setNode
  simp

/-- Distinct good indices occupy distinct cells of any table with the right
row width (the key use of C7's injectivity inside the loop invariant). -/
lemma good_node_ne (p : Pattern) (t : List Char) (S : State)
    (hpl : S.pattern_len = (flatSeg p 1).length + 1)
    (ix ix' : Ix) (hg : GoodIx p t ix) (hg' : GoodIx p t ix')
    (hne : ix ≠ ix') : S.node ix ≠ S.node ix' := by
  intro h
  unfold State.node at h
  rw [hpl] at h
  exact hne (goodIx_addr_inj p t ix ix' hg hg' h)

lemma ready_not_done {n : Node} (h : n.is_ready = true) : n.is_done = false := by
  rw [is_ready_iff] at h
  simp only [Node.is_done, gt_iff_lt, decide_eq_false_iff_not, not_lt]
  omega

lemma working_not_done {n : Node} (h : n.is_working = true) : n.is_done = false := by
  rw [is_working_iff] at h
  simp only [Node.is_done, gt_iff_lt, decide_eq_false_iff_not, not_lt]
  omega

lemma working_not_ready {n : Node} (h : n.is_working = true) : n.is_ready = false := by
  rw [is_working_iff] at h
  simp only [Node.is_ready, decide_eq_false_iff_not]
  omega

lemma done_not_ready {n : Node} (h : n.is_done = true) : n.is_ready = false := by
  rw [is_done_iff] at h
  simp only [Node.is_ready, decide_eq_false_iff_not]
  omega

lemma nonready_working_or_done {n : Node} (h : n.is_ready = false) :
    n.is_working = true ∨ n.is_done = true := by
  simp only [Node.is_ready, decide_eq_false_iff_not] at h
  rcases le_or_lt n.current n.step_types.length with hle | hlt
  · left
    rw [is_working_iff]
    omega
  · right
    rw [is_done_iff]
    omega

lemma step_types_ne_nil (nt : NodeType) : nt.step_types ≠ [] := by
  cases nt <;> simp [NodeType.step_types]

lemma avail_endIx (p : Pattern) (t : List Char) :
    Config.avail ⟨t, flatSeg p 1⟩ ((⟨t, flatSeg p 1⟩ : Config).endIx) = [] := by
  unfold Config.avail Config.get Config.endIx
  simp only
  rw [List.get?_eq_none.mpr (le_refl _), List.get?_eq_none.mpr (le_refl _)]
  simp [NodeType.get]

lemma goodIx_avail_eq_nil (p : Pattern) (t : List Char) (ix : Ix)
    (hg : GoodIx p t ix) (h : Config.avail ⟨t, flatSeg p 1⟩ ix = []) :
    ix = (⟨t, flatSeg p 1⟩ : Config).endIx := by
  unfold Config.avail Config.get at h
  simp only at h
  rcases hnt : NodeType.get ((flatSeg p 1).get? ix.pattern) (t.get? ix.text) ix
      with _ | nt
  · have hpn : (flatSeg p 1).get? ix.pattern = none := by
      rcases hp : (flatSeg p 1).get? ix.pattern with _ | fl
      · rfl
      · rw [hp] at hnt
        simp [NodeType.get] at hnt
    have htn : t.get? ix.text = none := by
      rcases ht : t.get? ix.text with _ | c
      · rfl
      · rw [hpn, ht] at hnt
        simp [NodeType.get] at hnt
    rw [List.get?_eq_none] at hpn htn
    obtain ⟨hpt, hro, hti⟩ := hg
    rcases hpt with hpt | ⟨he, hr⟩
    · have hrange := segPoint_range hpt
      omega
    · cases ix
      simp only [Config.endIx, Ix.mk.injEq]
      simp only at he hr hro hti hpn htn
      refine ⟨he, by omega, hr, by omega⟩
  · rw [hnt] at h
    simp only at h
    exact absurd h (step_types_ne_nil nt)

lemma good_step_ne (p : Pattern) (t : List Char) (ix : Ix) (hg : GoodIx p t ix)
    (st : StepType) (hst : st ∈ Config.avail ⟨t, flatSeg p 1⟩ ix) :
    Config.step ⟨t, flatSeg p 1⟩ ix st ≠ ix := by
  intro heq
  obtain ⟨hg', hsh⟩ := goodIx_step p t ix hg st hst
  have := ixMeasure_lt p t ix _ hg hg' hsh
  rw [heq] at this
  omega

lemma getD_mem_of_lt {α : Type} (l : List α) (i : Nat) (d : α)
    (h : i < l.length) : l.getD i d ∈ l := by
  rw [List.getD_eq_getElem l d h]
  exact List.getElem_mem h

lemma mem_exists_getD {α : Type} (l : List α) (a d : α) (h : a ∈ l) :
    ∃ i, i < l.length ∧ l.getD i d = a := by
  obtain ⟨i, hi, hget⟩ := List.mem_iff_getElem.mp h
  exact ⟨i, hi, by rw [List.getD_eq_getElem l d hi]; exact hget⟩

lemma state_new_get (conf : Config) (ix : Ix) :
    (State.new conf).get ix = Node.new := by
  unfold State.new State.get
  simp only
  rw [getD_via_get?]
  rcases h : (List.replicate ((conf.text.length + 1) * (conf.pattern.length + 1))
      Node.new).get? (State.node _ ix) with _ | x
  · rfl
  · have hx := List.get?_mem h
    rw [List.eq_of_mem_replicate hx]
    rfl

lemma stateInv_new (p : Pattern) (t : List Char) :
    StateInv p t (State.new ⟨t, flatSeg p 1⟩) := by
  refine ⟨rfl, by simp [State.new], ?_, ?_, ?_⟩
  · intro ix _ _
    exact state_new_get _ ix
  · intro ix _ hnr
    rw [state_new_get] at hnr
    exact absurd hnr (by simp [Node.new, Node.is_ready])
  · intro ix _ hw _
    rw [state_new_get] at hw
    exact absurd hw (by simp [Node.new, Node.is_working])

lemma cellFacts_transfer (p : Pattern) (t : List Char) (S S' : State) (ix : Ix)
    (n : Node) (hg : GoodIx p t ix) (hCF : CellFacts p t S ix n)
    (hsame : ∀ ix', GoodIx p t ix' → (S.get ix').is_done = true →
      S'.get ix' = S.get ix') :
    CellFacts p t S' ix n := by
  obtain ⟨h1, h2, h3, h4, h5, h6⟩ := hCF
  refine ⟨h1, h2, h3, h4, ?_, ?_⟩
  · intro i hi
    obtain ⟨hd, hs⟩ := h5 i hi
    have hstm : n.step_types.getD i .hit ∈ Config.avail ⟨t, flatSeg p 1⟩ ix := by
      rw [← h1]
      exact getD_mem_of_lt _ _ _ (by omega)
    have hgc : GoodIx p t
        (Config.step ⟨t, flatSeg p 1⟩ ix (n.step_types.getD i .hit)) :=
      (goodIx_step p t ix hg _ hstm).1
    rw [hsame _ hgc hd]
    exact ⟨hd, hs⟩
  · intro h2c
    obtain ⟨j, hj, hst, hnx, hd, hs⟩ := h6 h2c
    have hstm : n.step_type ∈ Config.avail ⟨t, flatSeg p 1⟩ ix := by
      rw [hst, ← h1]
      exact getD_mem_of_lt _ _ _ (by omega)
    have hgc : GoodIx p t n.next := by
      rw [hnx]
      exact (goodIx_step p t ix hg _ hstm).1
    rw [hsame _ hgc hd]
    exact ⟨j, hj, hst, hnx, hd, hs⟩

lemma cursorStep_mem (p : Pattern) (t : List Char) (ix : Ix) (n : Node)
    (h1 : n.step_types = Config.avail ⟨t, flatSeg p 1⟩ ix)
    (hw : n.is_working = true) :
    cursorStep n ∈ Config.avail ⟨t, flatSeg p 1⟩ ix := by
  rw [is_working_iff] at hw
  rw [← h1]
  exact getD_mem_of_lt _ _ _ (by omega)

lemma avail_unfold (conf : Config) (ix : Ix) :
    Config.avail conf ix
      = match NodeType.get (conf.pattern.get? ix.pattern)
          (conf.text.get? ix.text) ix with
        | none => []
        | some nt => nt.step_types := rfl

lemma loopBody_down_eq (conf : Config) (d : Down) (S : State) :
    loopBody conf (.down d) S =
      if (S.get d.current).is_ready then
        match (S.get d.current).initialise conf.endIx d.parent d.current
            (NodeType.get (conf.pattern.get? d.current.pattern)
              (conf.text.get? d.current.text) d.current) with
        | .error e => .error e
        | .ok node' => .ok (d.parent, S.setNode d.current node')
      else .ok (d.parent, S) := rfl

lemma loopBody_back_eq (conf : Config) (b : Back) (S : State) :
    loopBody conf (.back b) S =
      match (S.get b.child).done_info with
      | .error e => .error e
      | .ok (new_score, _, _) =>
        match (S.get b.current).update b.child b.current new_score with
        | .error e => .error e
        | .ok (node', new_parent) => .ok (new_parent, S.setNode b.current node') := rfl

lemma loopNext_eq (conf : Config) (ls : LoopState) (np : Ix) (S : State) :
    loopNext conf ls np S =
      if ls.currentIx = conf.start ∧ (S.get ls.currentIx).is_done then .ok none
      else if (S.get ls.currentIx).is_done then
        .ok (some (.back { current := np, child := ls.currentIx }))
      else if (S.get ls.currentIx).is_working then
        match (S.get ls.currentIx).current_step_type with
        | .error e => .error e
        | .ok cst => .ok (some (.down ⟨ls.currentIx, conf.step ls.currentIx cst⟩))
      else .error (.noNodeProgress ls.currentIx.repr) := rfl

/-- One iteration of the work loop starting in a `Down` state preserves the
global invariant; the next loop state satisfies the cursor invariant; and
when the loop breaks the start cell is done. -/
lemma iter_inv_down (p : Pattern) (t : List Char) (d : Down) (S S1 : State)
    (np : Ix) (hSI : StateInv p t S) (hLS : LSInv p t S (.down d))
    (hbody : loopBody ⟨t, flatSeg p 1⟩ (.down d) S = .ok (np, S1)) :
    StateInv p t S1
    ∧ (∀ ls', loopNext ⟨t, flatSeg p 1⟩ (.down d) np S1 = .ok (some ls') →
        LSInv p t S1 ls')
    ∧ (loopNext ⟨t, flatSeg p 1⟩ (.down d) np S1 = .ok none →
        (S1.get ((⟨t, flatSeg p 1⟩ : Config).start)).is_done = true) := by
  obtain ⟨hpl, hlen, hready, hcells, hparent⟩ := hSI
  obtain ⟨hgc, hpar⟩ := hLS
  rw [loopBody_down_eq] at hbody
  by_cases hr : (S.get d.current).is_ready = true
  · rw [if_pos hr] at hbody
    have hnew : S.get d.current = Node.new := hready _ hgc hr
    split at hbody
    · exact absurd hbody (by simp)
    · rename_i node' hinit
      simp only [Except.ok.injEq, Prod.mk.injEq] at hbody
      obtain ⟨hnp, hS1⟩ := hbody
      subst hnp
      subst hS1
      obtain ⟨hrdy, hcur, hpar', hscore, hstt, hnext, hsts⟩ :=
        initialise_ok _ _ _ _ _ _ hinit
      have hcur1 : node'.current = 1 := by
        rw [hcur, hnew]
        rfl
      have hscore0 : node'.score = 0 := by
        rw [hscore, hnew]
        rfl
      have hst_eq : node'.step_types
          = Config.avail ⟨t, flatSeg p 1⟩ d.current := by
        rcases hsts with ⟨nt, hnt, hsteq⟩ | ⟨hnone, _, hsteq⟩
        · rw [hsteq, avail_unfold, hnt]
        · rw [hsteq, hnew, avail_unfold, hnone]
          rfl
      have hlt : S.node d.current < S.nodes.length :=
        good_node_lt p t S hpl hlen _ hgc
      have hget_c : (S.setNode d.current node').get d.current = node' :=
        get_setNode_same S d.current node' hlt
      have hget_o : ∀ ix, GoodIx p t ix → ix ≠ d.current →
          (S.setNode d.current node').get ix = S.get ix := by
        intro ix hg hne
        exact get_setNode_ne S d.current ix node'
          (good_node_ne p t S hpl _ _ hgc hg (fun h => hne h.symm))
      have hsame : ∀ ix', GoodIx p t ix' → (S.get ix').is_done = true →
          (S.setNode d.current node').get ix' = S.get ix' := by
        intro ix' hg' hd'
        refine hget_o ix' hg' ?_
        intro he
        rw [he, hnew] at hd'
        exact absurd hd' (by simp [Node.new, Node.is_done])
      have hnotready' : node'.is_ready = false := by
        simp [Node.is_ready, hcur1]
      have hSI1 : StateInv p t (S.setNode d.current node') := by
        refine ⟨hpl, by rw [setNode_length]; exact hlen, ?_, ?_, ?_⟩
        · intro ix hg hr'
          by_cases he : ix = d.current
          · subst he
            rw [hget_c] at hr'
            rw [hnotready'] at hr'
            exact absurd hr' (by simp)
          · rw [hget_o ix hg he] at hr' ⊢
            exact hready ix hg hr'
        · intro ix hg hnr
          by_cases he : ix = d.current
          · subst he
            rw [hget_c]
            refine ⟨hst_eq, by rw [hcur1]; omega, by rw [hcur1], ?_, ?_, ?_⟩
            · intro _
              exact hscore0
            · intro i hi
              rw [hcur1] at hi
              omega
            · intro h2
              rw [hcur1] at h2
              omega
          · rw [hget_o ix hg he] at hnr ⊢
            exact cellFacts_transfer p t S _ ix _ hg (hcells ix hg hnr) hsame
        · intro ix hg hw hns
          by_cases he : ix = d.current
          · subst he
            rw [hget_c]
            rw [hpar']
            rcases hpar with ⟨_, hd2⟩ | ⟨hg2, hw2, hstep2⟩
            · exact absurd hd2 hns
            · have hpne : d.parent ≠ d.current := by
                intro he2
                rw [he2, hnew] at hw2
                exact absurd hw2 (by simp [Node.new, Node.is_working])
              rw [hget_o d.parent hg2 hpne]
              exact ⟨hg2, hw2, hstep2⟩
          · rw [hget_o ix hg he] at hw ⊢
            obtain ⟨hg2, hw2, hstep2⟩ := hparent ix hg hw hns
            have hpne : (S.get ix).parent ≠ d.current := by
              intro he2
              rw [he2, hnew] at hw2
              exact absurd hw2 (by simp [Node.new, Node.is_working])
            rw [hget_o _ hg2 hpne]
            exact ⟨hg2, hw2, hstep2⟩
      refine ⟨hSI1, ?_, ?_⟩
      · intro ls' hnext
        rw [loopNext_eq] at hnext
        simp only [LoopState.currentIx] at hnext
        rw [hget_c] at hnext
        by_cases hbrk : d.current = (⟨t, flatSeg p 1⟩ : Config).start
            ∧ node'.is_done = true
        · rw [if_pos hbrk] at hnext
          exact absurd hnext (by simp)
        · rw [if_neg hbrk] at hnext
          by_cases hdone : node'.is_done = true
          · rw [if_pos hdone] at hnext
            simp only [Except.ok.injEq, Option.some.injEq] at hnext
            subst hnext
            have hcns : d.current ≠ (⟨t, flatSeg p 1⟩ : Config).start :=
              fun he => hbrk ⟨he, hdone⟩
            rcases hpar with ⟨_, hd2⟩ | ⟨hg2, hw2, hstep2⟩
            · exact absurd hd2 hcns
            · have hpne : d.parent ≠ d.current := by
                intro he2
                rw [he2, hnew] at hw2
                exact absurd hw2 (by simp [Node.new, Node.is_working])
              refine ⟨hg2, ?_, hgc, ?_, ?_⟩
              · rw [hget_o _ hg2 hpne]
                exact hw2
              · rw [hget_c]
                exact hdone
              · rw [hget_o _ hg2 hpne]
                exact hstep2
          · rw [if_neg hdone] at hnext
            by_cases hwork : node'.is_working = true
            · rw [if_pos hwork] at hnext
              have hcs : node'.current_step_type = .ok (cursorStep node') := by
                unfold Node.current_step_type
                rw [if_pos hwork]
                rfl
              split at hnext
              · rename_i e heq
                rw [hcs] at heq
                exact absurd heq (by simp)
              · rename_i cst heq
                rw [hcs] at heq
                simp only [Except.ok.injEq] at heq
                subst heq
                simp only [Except.ok.injEq, Option.some.injEq] at hnext
                subst hnext
                have hmem : cursorStep node'
                    ∈ Config.avail ⟨t, flatSeg p 1⟩ d.current :=
                  cursorStep_mem p t d.current node' hst_eq hwork
                refine ⟨(goodIx_step p t _ hgc _ hmem).1, .inr ⟨hgc, ?_, ?_⟩⟩
                · rw [hget_c]
                  exact hwork
                · rw [hget_c]
            · rw [if_neg hwork] at hnext
              exact absurd hnext (by simp)
      · intro hnext
        rw [loopNext_eq] at hnext
        simp only [LoopState.currentIx] at hnext
        by_cases hbrk : d.current = (⟨t, flatSeg p 1⟩ : Config).start
            ∧ ((S.setNode d.current node').get d.current).is_done = true
        · rw [← hbrk.1]
          exact hbrk.2
        · rw [if_neg hbrk] at hnext
          by_cases hdone : ((S.setNode d.current node').get d.current).is_done
              = true
          · rw [if_pos hdone] at hnext
            exact absurd hnext (by simp)
          · rw [if_neg hdone] at hnext
            by_cases hwork : ((S.setNode d.current node').get d.current).is_working
                = true
            · rw [if_pos hwork] at hnext
              split at hnext
              · exact absurd hnext (by simp)
              · exact absurd hnext (by simp)
            · rw [if_neg hwork] at hnext
              exact absurd hnext (by simp)
  · rw [if_neg hr] at hbody
    simp only [Except.ok.injEq, Prod.mk.injEq] at hbody
    obtain ⟨hnp, hS1⟩ := hbody
    subst hnp
    subst hS1
    have hrf : (S.get d.current).is_ready = false := by
      revert hr
      cases (S.get d.current).is_ready <;> simp
    have hCF := hcells d.current hgc hrf
    refine ⟨⟨hpl, hlen, hready, hcells, hparent⟩, ?_, ?_⟩
    · intro ls' hnext
      rw [loopNext_eq] at hnext
      simp only [LoopState.currentIx] at hnext
      by_cases hbrk : d.current = (⟨t, flatSeg p 1⟩ : Config).start
          ∧ (S.get d.current).is_done = true
      · rw [if_pos hbrk] at hnext
        exact absurd hnext (by simp)
      · rw [if_neg hbrk] at hnext
        by_cases hdone : (S.get d.current).is_done = true
        · rw [if_pos hdone] at hnext
          simp only [Except.ok.injEq, Option.some.injEq] at hnext
          subst hnext
          have hcns : d.current ≠ (⟨t, flatSeg p 1⟩ : Config).start :=
            fun he => hbrk ⟨he, hdone⟩
          rcases hpar with ⟨_, hd2⟩ | ⟨hg2, hw2, hstep2⟩
          · exact absurd hd2 hcns
          · exact ⟨hg2, hw2, hgc, hdone, hstep2⟩
        · rw [if_neg hdone] at hnext
          by_cases hwork : (S.get d.current).is_working = true
          · rw [if_pos hwork] at hnext
            have hcs : (S.get d.current).current_step_type
                = .ok (cursorStep (S.get d.current)) := by
              unfold Node.current_step_type
              rw [if_pos hwork]
              rfl
            split at hnext
            · rename_i e heq
              rw [hcs] at heq
              exact absurd heq (by simp)
            · rename_i cst heq
              rw [hcs] at heq
              simp only [Except.ok.injEq] at heq
              subst heq
              simp only [Except.ok.injEq, Option.some.injEq] at hnext
              subst hnext
              have hmem : cursorStep (S.get d.current)
                  ∈ Config.avail ⟨t, flatSeg p 1⟩ d.current :=
                cursorStep_mem p t d.current _ hCF.1 hwork
              exact ⟨(goodIx_step p t _ hgc _ hmem).1, .inr ⟨hgc, hwork, rfl⟩⟩
          · rw [if_neg hwork] at hnext
            exact absurd hnext (by simp)
    · intro hnext
      rw [loopNext_eq] at hnext
      simp only [LoopState.currentIx] at hnext
      by_cases hbrk : d.current = (⟨t, flatSeg p 1⟩ : Config).start
          ∧ (S.get d.current).is_done = true
      · rw [← hbrk.1]
        exact hbrk.2
      · rw [if_neg hbrk] at hnext
        by_cases hdone : (S.get d.current).is_done = true
        · rw [if_pos hdone] at hnext
          exact absurd hnext (by simp)
        · rw [if_neg hdone] at hnext
          by_cases hwork : (S.get d.current).is_working = true
          · rw [if_pos hwork] at hnext
            split at hnext
            · exact absurd hnext (by simp)
            · exact absurd hnext (by simp)
          · rw [if_neg hwork] at hnext
            exact absurd hnext (by simp)

/-- One iteration of the work loop starting in a `Back` state preserves the
global invariant; the next loop state satisfies the cursor invariant; and
when the loop breaks the start cell is done. -/
lemma iter_inv_back (p : Pattern) (t : List Char) (b : Back) (S S1 : State)
    (np : Ix) (hSI : StateInv p t S) (hLS : LSInv p t S (.back b))
    (hbody : loopBody ⟨t, flatSeg p 1⟩ (.back b) S = .ok (np, S1)) :
    StateInv p t S1
    ∧ (∀ ls', loopNext ⟨t, flatSeg p 1⟩ (.back b) np S1 = .ok (some ls') →
        LSInv p t S1 ls')
    ∧ (loopNext ⟨t, flatSeg p 1⟩ (.back b) np S1 = .ok none →
        (S1.get ((⟨t, flatSeg p 1⟩ : Config).start)).is_done = true) := by
  obtain ⟨hpl, hlen, hready, hcells, hparent⟩ := hSI
  obtain ⟨hgcur, hwcur, hgch, hdch, hstepch⟩ := hLS
  have hdi : (S.get b.child).done_info
      = .ok ((S.get b.child).score, (S.get b.child).step_type,
          (S.get b.child).next) := by
    unfold Node.done_info
    rw [if_pos hdch]
  rw [loopBody_back_eq] at hbody
  split at hbody
  · rename_i e heq
    rw [hdi] at heq
    exact absurd heq (by simp)
  · rename_i ns stt nxt heq
    rw [hdi] at heq
    simp only [Except.ok.injEq, Prod.mk.injEq] at heq
    obtain ⟨hns, _, _⟩ := heq
    split at hbody
    · exact absurd hbody (by simp)
    · rename_i node'' np' hupd
      simp only [Except.ok.injEq, Prod.mk.injEq] at hbody
      obtain ⟨hnp, hS1⟩ := hbody
      subst hnp
      subst hS1
      obtain ⟨hw', hnp', hcur'', hsts'', hpar'', hrepl, hkeep⟩ :=
        update_ok _ _ _ _ _ _ hupd
      have hCF := hcells b.current hgcur (working_not_ready hwcur)
      obtain ⟨hf1, hf2, hf3, hf4, hf5, hf6⟩ := hCF
      have hwnum := (is_working_iff _).mp hwcur
      have hstepch' : Config.step ⟨t, flatSeg p 1⟩ b.current
          ((S.get b.current).step_types.getD
            ((S.get b.current).current - 1) .hit) = b.child := hstepch
      have hlt : S.node b.current < S.nodes.length :=
        good_node_lt p t S hpl hlen _ hgcur
      have hget_cur : (S.setNode b.current node'').get b.current = node'' :=
        get_setNode_same S b.current node'' hlt
      have hget_o : ∀ ix, GoodIx p t ix → ix ≠ b.current →
          (S.setNode b.current node'').get ix = S.get ix := by
        intro ix hg hne
        exact get_setNode_ne S b.current ix node''
          (good_node_ne p t S hpl _ _ hgcur hg (fun h => hne h.symm))
      have hwdone : (S.get b.current).is_done = false := working_not_done hwcur
      have hsame : ∀ ix', GoodIx p t ix' → (S.get ix').is_done = true →
          (S.setNode b.current node'').get ix' = S.get ix' := by
        intro ix' hg' hd'
        refine hget_o ix' hg' ?_
        intro he
        rw [he, hwdone] at hd'
        exact absurd hd' (by simp)
      have hchne : b.child ≠ b.current := by
        intro he
        rw [he, hwdone] at hdch
        exact absurd hdch (by simp)
      have hS1ch : (S.setNode b.current node'').get b.child = S.get b.child :=
        hget_o _ hgch hchne
      have hCF2 : CellFacts p t (S.setNode b.current node'') b.current node'' := by
        refine ⟨hsts''.trans hf1, ?_, ?_, ?_, ?_, ?_⟩
        · rw [hcur'', hsts'']
          omega
        · rw [hcur'']
          omega
        · intro hnil
          exfalso
          have hlen0 : (S.get b.current).step_types.length = 0 := by
            rw [hf1, hnil]
            rfl
          omega
        · intro i hi
          rw [hcur''] at hi
          rw [hsts'']
          by_cases hii : i + 1 < (S.get b.current).current
          · obtain ⟨hd_i, hs_i⟩ := hf5 i hii
            have hmem_i : (S.get b.current).step_types.getD i .hit
                ∈ Config.avail ⟨t, flatSeg p 1⟩ b.current := by
              rw [← hf1]
              exact getD_mem_of_lt _ _ _ (by omega)
            have hg_i := (goodIx_step p t b.current hgcur _ hmem_i).1
            have hne_i : Config.step ⟨t, flatSeg p 1⟩ b.current
                ((S.get b.current).step_types.getD i .hit) ≠ b.current := by
              intro he
              rw [he, hwdone] at hd_i
              exact absurd hd_i (by simp)
            rw [hget_o _ hg_i hne_i]
            refine ⟨hd_i, ?_⟩
            by_cases hcond : ((S.get b.current).current ≤ 1
                ∨ ns + ((S.get b.current).step_types.getD
                    ((S.get b.current).current - 1) .hit).cost
                  < (S.get b.current).score)
            · obtain ⟨hsc'', _, _⟩ := hrepl hcond
              rcases hcond with hc1 | hc2
              · omega
              · rw [hsc'']
                omega
            · obtain ⟨hsc'', _, _⟩ := hkeep hcond
              rw [hsc'']
              exact hs_i
          · have hieq : i = (S.get b.current).current - 1 := by omega
            subst hieq
            rw [hstepch', hS1ch]
            refine ⟨hdch, ?_⟩
            by_cases hcond : ((S.get b.current).current ≤ 1
                ∨ ns + ((S.get b.current).step_types.getD
                    ((S.get b.current).current - 1) .hit).cost
                  < (S.get b.current).score)
            · obtain ⟨hsc'', _, _⟩ := hrepl hcond
              rw [hsc'']
              omega
            · obtain ⟨hsc'', _, _⟩ := hkeep hcond
              push_neg at hcond
              rw [hsc'']
              omega
        · intro _
          by_cases hcond : ((S.get b.current).current ≤ 1
              ∨ ns + ((S.get b.current).step_types.getD
                  ((S.get b.current).current - 1) .hit).cost
                < (S.get b.current).score)
          · obtain ⟨hsc'', hst'', hnx''⟩ := hrepl hcond
            refine ⟨(S.get b.current).current - 1, ?_, ?_, ?_, ?_, ?_⟩
            · rw [hcur'']
              omega
            · rw [hst'', hsts'']
            · rw [hnx'', hst'']
              exact hstepch'.symm
            · rw [hnx'', hS1ch]
              exact hdch
            · rw [hnx'', hS1ch, hsc'', hst'']
              omega
          · obtain ⟨hsc'', hst'', hnx''⟩ := hkeep hcond
            push_neg at hcond
            obtain ⟨hc2, _⟩ := hcond
            obtain ⟨j, hj, hst_j, hnx_j, hd_j, hs_j⟩ := hf6 (by omega)
            have hmem_j : (S.get b.current).step_type
                ∈ Config.avail ⟨t, flatSeg p 1⟩ b.current := by
              rw [hst_j, ← hf1]
              exact getD_mem_of_lt _ _ _ (by omega)
            have hg_j : GoodIx p t (S.get b.current).next := by
              rw [hnx_j]
              exact (goodIx_step p t b.current hgcur _ hmem_j).1
            have hne_j : (S.get b.current).next ≠ b.current := by
              intro he
              rw [he, hwdone] at hd_j
              exact absurd hd_j (by simp)
            refine ⟨j, ?_, ?_, ?_, ?_, ?_⟩
            · rw [hcur'']
              omega
            · rw [hst'', hsts'']
              exact hst_j
            · rw [hnx'', hst'']
              exact hnx_j
            · rw [hnx'', hget_o _ hg_j hne_j]
              exact hd_j
            · rw [hnx'', hget_o _ hg_j hne_j, hsc'', hst'']
              exact hs_j
      have hSI1 : StateInv p t (S.setNode b.current node'') := by
        refine ⟨hpl, by rw [setNode_length]; exact hlen, ?_, ?_, ?_⟩
        · intro ix hg hr'
          by_cases he : ix = b.current
          · subst he
            rw [hget_cur] at hr'
            exfalso
            rw [is_ready_iff] at hr'
            omega
          · rw [hget_o ix hg he] at hr' ⊢
            exact hready ix hg hr'
        · intro ix hg hnr
          by_cases he : ix = b.current
          · subst he
            rw [hget_cur]
            exact hCF2
          · rw [hget_o ix hg he] at hnr ⊢
            exact cellFacts_transfer p t S _ ix _ hg (hcells ix hg hnr) hsame
        · intro ix hg hw hns2
          by_cases he : ix = b.current
          · subst he
            rw [hget_cur]
            rw [hpar'']
            obtain ⟨hg2, hw2, hstep2⟩ := hparent b.current hgcur hwcur hns2
            have hpne : (S.get b.current).parent ≠ b.current := by
              intro he2
              have hmem2 : cursorStep (S.get (S.get b.current).parent)
                  ∈ Config.avail ⟨t, flatSeg p 1⟩ (S.get b.current).parent :=
                cursorStep_mem p t _ _
                  (hcells _ hg2 (working_not_ready hw2)).1 hw2
              have hne3 := good_step_ne p t _ hg2 _ hmem2
              rw [hstep2] at hne3
              exact hne3 he2.symm
            rw [hget_o _ hg2 hpne]
            exact ⟨hg2, hw2, hstep2⟩
          · rw [hget_o ix hg he] at hw ⊢
            obtain ⟨hg2, hw2, hstep2⟩ := hparent ix hg hw hns2
            have hpne : (S.get ix).parent ≠ b.current := by
              intro he2
              rw [he2] at hstep2
              rw [hstepch] at hstep2
              rw [← hstep2] at hw
              have hx := working_not_done hw
              rw [hx] at hdch
              exact absurd hdch (by simp)
            rw [hget_o _ hg2 hpne]
            exact ⟨hg2, hw2, hstep2⟩
      refine ⟨hSI1, ?_, ?_⟩
      · intro ls' hnext
        rw [loopNext_eq] at hnext
        simp only [LoopState.currentIx] at hnext
        rw [hget_cur] at hnext
        by_cases hbrk : b.current = (⟨t, flatSeg p 1⟩ : Config).start
            ∧ node''.is_done = true
        · rw [if_pos hbrk] at hnext
          exact absurd hnext (by simp)
        · rw [if_neg hbrk] at hnext
          by_cases hdone : node''.is_done = true
          · rw [if_pos hdone] at hnext
            simp only [Except.ok.injEq, Option.some.injEq] at hnext
            subst hnext
            have hcns : b.current ≠ (⟨t, flatSeg p 1⟩ : Config).start :=
              fun he => hbrk ⟨he, hdone⟩
            obtain ⟨hg2, hw2, hstep2⟩ := hparent b.current hgcur hwcur hcns
            have hpne : (S.get b.current).parent ≠ b.current := by
              intro he2
              have hmem2 : cursorStep (S.get (S.get b.current).parent)
                  ∈ Config.avail ⟨t, flatSeg p 1⟩ (S.get b.current).parent :=
                cursorStep_mem p t _ _
                  (hcells _ hg2 (working_not_ready hw2)).1 hw2
              have hne3 := good_step_ne p t _ hg2 _ hmem2
              rw [hstep2] at hne3
              exact hne3 he2.symm
            rw [hnp']
            refine ⟨hg2, ?_, hgcur, ?_, ?_⟩
            · rw [hget_o _ hg2 hpne]
              exact hw2
            · rw [hget_cur]
              exact hdone
            · rw [hget_o _ hg2 hpne]
              exact hstep2
          · rw [if_neg hdone] at hnext
            by_cases hwork : node''.is_working = true
            · rw [if_pos hwork] at hnext
              have hcs : node''.current_step_type = .ok (cursorStep node'') := by
                unfold Node.current_step_type
                rw [if_pos hwork]
                rfl
              split at hnext
              · rename_i e heq2
                rw [hcs] at heq2
                exact absurd heq2 (by simp)
              · rename_i cst heq2
                rw [hcs] at heq2
                simp only [Except.ok.injEq] at heq2
                subst heq2
                simp only [Except.ok.injEq, Option.some.injEq] at hnext
                subst hnext
                have hmem'' : cursorStep node''
                    ∈ Config.avail ⟨t, flatSeg p 1⟩ b.current :=
                  cursorStep_mem p t b.current node'' (hsts''.trans hf1) hwork
                refine ⟨(goodIx_step p t _ hgcur _ hmem'').1,
                  .inr ⟨hgcur, ?_, ?_⟩⟩
                · rw [hget_cur]
                  exact hwork
                · rw [hget_cur]
            · rw [if_neg hwork] at hnext
              exact absurd hnext (by simp)
      · intro hnext
        rw [loopNext_eq] at hnext
        simp only [LoopState.currentIx] at hnext
        by_cases hbrk : b.current = (⟨t, flatSeg p 1⟩ : Config).start
            ∧ ((S.setNode b.current node'').get b.current).is_done = true
        · rw [← hbrk.1]
          exact hbrk.2
        · rw [if_neg hbrk] at hnext
          by_cases hdone : ((S.setNode b.current node'').get b.current).is_done
              = true
          · rw [if_pos hdone] at hnext
            exact absurd hnext (by simp)
          · rw [if_neg hdone] at hnext
            by_cases hwork :
                ((S.setNode b.current node'').get b.current).is_working = true
            · rw [if_pos hwork] at hnext
              split at hnext
              · exact absurd hnext (by simp)
              · exact absurd hnext (by simp)
            · rw [if_neg hwork] at hnext
              exact absurd hnext (by simp)

/-- The work loop, run from an invariant-satisfying state and cursor, can
only succeed in an invariant-satisfying state whose start cell is done. -/
lemma goLoop_inv (p : Pattern) (t : List Char) :
    ∀ (fuel counter : Nat) (ls : LoopState) (S S' : State),
    StateInv p t S → LSInv p t S ls →
    goLoop ⟨t, flatSeg p 1⟩ fuel counter ls S = .ok S' →
    StateInv p t S'
      ∧ (S'.get ((⟨t, flatSeg p 1⟩ : Config).start)).is_done = true := by
  intro fuel
  induction fuel with
  | zero =>
      intro counter ls S S' _ _ hok
      exact absurd hok (by simp [goLoop])
  | succ fuel ih =>
      intro counter ls S S' hSI hLS hok
      rw [goLoop] at hok
      by_cases hc : counter + 1 ≥ 1000000000
      · rw [if_pos hc] at hok
        exact absurd hok (by simp)
      · rw [if_neg hc] at hok
        split at hok
        · exact absurd hok (by simp)
        · rename_i np S1 hbody
          have hiter : StateInv p t S1
              ∧ (∀ ls', loopNext ⟨t, flatSeg p 1⟩ ls np S1 = .ok (some ls') →
                  LSInv p t S1 ls')
              ∧ (loopNext ⟨t, flatSeg p 1⟩ ls np S1 = .ok none →
                  (S1.get ((⟨t, flatSeg p 1⟩ : Config).start)).is_done
                    = true) := by
            cases ls with
            | down d => exact iter_inv_down p t d S S1 np hSI hLS hbody
            | back b => exact iter_inv_back p t b S S1 np hSI hLS hbody
          split at hok
          · exact absurd hok (by simp)
          · rename_i hnone
            simp only [Except.ok.injEq] at hok
            subst hok
            exact ⟨hiter.1, hiter.2.2 hnone⟩
          · rename_i ls' hsome
            exact ih (counter + 1) ls' S1 S' hiter.1 (hiter.2.1 ls' hsome) hok

lemma calc_inv (p : Pattern) (t : List Char) (S' : State)
    (h : calculate_optimal_path ⟨t, flatSeg p 1⟩ (State.new ⟨t, flatSeg p 1⟩)
      = .ok S') :
    StateInv p t S'
      ∧ (S'.get ((⟨t, flatSeg p 1⟩ : Config).start)).is_done = true := by
  unfold calculate_optimal_path at h
  have hls : LSInv p t (State.new ⟨t, flatSeg p 1⟩)
      (.down ⟨Ix.default, (⟨t, flatSeg p 1⟩ : Config).start⟩) :=
    ⟨goodIx_start p t, .inl ⟨rfl, rfl⟩⟩
  exact goLoop_inv p t 1000000000 0 _ _ S' (stateInv_new p t) hls h

/-- `TableSolution::solve` succeeding means: the work loop produced an
invariant-satisfying table with a done start cell whose score is the
returned score, and the returned trace is a successful walk of that table
from the start index to the end index. -/
lemma solve_split (p : Pattern) (t : Atoms) (sol : TableSolution)
    (h : TableSolution.solve p t = .ok sol) :
    ∃ S', StateInv p t.atoms S'
      ∧ (S'.get ((⟨t.atoms, flatSeg p 1⟩ : Config).start)).is_done = true
      ∧ sol.score = (S'.get ((⟨t.atoms, flatSeg p 1⟩ : Config).start)).score
      ∧ walkTrace ⟨t.atoms, flatSeg p 1⟩ S' (S'.nodes.length + 1)
          ((⟨t.atoms, flatSeg p 1⟩ : Config).start) []
        = .ok ((⟨t.atoms, flatSeg p 1⟩ : Config).endIx, sol.trace) := by
  simp only [TableSolution.solve] at h
  rw [conf_new_eq] at h
  split at h
  · exact absurd h (by simp)
  · rename_i S' hcalc
    obtain ⟨hSI, hdone⟩ := calc_inv p t.atoms S' hcalc
    have hdi : (S'.get ((⟨t.atoms, flatSeg p 1⟩ : Config).start)).done_info
        = .ok ((S'.get ((⟨t.atoms, flatSeg p 1⟩ : Config).start)).score,
            (S'.get ((⟨t.atoms, flatSeg p 1⟩ : Config).start)).step_type,
            (S'.get ((⟨t.atoms, flatSeg p 1⟩ : Config).start)).next) := by
      unfold Node.done_info
      rw [if_pos hdone]
    split at h
    · exact absurd h (by simp)
    · rename_i score s2 s3 heq
      rw [hdi] at heq
      simp only [Except.ok.injEq, Prod.mk.injEq] at heq
      obtain ⟨hsc, _, _⟩ := heq
      split at h
      · exact absurd h (by simp)
      · rename_i from_ix trace heq2
        by_cases hfi : from_ix ≠ (⟨t.atoms, flatSeg p 1⟩ : Config).endIx
        · rw [if_pos hfi] at h
          exact absurd h (by simp)
        · rw [if_neg hfi] at h
          push_neg at hfi
          simp only [Except.ok.injEq] at h
          subst h
          subst hfi
          exact ⟨S', hSI, hdone, by simp [hsc], by simp [heq2]⟩

/-! ### Replaying recorded steps: `traceStep` inversion -/

lemma traceStep_none_inv (patt : Option Flat) (text : Option Char)
    (st : StepType) (h : traceStep patt text st = .ok none) :
    st.step = none := by
  cases st
  case hit =>
    exfalso
    rcases patt with _ | fl
    · rcases text with _ | c <;> simp [traceStep, StepType.step] at h
    · cases fl <;> rcases text with _ | c <;> simp [traceStep, StepType.step] at h
  case skipPattern =>
    exfalso
    rcases patt with _ | fl
    · simp [traceStep, StepType.step] at h
    · cases fl <;> simp [traceStep, StepType.step] at h
  case skipText =>
    exfalso
    rcases text with _ | c <;> simp [traceStep, StepType.step] at h
  case startGroup =>
    exfalso
    simp [traceStep, StepType.step] at h
  case endGroup =>
    exfalso
    simp [traceStep, StepType.step] at h
  all_goals rfl

lemma traceStep_some_inv (patt : Option Flat) (text : Option Char)
    (st : StepType) (s : Step Match Char)
    (h : traceStep patt text st = .ok (some s)) :
    (st = .hit ∧ ∃ m c, matchOf patt = some m ∧ text = some c ∧ s = .hit m c)
    ∨ (st = .skipPattern ∧ ∃ m, matchOf patt = some m ∧ s = .skipPattern m)
    ∨ (st = .skipText ∧ ∃ c, text = some c ∧ s = .skipText c)
    ∨ (st = .startGroup ∧ s = .startCapture)
    ∨ (st = .endGroup ∧ s = .stopCapture) := by
  cases st
  case hit =>
    rcases patt with _ | fl
    · rcases text with _ | c <;> simp [traceStep, StepType.step] at h
    · cases fl
      case lit c =>
        rcases text with _ | tc
        · simp [traceStep, StepType.step] at h
        · simp only [traceStep, StepType.step] at h
          simp only [Except.ok.injEq, Option.some.injEq] at h
          exact .inl ⟨rfl, .lit c, tc, rfl, rfl, h.symm⟩
      case cls cl =>
        rcases text with _ | tc
        · simp [traceStep, StepType.step] at h
        · simp only [traceStep, StepType.step] at h
          simp only [Except.ok.injEq, Option.some.injEq] at h
          exact .inl ⟨rfl, .cls cl, tc, rfl, rfl, h.symm⟩
      all_goals rcases text with _ | c <;> simp [traceStep, StepType.step] at h
  case skipPattern =>
    rcases patt with _ | fl
    · simp [traceStep, StepType.step] at h
    · cases fl
      case lit c =>
        simp only [traceStep, StepType.step] at h
        simp only [Except.ok.injEq, Option.some.injEq] at h
        exact .inr (.inl ⟨rfl, .lit c, rfl, h.symm⟩)
      case cls cl =>
        simp only [traceStep, StepType.step] at h
        simp only [Except.ok.injEq, Option.some.injEq] at h
        exact .inr (.inl ⟨rfl, .cls cl, rfl, h.symm⟩)
      all_goals simp [traceStep, StepType.step] at h
  case skipText =>
    rcases text with _ | c
    · simp [traceStep, StepType.step] at h
    · simp only [traceStep, StepType.step] at h
      simp only [Except.ok.injEq, Option.some.injEq] at h
      exact .inr (.inr (.inl ⟨rfl, c, rfl, h.symm⟩))
  case startGroup =>
    simp only [traceStep, StepType.step] at h
    simp only [Except.ok.injEq, Option.some.injEq] at h
    exact .inr (.inr (.inr (.inl ⟨rfl, h.symm⟩)))
  case endGroup =>
    simp only [traceStep, StepType.step] at h
    simp only [Except.ok.injEq, Option.some.injEq] at h
    exact .inr (.inr (.inr (.inr ⟨rfl, h.symm⟩)))
  all_goals simp [traceStep, StepType.step] at h

lemma cost_zero_of_step_none (st : StepType) (h : st.step = none) :
    st.cost = 0 := by
  cases st <;> first | rfl | simp [StepType.step] at h

lemma step_text_of_none (conf : Config) (ix : Ix) (st : StepType)
    (h : st.step = none) : (Config.step conf ix st).text = ix.text := by
  cases st <;> first | rfl | simp [StepType.step] at h

lemma drop_get?_cons (l : List Char) (n : Nat) (c : Char)
    (h : l.get? n = some c) : l.drop n = c :: l.drop (n + 1) := by
  have hlt : n < l.length := get?_some_lt l n c h
  rw [List.drop_eq_getElem_cons hlt]
  rw [List.get?_eq_getElem?] at h
  obtain ⟨_, h3⟩ := List.getElem?_eq_some.mp h
  rw [h3]

lemma pathSteps_start_or_end (conf : Config) (ix : Ix)
    (π : List (Ix × StepType)) (tgt : Ix) (h : PathSteps conf ix π tgt) :
    (π = [] ∧ ix = tgt) ∨ ∃ st rest, π = (ix, st) :: rest := by
  cases h with
  | nil => exact .inl ⟨rfl, rfl⟩
  | cons hmem hrest => exact .inr ⟨_, _, rfl⟩

lemma countST_cons_hit (m : Match) (c : Char) (tr : List (Step Match Char)) :
    countSkipText (.hit m c :: tr) = countSkipText tr := by
  simp [countSkipText]

lemma countST_cons_skipPattern (m : Match) (tr : List (Step Match Char)) :
    countSkipText (.skipPattern m :: tr) = countSkipText tr := by
  simp [countSkipText]

lemma countST_cons_skipText (c : Char) (tr : List (Step Match Char)) :
    countSkipText (.skipText c :: tr) = countSkipText tr + 1 := by
  simp [countSkipText, List.filter]

lemma countST_cons_startCapture (tr : List (Step Match Char)) :
    countSkipText (.startCapture :: tr) = countSkipText tr := by
  simp [countSkipText]

lemma countST_cons_stopCapture (tr : List (Step Match Char)) :
    countSkipText (.stopCapture :: tr) = countSkipText tr := by
  simp [countSkipText]

lemma countSP_cons_hit (m : Match) (c : Char) (tr : List (Step Match Char)) :
    countSkipPattern (.hit m c :: tr) = countSkipPattern tr := by
  simp [countSkipPattern]

lemma countSP_cons_skipPattern (m : Match) (tr : List (Step Match Char)) :
    countSkipPattern (.skipPattern m :: tr) = countSkipPattern tr + 1 := by
  simp [countSkipPattern, List.filter]

lemma countSP_cons_skipText (c : Char) (tr : List (Step Match Char)) :
    countSkipPattern (.skipText c :: tr) = countSkipPattern tr := by
  simp [countSkipPattern]

lemma countSP_cons_startCapture (tr : List (Step Match Char)) :
    countSkipPattern (.startCapture :: tr) = countSkipPattern tr := by
  simp [countSkipPattern]

lemma countSP_cons_stopCapture (tr : List (Step Match Char)) :
    countSkipPattern (.stopCapture :: tr) = countSkipPattern tr := by
  simp [countSkipPattern]

lemma payloads_cons_hit (m : Match) (c : Char) (tr : List (Step Match Char)) :
    textPayloads (.hit m c :: tr) = c :: textPayloads tr := by
  simp [textPayloads]

lemma payloads_cons_skipPattern (m : Match) (tr : List (Step Match Char)) :
    textPayloads (.skipPattern m :: tr) = textPayloads tr := by
  simp [textPayloads]

lemma payloads_cons_skipText (c : Char) (tr : List (Step Match Char)) :
    textPayloads (.skipText c :: tr) = c :: textPayloads tr := by
  simp [textPayloads]

lemma payloads_cons_startCapture (tr : List (Step Match Char)) :
    textPayloads (.startCapture :: tr) = textPayloads tr := by
  simp [textPayloads]

lemma payloads_cons_stopCapture (tr : List (Step Match Char)) :
    textPayloads (.stopCapture :: tr) = textPayloads tr := by
  simp [textPayloads]

lemma costSum_eq_counts (tr : List (Step Match Char)) :
    (tr.map stepElemCost).sum = countSkipText tr + countSkipPattern tr := by
  induction tr with
  | nil => rfl
  | cons s tr ih =>
      rw [List.map_cons, List.sum_cons, ih]
      cases s with
      | hit m c =>
          rw [countST_cons_hit, countSP_cons_hit]
          simp [stepElemCost]
      | skipPattern m =>
          rw [countST_cons_skipPattern, countSP_cons_skipPattern]
          simp [stepElemCost]
          omega
      | skipText c =>
          rw [countST_cons_skipText, countSP_cons_skipText]
          simp [stepElemCost]
          omega
      | startCapture =>
          rw [countST_cons_startCapture, countSP_cons_startCapture]
          simp [stepElemCost]
      | stopCapture =>
          rw [countST_cons_stopCapture, countSP_cons_stopCapture]
          simp [stepElemCost]

/-- Walking the table from a done cell at a good index reconstructs: a
chain of available steps to the end index whose emitted elements are
exactly the appended trace; the cell's score counts the emitted skips; the
emitted text payloads are exactly the remaining text; and every
`Lit`/`Class` position the chain visits is emitted as a `Hit` or a
`SkipPattern`. -/
lemma walk_facts (p : Pattern) (t : List Char) (S : State)
    (hSI : StateInv p t S) :
    ∀ (fuel : Nat) (ix : Ix) (acc res : List (Step Match Char)),
    GoodIx p t ix → (S.get ix).is_done = true →
    walkTrace ⟨t, flatSeg p 1⟩ S fuel ix acc
      = .ok ((⟨t, flatSeg p 1⟩ : Config).endIx, res) →
    ∃ π tr, res = acc ++ tr
      ∧ PathSteps ⟨t, flatSeg p 1⟩ ix π ((⟨t, flatSeg p 1⟩ : Config).endIx)
      ∧ tr = π.filterMap (fun q => emitAt ⟨t, flatSeg p 1⟩ q.1 q.2)
      ∧ (S.get ix).score = countSkipText tr + countSkipPattern tr
      ∧ textPayloads tr = t.drop ix.text
      ∧ (∀ q ∈ π, ∀ m : Match,
          matchInstrAt (flatSeg p 1) q.1.pattern = some m →
          (∃ c, Step.hit m c ∈ tr) ∨ Step.skipPattern m ∈ tr) := by
  obtain ⟨hpl, hlen, hready, hcells, hparent⟩ := hSI
  intro fuel
  induction fuel with
  | zero =>
      intro ix acc res hg hdone hwalk
      unfold walkTrace at hwalk
      by_cases he : ix = (⟨t, flatSeg p 1⟩ : Config).endIx
      · rw [if_pos he] at hwalk
        simp only [Except.ok.injEq, Prod.mk.injEq] at hwalk
        obtain ⟨_, hres⟩ := hwalk
        subst he
        refine ⟨[], [], by simp [hres], PathSteps.nil _, rfl, ?_, ?_, by simp⟩
        · have h0 : (S.get ((⟨t, flatSeg p 1⟩ : Config).endIx)).score = 0 :=
            (hcells _ hg (done_not_ready hdone)).2.2.2.1 (avail_endIx p t)
          rw [h0]
          rfl
        · simp [textPayloads, Config.endIx]
      · rw [if_neg he] at hwalk
        exact absurd hwalk (by simp)
  | succ fuel ih =>
      intro ix acc res hg hdone hwalk
      unfold walkTrace at hwalk
      by_cases hbreak : ((!(S.get ix).is_done : Bool) = true
          ∨ ix = (⟨t, flatSeg p 1⟩ : Config).endIx)
      · rw [if_pos hbreak] at hwalk
        simp only [Except.ok.injEq, Prod.mk.injEq] at hwalk
        obtain ⟨hixe, hres⟩ := hwalk
        subst hixe
        refine ⟨[], [], by simp [hres], PathSteps.nil _, rfl, ?_, ?_, by simp⟩
        · have h0 : (S.get ((⟨t, flatSeg p 1⟩ : Config).endIx)).score = 0 :=
            (hcells _ hg (done_not_ready hdone)).2.2.2.1 (avail_endIx p t)
          rw [h0]
          rfl
        · simp [textPayloads, Config.endIx]
      · rw [if_neg hbreak] at hwalk
        push_neg at hbreak
        obtain ⟨_, hne_end⟩ := hbreak
        obtain ⟨hf1, hf2, hf3, hf4, hf5, hf6⟩ :=
          hcells ix hg (done_not_ready hdone)
        have hav_ne : Config.avail ⟨t, flatSeg p 1⟩ ix ≠ [] :=
          fun hnil => hne_end (goodIx_avail_eq_nil p t ix hg hnil)
        have hlen1 : 0 < (S.get ix).step_types.length := by
          rw [hf1]
          exact List.length_pos.mpr hav_ne
        have hdn := (is_done_iff _).mp hdone
        obtain ⟨j, hj, hst_j, hnx_j, hd_j, hs_j⟩ := hf6 (by omega)
        have hst_mem : (S.get ix).step_type
            ∈ Config.avail ⟨t, flatSeg p 1⟩ ix := by
          rw [hst_j, ← hf1]
          exact getD_mem_of_lt _ _ _ (by omega)
        have hgnext : GoodIx p t (S.get ix).next := by
          rw [hnx_j]
          exact (goodIx_step p t ix hg _ hst_mem).1
        have hdi : (S.get ix).done_info
            = .ok ((S.get ix).score, (S.get ix).step_type, (S.get ix).next) := by
          unfold Node.done_info
          rw [if_pos hdone]
        have hcg1 : (Config.get (⟨t, flatSeg p 1⟩ : Config) ix).1
            = (flatSeg p 1).get? ix.pattern := rfl
        have hcg2 : (Config.get (⟨t, flatSeg p 1⟩ : Config) ix).2
            = t.get? ix.text := rfl
        split at hwalk
        · rename_i e heq
          rw [hdi] at heq
          exact absurd heq (by simp)
        · rename_i sc0 st0 nx0 heq
          rw [hdi] at heq
          simp only [Except.ok.injEq, Prod.mk.injEq] at heq
          obtain ⟨hsc0, hst0, hnx0⟩ := heq
          subst hsc0
          subst hst0
          subst hnx0
          split at hwalk
          · exact absurd hwalk (by simp)
          · rename_i heq3
            have hstep_none := traceStep_none_inv _ _ _ heq3
            obtain ⟨π', tr', hres, hps, hfm, hsc', hpay, hmi⟩ :=
              ih (S.get ix).next acc res hgnext hd_j hwalk
            have hemit : emitAt ⟨t, flatSeg p 1⟩ ix (S.get ix).step_type
                = none := by
              simp [emitAt, heq3]
            refine ⟨(ix, (S.get ix).step_type) :: π', tr', hres, ?_, ?_, ?_, ?_, ?_⟩
            · refine PathSteps.cons hst_mem ?_
              rw [← hnx_j]
              exact hps
            · simp only [List.filterMap_cons, hemit]
              exact hfm
            · rw [hs_j, hsc', cost_zero_of_step_none _ hstep_none]
              omega
            · rw [hpay]
              congr 1
              rw [hnx_j]
              exact step_text_of_none _ _ _ hstep_none
            · intro q hq m hm
              rcases List.mem_cons.mp hq with hq1 | hq2
              · exfalso
                have hm' : matchInstrAt (flatSeg p 1) ix.pattern = some m := by
                  rw [hq1] at hm
                  exact hm
                unfold matchInstrAt at hm'
                rcases hfp : (flatSeg p 1).get? ix.pattern with _ | fl
                · rw [hfp] at hm'
                  simp [matchOf] at hm'
                · rw [hfp] at hm'
                  cases fl with
                  | lit c =>
                      rcases avail_lit_cases t _ ix c hfp _ hst_mem with h1 | ⟨h1, _⟩
                      · rw [h1] at hstep_none
                        simp [StepType.step] at hstep_none
                      · rcases h1 with h1 | h1 <;>
                          (rw [h1] at hstep_none
                           simp [StepType.step] at hstep_none)
                  | cls cl =>
                      rcases avail_cls_cases t _ ix cl hfp _ hst_mem with h1 | ⟨h1, _⟩
                      · rw [h1] at hstep_none
                        simp [StepType.step] at hstep_none
                      · rcases h1 with h1 | h1 <;>
                          (rw [h1] at hstep_none
                           simp [StepType.step] at hstep_none)
                  | groupStart => simp [matchOf] at hm'
                  | groupEnd => simp [matchOf] at hm'
                  | alternativeLeft off => simp [matchOf] at hm'
                  | alternativeRight off => simp [matchOf] at hm'
                  | repetitionStart off => simp [matchOf] at hm'
                  | repetitionEnd off => simp [matchOf] at hm'
              · exact hmi q hq2 m hm
          · rename_i s heq3
            have hemit : emitAt ⟨t, flatSeg p 1⟩ ix (S.get ix).step_type
                = some s := by
              simp [emitAt, heq3]
            obtain ⟨π', tr', hres, hps, hfm, hsc', hpay, hmi⟩ :=
              ih (S.get ix).next (acc ++ [s]) res hgnext hd_j hwalk
            have hinv := traceStep_some_inv _ _ _ _ heq3
            refine ⟨(ix, (S.get ix).step_type) :: π', s :: tr',
              by simp [hres], ?_, ?_, ?_, ?_, ?_⟩
            · refine PathSteps.cons hst_mem ?_
              rw [← hnx_j]
              exact hps
            · simp only [List.filterMap_cons, hemit]
              rw [← hfm]
            · rcases hinv with ⟨hst', m0, c0, hmo, htx, hse⟩
                | ⟨hst', m0, hmo, hse⟩ | ⟨hst', c0, htx, hse⟩
                | ⟨hst', hse⟩ | ⟨hst', hse⟩
              · subst hse
                rw [countST_cons_hit, countSP_cons_hit, hs_j, hsc', hst']
                simp [StepType.cost]
              · subst hse
                rw [countST_cons_skipPattern, countSP_cons_skipPattern, hs_j,
                  hsc', hst']
                simp [StepType.cost]
                omega
              · subst hse
                rw [countST_cons_skipText, countSP_cons_skipText, hs_j,
                  hsc', hst']
                simp [StepType.cost]
                omega
              · subst hse
                rw [countST_cons_startCapture, countSP_cons_startCapture, hs_j,
                  hsc', hst']
                simp [StepType.cost]
              · subst hse
                rw [countST_cons_stopCapture, countSP_cons_stopCapture, hs_j,
                  hsc', hst']
                simp [StepType.cost]
            · rcases hinv with ⟨hst', m0, c0, hmo, htx, hse⟩
                | ⟨hst', m0, hmo, hse⟩ | ⟨hst', c0, htx, hse⟩
                | ⟨hst', hse⟩ | ⟨hst', hse⟩
              · subst hse
                rw [hcg2] at htx
                have hnt : (S.get ix).next.text = ix.text + 1 := by
                  rw [hnx_j, hst']
                  rfl
                rw [payloads_cons_hit, hpay, hnt,
                  drop_get?_cons t ix.text c0 htx]
              · subst hse
                have hnt : (S.get ix).next.text = ix.text := by
                  rw [hnx_j, hst']
                  rfl
                rw [payloads_cons_skipPattern, hpay, hnt]
              · subst hse
                rw [hcg2] at htx
                have hnt : (S.get ix).next.text = ix.text + 1 := by
                  rw [hnx_j, hst']
                  rfl
                rw [payloads_cons_skipText, hpay, hnt,
                  drop_get?_cons t ix.text c0 htx]
              · subst hse
                have hnt : (S.get ix).next.text = ix.text := by
                  rw [hnx_j, hst']
                  rfl
                rw [payloads_cons_startCapture, hpay, hnt]
              · subst hse
                have hnt : (S.get ix).next.text = ix.text := by
                  rw [hnx_j, hst']
                  rfl
                rw [payloads_cons_stopCapture, hpay, hnt]
            · intro q hq m hm
              rcases List.mem_cons.mp hq with hq1 | hq2
              · have hm' : matchInstrAt (flatSeg p 1) ix.pattern = some m := by
                  rw [hq1] at hm
                  exact hm
                have hm'' := hm'
                unfold matchInstrAt at hm''
                rcases hinv with ⟨hst', m0, c0, hmo, htx, hse⟩
                  | ⟨hst', m0, hmo, hse⟩ | ⟨hst', c0, htx, hse⟩
                  | ⟨hst', hse⟩ | ⟨hst', hse⟩
                · subst hse
                  rw [hcg1] at hmo
                  rw [hmo] at hm''
                  simp only [Option.some.injEq] at hm''
                  subst hm''
                  exact .inl ⟨c0, List.mem_cons_self _ _⟩
                · subst hse
                  rw [hcg1] at hmo
                  rw [hmo] at hm''
                  simp only [Option.some.injEq] at hm''
                  subst hm''
                  exact .inr (List.mem_cons_self _ _)
                · subst hse
                  have hnp : (S.get ix).next.pattern = ix.pattern := by
                    rw [hnx_j, hst']
                    rfl
                  rcases pathSteps_start_or_end _ _ _ _ hps with ⟨_, hne2⟩
                    | ⟨st2, rest2, hpe⟩
                  · exfalso
                    have hple : (S.get ix).next.pattern
                        = (flatSeg p 1).length := by
                      rw [hne2]
                      rfl
                    rcases hfp : (flatSeg p 1).get? ix.pattern with _ | fl
                    · rw [hfp] at hm''
                      simp [matchOf] at hm''
                    · have := get?_some_lt _ _ _ hfp
                      omega
                  · have hm3 : matchInstrAt (flatSeg p 1)
                        ((S.get ix).next).pattern = some m := by
                      rw [hnp]
                      exact hm'
                    have hq3 : ((S.get ix).next, st2) ∈ π' := by
                      rw [hpe]
                      exact List.mem_cons_self _ _
                    rcases hmi _ hq3 m hm3 with ⟨c, hc⟩ | hsp
                    · exact .inl ⟨c, List.mem_cons_of_mem _ hc⟩
                    · exact .inr (List.mem_cons_of_mem _ hsp)
                · exfalso
                  rcases hfp : (flatSeg p 1).get? ix.pattern with _ | fl
                  · rw [hfp] at hm''
                    simp [matchOf] at hm''
                  · cases fl with
                    | lit c =>
                        rcases avail_lit_cases t _ ix c hfp _ hst_mem
                            with h1 | ⟨h1, _⟩
                        · rw [hst'] at h1
                          simp at h1
                        · rcases h1 with h1 | h1 <;>
                            (rw [hst'] at h1
                             simp at h1)
                    | cls cl =>
                        rcases avail_cls_cases t _ ix cl hfp _ hst_mem
                            with h1 | ⟨h1, _⟩
                        · rw [hst'] at h1
                          simp at h1
                        · rcases h1 with h1 | h1 <;>
                            (rw [hst'] at h1
                             simp at h1)
                    | groupStart =>
                        rw [hfp] at hm''
                        simp [matchOf] at hm''
                    | groupEnd =>
                        rw [hfp] at hm''
                        simp [matchOf] at hm''
                    | alternativeLeft off =>
                        rw [hfp] at hm''
                        simp [matchOf] at hm''
                    | alternativeRight off =>
                        rw [hfp] at hm''
                        simp [matchOf] at hm''
                    | repetitionStart off =>
                        rw [hfp] at hm''
                        simp [matchOf] at hm''
                    | repetitionEnd off =>
                        rw [hfp] at hm''
                        simp [matchOf] at hm''
                · exfalso
                  rcases hfp : (flatSeg p 1).get? ix.pattern with _ | fl
                  · rw [hfp] at hm''
                    simp [matchOf] at hm''
                  · cases fl with
                    | lit c =>
                        rcases avail_lit_cases t _ ix c hfp _ hst_mem
                            with h1 | ⟨h1, _⟩
                        · rw [hst'] at h1
                          simp at h1
                        · rcases h1 with h1 | h1 <;>
                            (rw [hst'] at h1
                             simp at h1)
                    | cls cl =>
                        rcases avail_cls_cases t _ ix cl hfp _ hst_mem
                            with h1 | ⟨h1, _⟩
                        · rw [hst'] at h1
                          simp at h1
                        · rcases h1 with h1 | h1 <;>
                            (rw [hst'] at h1
                             simp at h1)
                    | groupStart =>
                        rw [hfp] at hm''
                        simp [matchOf] at hm''
                    | groupEnd =>
                        rw [hfp] at hm''
                        simp [matchOf] at hm''
                    | alternativeLeft off =>
                        rw [hfp] at hm''
                        simp [matchOf] at hm''
                    | alternativeRight off =>
                        rw [hfp] at hm''
                        simp [matchOf] at hm''
                    | repetitionStart off =>
                        rw [hfp] at hm''
                        simp [matchOf] at hm''
                    | repetitionEnd off =>
                        rw [hfp] at hm''
                        simp [matchOf] at hm''
              · rcases hmi q hq2 m hm with ⟨c, hc⟩ | hsp
                · exact .inl ⟨c, List.mem_cons_of_mem _ hc⟩
                · exact .inr (List.mem_cons_of_mem _ hsp)

/-- The score of a done cell at a good index bounds from below the cost of
every chain of available steps from that index to the end index. -/
lemma cell_optimal (p : Pattern) (t : List Char) (S : State)
    (hSI : StateInv p t S) :
    ∀ (π : List StepType) (ix : Ix), GoodIx p t ix →
    (S.get ix).is_done = true →
    PathFromTo ⟨t, flatSeg p 1⟩ ix π ((⟨t, flatSeg p 1⟩ : Config).endIx) →
    (S.get ix).score ≤ pathCost π := by
  obtain ⟨hpl, hlen, hready, hcells, hparent⟩ := hSI
  intro π
  induction π with
  | nil =>
      intro ix hg hdone hpath
      cases hpath
      have h0 : (S.get ((⟨t, flatSeg p 1⟩ : Config).endIx)).score = 0 :=
        (hcells _ hg (done_not_ready hdone)).2.2.2.1 (avail_endIx p t)
      rw [h0]
      exact Nat.zero_le _
  | cons st rest ih =>
      intro ix hg hdone hpath
      cases hpath with
      | cons hst heq hrest =>
          rename_i ix1
          obtain ⟨hf1, hf2, hf3, hf4, hf5, hf6⟩ :=
            hcells ix hg (done_not_ready hdone)
          have hstm : st ∈ (S.get ix).step_types := by
            rw [hf1]
            exact hst
          obtain ⟨i, hi, hgetD⟩ := mem_exists_getD _ st .hit hstm
          have hdn := (is_done_iff _).mp hdone
          obtain ⟨hd_i, hs_i⟩ := hf5 i (by omega)
          rw [hgetD] at hd_i hs_i
          rw [← heq] at hd_i hs_i
          have hg1 : GoodIx p t ix1 := by
            rw [heq]
            exact (goodIx_step p t ix hg st hst).1
          have hrec := ih ix1 hg1 hd_i hrest
          have hpc : pathCost (st :: rest) = st.cost + pathCost rest := by
            simp [pathCost]
          omega

/-- **C1.** On every success of `solve`, the returned score is a lower
bound on the cost (the number of `SkipText` plus `SkipPattern` steps) of
every chain of available steps from the start index to the end index of
the lattice — i.e. of every alternative trace consistent with the
pattern's control structure over the text; the returned score is therefore
the minimum such cost. -/
theorem c1_optimality (p : Pattern) (t : Atoms) (sol : TableSolution)
    (hok : TableSolution.solve p t = .ok sol) (π : List StepType)
    (hpath : PathFromTo (Config.new p t) ((Config.new p t).start) π
      ((Config.new p t).endIx)) :
    sol.score ≤ pathCost π := by
  obtain ⟨S', hSI, hdone, hsc, _⟩ := solve_split p t sol hok
  rw [conf_new_eq] at hpath
  rw [hsc]
  exact cell_optimal p t.atoms S' hSI π _ (goodIx_start p t.atoms) hdone hpath

/-- Witness for C1: for pattern `a` against text `"a"`, `solve` returns
score 0, and the one-step `Hit` chain from start to end costs 0 ≥ 0. -/
theorem c1_optimality_witness :
    (0 : Nat) ≤ pathCost [StepType.hit] :=
  c1_optimality (Pattern.cons (.matchE (.lit 'a')) .nil) ⟨['a']⟩
    ⟨0, [.hit (.lit 'a') 'a']⟩ (by decide) [StepType.hit]
    (PathFromTo.cons (by decide) (by decide) (PathFromTo.nil _))

/-- **C2.** On every success of `solve`, the returned score equals the
number of `SkipText` steps plus the number of `SkipPattern` steps of the
returned trace, which is also the sum of the per-step costs along the
trace (skips cost 1, everything else costs 0). -/
theorem c2_trace_cost (p : Pattern) (t : Atoms) (sol : TableSolution)
    (hok : TableSolution.solve p t = .ok sol) :
    sol.score = countSkipText sol.trace + countSkipPattern sol.trace
      ∧ sol.score = (sol.trace.map stepElemCost).sum := by
  obtain ⟨S', hSI, hdone, hsc, hwalk⟩ := solve_split p t sol hok
  obtain ⟨π, tr, hres, hps, hfm, hsc2, hpay, hmi⟩ :=
    walk_facts p t.atoms S' hSI (S'.nodes.length + 1) _ [] sol.trace
      (goodIx_start p t.atoms) hdone hwalk
  have htr : sol.trace = tr := by simpa using hres
  rw [htr, hsc, hsc2, costSum_eq_counts]
  exact ⟨rfl, rfl⟩

/-- Witness for C2: pattern `bar` against text `"baz"` solves with score 2
and a trace containing one `SkipPattern` and one `SkipText`. -/
theorem c2_trace_cost_witness :
    (2 : Nat) = countSkipText [Step.hit (Match.lit 'b') 'b',
        Step.hit (Match.lit 'a') 'a', Step.skipPattern (Match.lit 'r'),
        Step.skipText 'z']
      + countSkipPattern [Step.hit (Match.lit 'b') 'b',
        Step.hit (Match.lit 'a') 'a', Step.skipPattern (Match.lit 'r'),
        Step.skipText 'z']
    ∧ (2 : Nat) = (([Step.hit (Match.lit 'b') 'b',
        Step.hit (Match.lit 'a') 'a', Step.skipPattern (Match.lit 'r'),
        Step.skipText 'z'].map stepElemCost)).sum :=
  c2_trace_cost
    (Pattern.cons (.matchE (.lit 'b')) (Pattern.cons (.matchE (.lit 'a'))
      (Pattern.cons (.matchE (.lit 'r')) .nil)))
    ⟨['b', 'a', 'z']⟩
    ⟨2, [.hit (.lit 'b') 'b', .hit (.lit 'a') 'a',
      .skipPattern (.lit 'r'), .skipText 'z']⟩
    (by decide)

/-- **C3.** On every success of `solve`: every character of the text
appears exactly once, in text order, as the text side of a `Hit` or the
payload of a `SkipText` (the trace's text payloads are exactly the text);
and the trace is the emission of a chain of available steps from start to
end such that every `Lit`/`Class` instruction the chain visits (i.e. every
such instruction not inside an un-entered alternative branch or un-entered
repetition) appears in the trace as the pattern side of a `Hit` or the
payload of a `SkipPattern`. -/
theorem c3_coverage (p : Pattern) (t : Atoms) (sol : TableSolution)
    (hok : TableSolution.solve p t = .ok sol) :
    textPayloads sol.trace = t.atoms
      ∧ ∃ π, PathSteps (Config.new p t) ((Config.new p t).start) π
          ((Config.new p t).endIx)
        ∧ sol.trace = π.filterMap (fun q => emitAt (Config.new p t) q.1 q.2)
        ∧ (∀ q ∈ π, ∀ m : Match,
            matchInstrAt (Config.new p t).pattern q.1.pattern = some m →
            (∃ c, Step.hit m c ∈ sol.trace)
              ∨ Step.skipPattern m ∈ sol.trace) := by
  obtain ⟨S', hSI, hdone, hsc, hwalk⟩ := solve_split p t sol hok
  obtain ⟨π, tr, hres, hps, hfm, hsc2, hpay, hmi⟩ :=
    walk_facts p t.atoms S' hSI (S'.nodes.length + 1) _ [] sol.trace
      (goodIx_start p t.atoms) hdone hwalk
  have htr : sol.trace = tr := by simpa using hres
  rw [conf_new_eq]
  refine ⟨?_, π, hps, ?_, ?_⟩
  · rw [htr, hpay]
    rfl
  · rw [htr]
    exact hfm
  · intro q hq m hm
    rw [htr]
    exact hmi q hq m hm

/-- Witness for C3: pattern `a` against text `"a"` solves with the trace
`[Hit(a, 'a')]`, which covers the whole text and the single instruction. -/
theorem c3_coverage_witness :
    textPayloads [Step.hit (Match.lit 'a') 'a']
        = (⟨['a']⟩ : Atoms).atoms
      ∧ ∃ π, PathSteps
            (Config.new (Pattern.cons (.matchE (.lit 'a')) .nil) ⟨['a']⟩)
            ((Config.new (Pattern.cons (.matchE (.lit 'a')) .nil)
              ⟨['a']⟩).start) π
            ((Config.new (Pattern.cons (.matchE (.lit 'a')) .nil)
              ⟨['a']⟩).endIx)
        ∧ [Step.hit (Match.lit 'a') 'a'] = π.filterMap (fun q =>
            emitAt (Config.new (Pattern.cons (.matchE (.lit 'a')) .nil)
              ⟨['a']⟩) q.1 q.2)
        ∧ (∀ q ∈ π, ∀ m : Match,
            matchInstrAt (Config.new (Pattern.cons (.matchE (.lit 'a')) .nil)
              ⟨['a']⟩).pattern q.1.pattern = some m →
            (∃ c, Step.hit m c ∈ [Step.hit (Match.lit 'a') 'a'])
              ∨ Step.skipPattern m ∈ [Step.hit (Match.lit 'a') 'a']) :=
  c3_coverage (Pattern.cons (.matchE (.lit 'a')) .nil) ⟨['a']⟩
    ⟨0, [.hit (.lit 'a') 'a']⟩ (by decide)

end Fuzzy
